import Mathlib

/-!
# sig0x: a signal/slot ring (`src/sig0x.hpp`)

A shallow embedding of `sig0x::Slot<Params...>`.

* Pointers (`Socket*`) are natural numbers, `0` is the null pointer.
* The heap maps an address to the `Socket` stored there, `none` for an address
  that holds no live object (never allocated, or destroyed).
* Dereferencing a pointer to no live object is undefined behaviour in C++;
  here it is the error `Err.dangling`.
* `unsigned int refs` is a natural number, `++` and `--` are taken modulo `2^32`.
* A functor is identified by a tag; what the functor does when called is given
  by a program table `prog : Nat → List Action`.  Calling the functor appends
  its tag to the invocation trace and then runs its actions.  The four payload
  variants (`FunctorSocket`, `StaticFuncSocket`, `MethSocket`,
  `StaticMethSocket`) have the same `operator()`: call the payload, then
  `Socket::operator()`; one tagged variant stands for all of them.
* The `Link` objects of the client are the entries of `State.links`; a `Link`
  is named by its index.  Constructing a `Link` appends an entry.
* The virtual call chain `(*next)(params...)` may not terminate (a handler may
  fire its own signal), so `invoke` takes fuel.
-/

namespace Sig0x

/-- Ways in which an execution does not produce a result. -/
inductive Err where
  | dangling
  | fuel
  deriving DecidableEq, Repr

/-- Object `Slot::Socket` (lines 10-44) together with the payload of its dynamic type:
`functor = none` is a `NullSocket`, `functor = some t` a `FunctorSocket`
holding the functor tagged `t`. -/
structure Socket where
  prev : Nat
  next : Nat
  refs : Nat
  functor : Option Nat
  deriving DecidableEq, Repr

/-- What a handler body may do to the signal it is bound to. -/
inductive Action where
  /-- Statement `l.release()` on the client's `Link` number `l`. -/
  | release (l : Nat)
  /-- Statement `Link fresh = slot.bind(f)` for the functor tagged `t`. -/
  | bind (t : Nat)
  /-- Statement `slot.fire()`. -/
  | fire
  /-- Statement `if (!fired) { fired = true; slot.fire(); }` of a functor tagged
  `t` that keeps a flag `fired`, initially `false`. The flag is read off the
  trace: it is set once the functor has been called before the current call. -/
  | fireOnce (t : Nat)
  deriving DecidableEq, Repr

/-- Memory: the sockets, the allocation frontier, the client's `Link` objects
(each one its `socket` pointer) and the trace of functor invocations. -/
structure State where
  heap : Nat → Option Socket
  brk : Nat
  links : List Nat
  trace : List Nat

/-- The state before anything is constructed. Address `0` is never allocated. -/
def State.init : State :=
  { heap := fun _ => none, brk := 1, links := [], trace := [] }

/-- Decrement `--` on `unsigned int`. -/
def wdec (r : Nat) : Nat := (r + 4294967295) % 4294967296

/-- Increment `++` on `unsigned int`. -/
def winc (r : Nat) : Nat := (r + 1) % 4294967296

/-- Read the object a pointer refers to. -/
def readSock (s : State) (p : Nat) : Except Err Socket :=
  match s.heap p with
  | some k => .ok k
  | none => .error .dangling

/-- Store an object at an address. -/
def writeSock (s : State) (p : Nat) (k : Socket) : State :=
  { s with heap := Function.update s.heap p (some k) }

/-- Assignment `p->next = v`. -/
def setNext (s : State) (p v : Nat) : Except Err State := do
  let k ← readSock s p
  pure (writeSock s p { k with next := v })

/-- Assignment `p->prev = v`. -/
def setPrev (s : State) (p v : Nat) : Except Err State := do
  let k ← readSock s p
  pure (writeSock s p { k with prev := v })

/-- Constructor `Socket::Socket(prev_, next_)` (lines 14-18) run on freshly allocated
storage at address `this`, for an object whose payload is `f`. -/
def Socket.ctor (s : State) (this prev_ next_ : Nat) (f : Option Nat) : Except Err State := do
  let s1 := writeSock s this { prev := prev_, next := next_, refs := 1, functor := f }
  let s2 ← setNext s1 prev_ this
  setPrev s2 next_ this

/-- Expression `new T(prev_, next_, ...)`: allocate at the frontier and construct. -/
def Socket.new (s : State) (prev_ next_ : Nat) (f : Option Nat) : Except Err (State × Nat) := do
  let this := s.brk
  let s1 ← Socket.ctor { s with brk := s.brk + 1 } this prev_ next_ f
  pure (s1, this)

/-- Method `Socket::decref` (lines 35-41). -/
def Socket.decref (s : State) (p : Nat) : Except Err State := do
  let k ← readSock s p
  if k.refs = 0 then
    pure { s with heap := Function.update s.heap p none }
  else
    pure (writeSock s p { k with refs := wdec k.refs })

/-- Method `Socket::incref` (lines 32-34). -/
def Socket.incref (s : State) (p : Nat) : Except Err State := do
  let k ← readSock s p
  pure (writeSock s p { k with refs := winc k.refs })

/-- Method `Socket::release` (lines 23-31). Every statement re-reads `this`. -/
def Socket.release (s : State) (p : Nat) : Except Err State := do
  let k ← readSock s p
  if k.prev ≠ 0 then
    let s1 ← setNext s k.prev k.next
    let k1 ← readSock s1 p
    let s2 ← setPrev s1 k1.next k1.prev
    let k2 ← readSock s2 p
    let s3 := writeSock s2 p { k2 with prev := 0 }
    let k3 ← readSock s3 p
    let s4 := writeSock s3 p { k3 with refs := wdec k3.refs }
    Socket.decref s4 p
  else
    Socket.decref s p

/-- The `socket` pointer of `Link` number `l`; a `Link` that does not exist
holds nothing. -/
def getLink (s : State) (l : Nat) : Nat := s.links.getD l 0

/-- Assignment to the `socket` member of `Link` number `l`. -/
def setLink (s : State) (l v : Nat) : State := { s with links := s.links.set l v }

/-- Constructor `Link::Link()` (lines 50-51); returns the number of the new `Link`. -/
def Link.default (s : State) : State × Nat :=
  ({ s with links := s.links ++ [0] }, s.links.length)

/-- Constructor `Link::Link(Socket*)` (lines 52-53). -/
def Link.mk (s : State) (p : Nat) : State × Nat :=
  ({ s with links := s.links ++ [p] }, s.links.length)

/-- Constructor `Link::Link(const Link&)` (lines 54-57). -/
def Link.copy (s : State) (that : Nat) : Except Err (State × Nat) := do
  let p := getLink s that
  let s1 := { s with links := s.links ++ [p] }
  if p ≠ 0 then
    let s2 ← Socket.incref s1 p
    pure (s2, s.links.length)
  else
    pure (s1, s.links.length)

/-- Constructor `Link::Link(Link&&)` (lines 58-61). -/
def Link.move (s : State) (that : Nat) : State × Nat :=
  let p := getLink s that
  (setLink { s with links := s.links ++ [p] } that 0, s.links.length)

/-- Operator `Link::operator=(const Link&)` (lines 62-67). -/
def Link.assign (s : State) (l that : Nat) : Except Err State := do
  let s1 ← if getLink s that ≠ 0 then Socket.incref s (getLink s that) else pure s
  let s2 ← if getLink s1 l ≠ 0 then Socket.decref s1 (getLink s1 l) else pure s1
  pure (setLink s2 l (getLink s2 that))

/-- Operator `Link::operator=(Link&&)` (lines 68-71): `std::swap`. -/
def Link.moveAssign (s : State) (l that : Nat) : State :=
  let a := getLink s l
  let b := getLink s that
  setLink (setLink s l b) that a

/-- Method `Link::release` (lines 73-78). -/
def Link.release (s : State) (l : Nat) : Except Err State := do
  if getLink s l ≠ 0 then
    let s1 ← Socket.release s (getLink s l)
    pure (setLink s1 l 0)
  else
    pure s

/-- Destructor `Link::~Link` (lines 80-82). The object ends here; its entry is
cleared so that it no longer counts as a `Link` holding the socket. -/
def Link.dtor (s : State) (l : Nat) : Except Err State := do
  if getLink s l ≠ 0 then
    let s1 ← Socket.decref s (getLink s l)
    pure (setLink s1 l 0)
  else
    pure s

/-- Constructor `AutoLink::AutoLink()` (lines 86-87); an `AutoLink` is named by the
number of its member `connection`. -/
def AutoLink.default (s : State) : State × Nat := Link.mk s 0

/-- Constructor `AutoLink::AutoLink(const Link&)` (lines 88-89). -/
def AutoLink.copy (s : State) (connection_ : Nat) : Except Err (State × Nat) :=
  Link.copy s connection_

/-- Constructor `AutoLink::AutoLink(Link&&)` (lines 90-91). -/
def AutoLink.move (s : State) (connection_ : Nat) : State × Nat :=
  Link.move s connection_

/-- Operator `AutoLink::operator=(const Link&)` (lines 92-95). -/
def AutoLink.assign (s : State) (a connection_ : Nat) : Except Err State :=
  Link.assign s a connection_

/-- Operator `AutoLink::operator=(Link&&)` (lines 96-99). -/
def AutoLink.moveAssign (s : State) (a connection_ : Nat) : State :=
  Link.moveAssign s a connection_

/-- Destructor `AutoLink::~AutoLink` (lines 100-102), followed by the destructor of
the member `connection`. -/
def AutoLink.dtor (s : State) (a : Nat) : Except Err State := do
  let s1 ← Link.release s a
  Link.dtor s1 a

/-- Constructor `Slot::Slot()` (line 162): the member `sockets` is a
`NullSocket() : Socket(this, this)` (line 107). Returns the address of `sockets`. -/
def Slot.ctor (s : State) : Except Err (State × Nat) := do
  let this := s.brk
  let s1 ← Socket.ctor { s with brk := s.brk + 1 } this this this none
  pure (s1, this)

/-- Method `Slot::bind(Functor&&)` (lines 179-183) for the functor tagged `t`, on the
slot whose `sockets` member is at `sl`. Returns the number of the returned `Link`. -/
def Slot.bind (s : State) (sl t : Nat) : Except Err (State × Nat) := do
  let k ← readSock s sl
  let (s1, p) ← Socket.new s k.prev sl (some t)
  pure (Link.mk s1 p)

/-- One action of a handler body; `fireK` is what `slot.fire()` does. -/
def execAction (fireK : State → Except Err State) (sl : Nat) (s : State) :
    Action → Except Err State
  | .release l => Link.release s l
  | .bind t => do
    let (s1, _) ← Slot.bind s sl t
    pure s1
  | .fire => fireK s
  | .fireOnce t => if s.trace.count t ≤ 1 then fireK s else pure s

/-- The statements of a handler body, in order. -/
def execActions (fireK : State → Except Err State) (sl : Nat) :
    State → List Action → Except Err State
  | s, [] => pure s
  | s, a :: as => do
    let s1 ← execAction fireK sl s a
    execActions fireK sl s1 as

/-- The virtual call `(*p)(params...)`.
`NullSocket::operator()` (line 108) does nothing.
`FunctorSocket::operator()` (lines 117-120) calls the functor and then
`Socket::operator()` (lines 20-22), which reads `this->next` and calls it. -/
def invoke (prog : Nat → List Action) (sl : Nat) : Nat → State → Nat → Except Err State
  | 0, _, _ => .error .fuel
  | fuel + 1, s, p => do
    let k ← readSock s p
    match k.functor with
    | none => pure s
    | some t =>
      let s1 ← execActions
        (fun s0 => do
          let k0 ← readSock s0 sl
          invoke prog sl fuel s0 k0.next)
        sl { s with trace := s.trace ++ [t] } (prog t)
      let k1 ← readSock s1 p
      invoke prog sl fuel s1 k1.next

/-- Method `Slot::fire` (lines 226-228). -/
def Slot.fire (prog : Nat → List Action) (fuel : Nat) (s : State) (sl : Nat) :
    Except Err State := do
  let k ← readSock s sl
  invoke prog sl fuel s k.next

/-- The loop of `Slot::~Slot` (lines 164-169). -/
def Slot.dtorLoop (sl : Nat) : Nat → State → Except Err State
  | 0, _ => .error .fuel
  | fuel + 1, s => do
    let k ← readSock s sl
    if k.next ≠ sl then
      let first ← readSock s k.next
      let next := first.next
      let s1 ← setPrev s k.next 0
      let k1 ← readSock s1 sl
      let s2 ← Socket.decref s1 k1.next
      let s3 ← setNext s2 sl next
      Slot.dtorLoop sl fuel s3
    else
      pure s

/-- Destructor `Slot::~Slot` (lines 163-170); afterwards the member `sockets` is
no longer a live object. -/
def Slot.dtor (sl : Nat) (fuel : Nat) (s : State) : Except Err State := do
  let s1 ← Slot.dtorLoop sl fuel s
  pure { s1 with heap := Function.update s1.heap sl none }

/-! ## Specification vocabulary -/

/-- The `next` field of the object at `p`, if there is one. -/
def nextOf (h : Nat → Option Socket) (p : Nat) : Option Nat := (h p).map (·.next)

/-- The `prev` field of the object at `p`, if there is one. -/
def prevOf (h : Nat → Option Socket) (p : Nat) : Option Nat := (h p).map (·.prev)

/-- The `refs` field of the object at `p`, if there is one. -/
def refsOf (h : Nat → Option Socket) (p : Nat) : Option Nat := (h p).map (·.refs)

/-- The payload of the object at `p`, if there is an object. -/
def functorOf (h : Nat → Option Socket) (p : Nat) : Option (Option Nat) :=
  (h p).map (·.functor)

/-- Nodes `a` and `b` are live neighbours: `a->next == b` and `b->prev == a`. -/
def Adj (h : Nat → Option Socket) (a b : Nat) : Prop :=
  nextOf h a = some b ∧ prevOf h b = some a

/-- Following `next` from `p` visits exactly the nodes of `L`, in order, and
then reaches `q`; every `prev` pointer on the way points back. -/
def Seg (h : Nat → Option Socket) : Nat → List Nat → Nat → Prop
  | p, [], q => Adj h p q
  | p, a :: L, q => Adj h p a ∧ Seg h a L q

instance instDecidableAdj (h : Nat → Option Socket) (a b : Nat) : Decidable (Adj h a b) := by
  unfold Adj
  exact inferInstance

instance instDecidableSeg (h : Nat → Option Socket) :
    (p : Nat) → (L : List Nat) → (q : Nat) → Decidable (Seg h p L q)
  | p, [], q => instDecidableAdj h p q
  | p, a :: L, q =>
    match instDecidableAdj h p a, instDecidableSeg h a L q with
    | isTrue h1, isTrue h2 => isTrue ⟨h1, h2⟩
    | isFalse h1, _ => isFalse (fun c => h1 c.1)
    | _, isFalse h2 => isFalse (fun c => h2 c.2)

/-- The ring of the slot at `sl` is well formed and its handler nodes are, in
ring order from `sockets.next`, the nodes at the addresses `L`: the cycle
`sl → L → sl` is doubly linked, visits each node once, the sentinel is the only
node in it without payload, and no node in it is at the null address. -/
def Ring (s : State) (sl : Nat) (L : List Nat) : Prop :=
  Seg s.heap sl L sl ∧ (sl :: L).Nodup ∧ 0 ∉ sl :: L ∧
  functorOf s.heap sl = some none ∧
  ∀ a ∈ L, (functorOf s.heap a).join ≠ none

instance instDecidableRing (s : State) (sl : Nat) (L : List Nat) : Decidable (Ring s sl L) := by
  unfold Ring
  exact inferInstance

/-- Everything at or above the allocation frontier is unallocated, and the
frontier is above the null address. -/
def Fresh (s : State) : Prop :=
  0 < s.brk ∧ ∀ p, s.brk ≤ p → s.heap p = none

/-- The functor tags of the nodes at the addresses `L`, in order. -/
def tagsOf (h : Nat → Option Socket) (L : List Nat) : List Nat :=
  L.filterMap (fun a => (functorOf h a).join)

/-- The number of `Link` objects whose `socket` is `p`. -/
def linkCount (s : State) (p : Nat) : Nat := s.links.count p

/-- The ownership equation at the live node `p`: the stored count is one less
than the number of owners, the owners being the `Link` objects that hold `p`
and, while `p` is linked (`prev != 0`), the ring; and the stored count is a
value of `unsigned int`. -/
def Owned (s : State) (p : Nat) : Prop :=
  match s.heap p with
  | some k => k.refs + 1 = linkCount s p + (if k.prev ≠ 0 then 1 else 0) ∧ k.refs < 4294967296
  | none => False

instance instDecidableOwned (s : State) (p : Nat) : Decidable (Owned s p) := by
  unfold Owned
  split <;> exact inferInstance

/-- Following `next` from `p` visits the nodes of `L`, in order, and then
reaches `q`. -/
def Fwd (h : Nat → Option Socket) : Nat → List Nat → Nat → Prop
  | p, [], q => nextOf h p = some q
  | p, a :: L, q => nextOf h p = some a ∧ Fwd h a L q

/-! ## Client code and handler tables -/

/-- Client code `slot.bind(f1); ...; slot.bind(fn)` keeping every returned `Link`. -/
def bindAll (sl : Nat) : State → List Nat → Except Err State
  | s, [] => pure s
  | s, t :: ts => do
    let (s1, _) ← Slot.bind s sl t
    bindAll sl s1 ts

/-- Client code that ends the listed `Link` objects one after the other, each
either by `release()` (`true`) or by going out of scope (`false`). -/
def dropLinks : State → List (Bool × Nat) → Except Err State
  | s, [] => pure s
  | s, (rel, l) :: ops => do
    let s1 ← if rel then Link.release s l else Link.dtor s l
    dropLinks s1 ops

/-- A handler table in which the functor tagged 7 binds a new handler tagged 99
and every other functor leaves the signal alone. -/
def progBind : Nat → List Action := fun t => if t = 7 then [Action.bind 99] else []

/-- A handler table in which the functor tagged `tx` calls `release` on `Link`
number `l` and every other functor leaves the signal alone. -/
def progRelease (tx l : Nat) : Nat → List Action :=
  fun t => if t = tx then [Action.release l] else []

/-- A handler table in which the functor tagged `tx` fires the slot on its first
invocation only and every other functor leaves the signal alone. -/
def progFireOnce (tx : Nat) : Nat → List Action :=
  fun t => if t = tx then [Action.fireOnce tx] else []

/-- The invocation trace of a run that returned. -/
def traceOf : Except Err State → Option (List Nat)
  | .ok s => some s.trace
  | .error _ => none

/-! ## Sample states -/

/-- The state after `Slot slot; Link a = slot.bind(f7); Link b = slot.bind(f8);
Link c = slot.bind(f9);` run from `State.init`: sentinel at 1, handlers at 2, 3, 4. -/
def ringABC : State :=
  { heap := fun p =>
      if p = 1 then some { prev := 4, next := 2, refs := 1, functor := none }
      else if p = 2 then some { prev := 1, next := 3, refs := 1, functor := some 7 }
      else if p = 3 then some { prev := 2, next := 4, refs := 1, functor := some 8 }
      else if p = 4 then some { prev := 3, next := 1, refs := 1, functor := some 9 }
      else none,
    brk := 5, links := [2, 3, 4], trace := [] }

/-- The state `ringABC` after `Link d = b;`: a second `Link` holds the node of
handler 8. -/
def ringABCcopy : State :=
  { heap := fun p =>
      if p = 1 then some { prev := 4, next := 2, refs := 1, functor := none }
      else if p = 2 then some { prev := 1, next := 3, refs := 1, functor := some 7 }
      else if p = 3 then some { prev := 2, next := 4, refs := 2, functor := some 8 }
      else if p = 4 then some { prev := 3, next := 1, refs := 1, functor := some 9 }
      else none,
    brk := 5, links := [2, 3, 4, 3], trace := [] }

/-- The state `ringABCcopy` after `~Slot`: the sentinel is gone, the three
handler nodes are detached and still held by the four `Link` objects. -/
def tornABCcopy : State :=
  { heap := fun p =>
      if p = 2 then some { prev := 0, next := 3, refs := 0, functor := some 7 }
      else if p = 3 then some { prev := 0, next := 4, refs := 1, functor := some 8 }
      else if p = 4 then some { prev := 0, next := 1, refs := 0, functor := some 9 }
      else none,
    brk := 5, links := [2, 3, 4, 3], trace := [] }

/-- The state after `Slot slot;` run from `State.init`: the sentinel alone. -/
def ringNone : State :=
  { heap := fun p =>
      if p = 1 then some { prev := 1, next := 1, refs := 1, functor := none } else none,
    brk := 2, links := [], trace := [] }

/-- Client code `Link c1(l); ...; Link cn(l);`: `n` copies of `Link` number `l`. -/
def copyN (l : Nat) : Nat → State → Except Err State
  | 0, s => pure s
  | n + 1, s => do
    let (s1, _) ← Link.copy s l
    copyN l n s1

/-! ## Client operations and reachable states -/

/-- What client code may do with a slot and its `Link` objects outside a fire.
An `AutoLink` is its member `connection`: its constructors and assignments are
those of `Link`. -/
inductive Op where
  /-- Statement `Link fresh = slot.bind(f)` for the functor tagged `t`. -/
  | bind (t : Nat)
  /-- Statement `Link fresh;`. -/
  | linkDefault
  /-- Statement `Link fresh(that);`. -/
  | copy (that : Nat)
  /-- Statement `Link fresh(std::move(that));`. -/
  | move (that : Nat)
  /-- Statement `l = that;`. -/
  | assign (l that : Nat)
  /-- Statement `l = std::move(that);`. -/
  | moveAssign (l that : Nat)
  /-- Statement `l.release();`. -/
  | release (l : Nat)
  /-- End of the lifetime of the `Link` number `l`. -/
  | dtor (l : Nat)
  /-- End of the lifetime of the `AutoLink` whose `connection` is number `l`. -/
  | autoDtor (l : Nat)
  deriving DecidableEq, Repr

/-- Run one client operation on the slot at `sl`. -/
def Op.exec (sl : Nat) (s : State) : Op → Except Err State
  | .bind t => do
    let (s1, _) ← Slot.bind s sl t
    pure s1
  | .linkDefault => pure (Link.default s).1
  | .copy that => do
    let (s1, _) ← Link.copy s that
    pure s1
  | .move that => pure (Link.move s that).1
  | .assign l that => Link.assign s l that
  | .moveAssign l that => pure (Link.moveAssign s l that)
  | .release l => Link.release s l
  | .dtor l => Link.dtor s l
  | .autoDtor l => AutoLink.dtor s l

/-- When client code can perform an operation: `bind` needs the slot to be
alive, an assignment needs its operands to be `Link` objects that exist, and a
copy is only taken while fewer than `2^32 - 1` `Link` objects hold the node, so
that `refs++` does not wrap. -/
def Op.ok (alive : Bool) (s : State) : Op → Prop
  | .bind _ => alive = true
  | .copy that => getLink s that ≠ 0 → linkCount s (getLink s that) + 1 < 4294967296
  | .assign l that => l < s.links.length ∧
      (getLink s that ≠ 0 → linkCount s (getLink s that) + 1 < 4294967296)
  | .moveAssign l that => l < s.links.length ∧ that < s.links.length
  | _ => True

/-- The states client code can reach from a freshly constructed slot whose
sentinel is at `sl`; the flag tells whether the slot is still alive. -/
inductive Reach (sl : Nat) : Bool → State → Prop
  | ctor {s : State} : Slot.ctor State.init = .ok (s, sl) → Reach sl true s
  | step {alive : Bool} {s s1 : State} (op : Op) :
      Reach sl alive s → op.ok alive s → op.exec sl s = .ok s1 → Reach sl alive s1
  | teardown {s s1 : State} (fuel : Nat) :
      Reach sl true s → Slot.dtor sl fuel s = .ok s1 → Reach sl false s1

/-- The owners of the node `p`: the `Link` objects that hold it and, if `p` is
one of the nodes `L` of the ring, the ring. -/
def owners (s : State) (L : List Nat) (p : Nat) : Nat :=
  linkCount s p + (if p ∈ L then 1 else 0)

/-- The invariant of reachable states, for the ring nodes `L`. -/
structure InvL (sl : Nat) (alive : Bool) (s : State) (L : List Nat) : Prop where
  fresh : Fresh s
  null : s.heap 0 = none
  slnz : sl ≠ 0
  ring : alive = true → Ring s sl L
  gone : alive = false → L = [] ∧ s.heap sl = none
  bal : ∀ p r, p ≠ sl → refsOf s.heap p = some r →
    r + 1 = owners s L p ∧ r < 4294967296
  det : ∀ p q, p ≠ sl → p ∉ L → prevOf s.heap p = some q → q = 0
  dead : ∀ p, p ≠ 0 → s.heap p = none → linkCount s p = 0
  nosl : linkCount s sl = 0

end Sig0x

/-! # Properties -/

namespace Sig0x

/-! ## Segments of the ring -/

theorem seg_last_mem {h : Nat → Option Socket} :
    ∀ (L : List Nat) (p q P : Nat), Seg h p L q → prevOf h q = some P → P ∈ p :: L := by
  intro L
  induction L with
  | nil =>
    intro p q P hs hP
    have h1 : prevOf h q = some p := hs.2
    rw [h1] at hP
    simp at hP
    simp [hP]
  | cons a L ih =>
    intro p q P hs hP
    have := ih a q P hs.2 hP
    exact List.mem_cons_of_mem _ this

theorem seg_first_mem {h : Nat → Option Socket} :
    ∀ (L : List Nat) (p q N : Nat), Seg h p L q → nextOf h p = some N → N ∈ L ++ [q] := by
  intro L p q N hs hN
  cases L with
  | nil =>
    have h1 : nextOf h p = some q := hs.1
    rw [h1] at hN
    simp at hN
    simp [hN]
  | cons a L =>
    have h1 : nextOf h p = some a := hs.1.1
    rw [h1] at hN
    simp at hN
    simp [hN]

theorem seg_append {h : Nat → Option Socket} :
    ∀ (L1 : List Nat) (x : Nat) (L2 : List Nat) (p q : Nat),
      Seg h p (L1 ++ x :: L2) q ↔ Seg h p L1 x ∧ Seg h x L2 q := by
  intro L1
  induction L1 with
  | nil => intro x L2 p q; simp [Seg]
  | cons a L1 ih =>
    intro x L2 p q
    simp [Seg, ih, and_assoc]

/-- A segment only depends on the `next` fields of its nodes but the last and
on the `prev` fields of its nodes but the first. -/
theorem seg_frame {h g : Nat → Option Socket} :
    ∀ (L : List Nat) (p q : Nat), Seg h p L q →
      (∀ a ∈ p :: L, nextOf g a = nextOf h a) →
      (∀ b ∈ L ++ [q], prevOf g b = prevOf h b) → Seg g p L q := by
  intro L
  induction L with
  | nil =>
    intro p q hs hn hp
    exact ⟨by rw [hn p (by simp)]; exact hs.1, by rw [hp q (by simp)]; exact hs.2⟩
  | cons a L ih =>
    intro p q hs hn hp
    refine ⟨⟨by rw [hn p (by simp)]; exact hs.1.1, by rw [hp a (by simp)]; exact hs.1.2⟩, ?_⟩
    apply ih a q hs.2
    · intro b hb
      exact hn b (List.mem_cons_of_mem _ hb)
    · intro b hb
      exact hp b (by simp at hb ⊢; tauto)

/-- Unlinking `x` from a segment: its predecessor's `next` and its successor's
`prev` are redirected, nothing else on the segment changes. -/
theorem seg_erase {h g : Nat → Option Socket} {x P N : Nat}
    (hP : prevOf h x = some P) (hN : nextOf h x = some N)
    (hgn : ∀ a, a ≠ x → nextOf g a = if a = P then some N else nextOf h a)
    (hgp : ∀ b, b ≠ x → prevOf g b = if b = N then some P else prevOf h b) :
    ∀ (L1 L2 : List Nat) (p q : Nat), Seg h p (L1 ++ x :: L2) q →
      (p :: (L1 ++ x :: L2)).Nodup → q ∉ L1 ++ x :: L2 → Seg g p (L1 ++ L2) q := by
  intro L1
  induction L1 with
  | nil =>
    intro L2 p q hs hnd hq
    simp only [List.nil_append] at hs hnd hq ⊢
    have hpx : prevOf h x = some p := hs.1.2
    have hPp : P = p := by rw [hP] at hpx; simpa using hpx
    subst hPp
    have hpne : P ≠ x := by
      intro e; subst e; simp at hnd
    cases L2 with
    | nil =>
      have hxq : nextOf h x = some q := hs.2.1
      have hNq : N = q := by rw [hN] at hxq; simpa using hxq
      subst hNq
      have hqx : N ≠ x := by intro e; subst e; simp at hq
      exact ⟨by rw [hgn P hpne]; simp, by rw [hgp N hqx]; simp⟩
    | cons n L2 =>
      have hxn : nextOf h x = some n := hs.2.1.1
      have hNn : N = n := by rw [hN] at hxn; simpa using hxn
      subst hNn
      have hnx : N ≠ x := by intro e; subst e; simp at hnd
      refine ⟨⟨by rw [hgn P hpne]; simp, by rw [hgp N hnx]; simp⟩, ?_⟩
      apply seg_frame L2 N q hs.2.2
      · intro a ha
        have hax : a ≠ x := by
          intro e; subst e
          simp at hnd ha
          rcases ha with ha | ha <;> simp_all
        have haP : a ≠ P := by
          intro e; subst e
          simp at hnd ha
          rcases ha with ha | ha <;> simp_all
        rw [hgn a hax, if_neg haP]
      · intro b hb
        have hbx : b ≠ x := by
          intro e; subst e
          simp at hnd hb hq
          rcases hb with hb | hb <;> simp_all
        have hbN : b ≠ N := by
          intro e; subst e
          simp at hnd hb hq
          rcases hb with hb | hb <;> simp_all
        rw [hgp b hbx, if_neg hbN]
  | cons a L1 ih =>
    intro L2 p q hs hnd hq
    simp only [List.cons_append] at hs hnd hq ⊢
    have hnd2 : (a :: (L1 ++ x :: L2)).Nodup := (List.nodup_cons.1 hnd).2
    have hq2 : q ∉ L1 ++ x :: L2 := fun c => hq (List.mem_cons_of_mem _ c)
    have hsx : Seg h a L1 x := ((seg_append L1 x L2 a q).1 hs.2).1
    have hPm : P ∈ a :: L1 := seg_last_mem L1 a x P hsx hP
    have hNm : N ∈ L2 ++ [q] := seg_first_mem L2 x q N ((seg_append L1 x L2 a q).1 hs.2).2 hN
    have hpmem : p ∉ a :: (L1 ++ x :: L2) := (List.nodup_cons.1 hnd).1
    have hpP : p ≠ P := by
      intro e; subst e
      apply hpmem
      simp at hPm ⊢
      tauto
    have hpx : p ≠ x := by
      intro e; subst e
      apply hpmem
      simp
    have hax : a ≠ x := by
      intro e; subst e
      simp at hnd2
    have haN : a ≠ N := by
      intro e; subst e
      simp at hNm
      rcases hNm with hNm | hNm
      · simp at hnd2
        simp_all
      · apply hq
        simp [hNm]
    refine ⟨⟨?_, ?_⟩, ih L2 a q hs.2 hnd2 hq2⟩
    · rw [hgn p hpx, if_neg hpP]; exact hs.1.1
    · rw [hgp a hax, if_neg haN]; exact hs.1.2


/-- Linking a new node `n` in front of `q`: the former predecessor of `q` gets
`n` as its `next`, `q` gets `n` as its `prev`. -/
theorem seg_snoc {h g : Nat → Option Socket} {n T q : Nat}
    (hT : prevOf h q = some T)
    (hgn : ∀ a, a ≠ n → nextOf g a = if a = T then some n else nextOf h a)
    (hgnn : nextOf g n = some q)
    (hgp : ∀ b, b ≠ n → b ≠ q → prevOf g b = prevOf h b)
    (hgpn : prevOf g n = some T) (hgpq : prevOf g q = some n) :
    ∀ (L : List Nat) (p : Nat), Seg h p L q → (p :: L).Nodup → n ∉ p :: L → q ∉ L →
      Seg g p (L ++ [n]) q := by
  intro L
  induction L with
  | nil =>
    intro p hs _ hn _
    have hpq : prevOf h q = some p := hs.2
    have hTp : T = p := by rw [hT] at hpq; simpa using hpq
    subst hTp
    have hTn : T ≠ n := by intro e; subst e; simp at hn
    exact ⟨⟨by rw [hgn T hTn]; simp, hgpn⟩, hgnn, hgpq⟩
  | cons a L ih =>
    intro p hs hnd hn hq
    simp only [List.cons_append]
    have hTm : T ∈ a :: L := seg_last_mem L a q T hs.2 hT
    have hpn : p ≠ n := by intro e; subst e; simp at hn
    have hpT : p ≠ T := by
      intro e; subst e
      exact (List.nodup_cons.1 hnd).1 hTm
    have han : a ≠ n := by intro e; subst e; simp at hn
    have haq : a ≠ q := by intro e; subst e; simp at hq
    refine ⟨⟨?_, ?_⟩, ?_⟩
    · rw [hgn p hpn, if_neg hpT]; exact hs.1.1
    · rw [hgp a han haq]; exact hs.1.2
    · apply ih a hs.2 (List.nodup_cons.1 hnd).2
      · intro c; apply hn; exact List.mem_cons_of_mem _ c
      · intro c; apply hq; exact List.mem_cons_of_mem _ c

/-! ## The operations, pointwise -/

/-- Constructing a handler node in front of the sentinel (lines 14-18 via line 182). -/
theorem socket_new_spec {s : State} {sl T t : Nat} {ksl kT : Socket}
    (hf : Fresh s) (hsl : s.heap sl = some ksl) (hT : s.heap T = some kT) :
    ∃ s1, Socket.new s T sl (some t) = .ok (s1, s.brk) ∧
      s1.brk = s.brk + 1 ∧ s1.links = s.links ∧ s1.trace = s.trace ∧
      (∀ a, nextOf s1.heap a =
        if a = s.brk then some sl else if a = T then some s.brk else nextOf s.heap a) ∧
      (∀ a, prevOf s1.heap a =
        if a = s.brk then some T else if a = sl then some s.brk else prevOf s.heap a) ∧
      (∀ a, functorOf s1.heap a =
        if a = s.brk then some (some t) else functorOf s.heap a) ∧
      (∀ a, refsOf s1.heap a = if a = s.brk then some 1 else refsOf s.heap a) := by
  have hbsl : sl ≠ s.brk := by
    intro e; rw [e, hf.2 _ (le_refl _)] at hsl; cases hsl
  have hbT : T ≠ s.brk := by
    intro e; rw [e, hf.2 _ (le_refl _)] at hT; cases hT
  have hok : ∃ r, Socket.new s T sl (some t) = .ok (r, s.brk) := by
    by_cases hTs : sl = T
    · subst hTs
      simp [Socket.new, Socket.ctor, setNext, setPrev, readSock, writeSock,
        Function.update_apply, hsl, hbsl, bind, Except.bind, pure, Except.pure]
    · simp [Socket.new, Socket.ctor, setNext, setPrev, readSock, writeSock,
        Function.update_apply, hsl, hT, hbsl, hbT, hTs, bind, Except.bind, pure, Except.pure]
  obtain ⟨s1, h1⟩ := hok
  refine ⟨s1, h1, ?_⟩
  by_cases hTs : sl = T
  · subst hTs
    simp [Socket.new, Socket.ctor, setNext, setPrev, readSock, writeSock,
      Function.update_apply, hsl, hbsl, bind, Except.bind, pure, Except.pure] at h1
    subst h1
    simp [Function.update_apply, nextOf, prevOf, functorOf, refsOf]
    refine ⟨?_, ?_, ?_, ?_⟩ <;> intro a <;> split_ifs <;> simp_all
  · simp [Socket.new, Socket.ctor, setNext, setPrev, readSock, writeSock,
      Function.update_apply, hsl, hT, hbsl, hbT, hTs, bind, Except.bind, pure, Except.pure] at h1
    subst h1
    simp [Function.update_apply, nextOf, prevOf, functorOf, refsOf]
    refine ⟨?_, ?_, ?_, ?_⟩ <;> intro a <;> split_ifs <;> simp_all


theorem ok_bind {α β : Type} (a : α) (f : α → Except Err β) :
    (Except.ok a >>= f) = f a := rfl

theorem error_bind {α β : Type} (e : Err) (f : α → Except Err β) :
    (Except.error e >>= f) = Except.error e := rfl

theorem pure_ok {α : Type} (a : α) : (pure a : Except Err α) = Except.ok a := rfl

theorem readSock_ok {s : State} {p : Nat} {k : Socket} (h : s.heap p = some k) :
    readSock s p = .ok k := by
  simp [readSock, h]

theorem readSock_dangling {s : State} {p : Nat} (h : s.heap p = none) :
    readSock s p = .error .dangling := by
  simp [readSock, h]

theorem functorOf_eq_none {h : Nat → Option Socket} {p : Nat} :
    functorOf h p = none ↔ h p = none := by
  simp [functorOf]

theorem live_of_functorOf {h : Nat → Option Socket} {p : Nat} {f : Option Nat}
    (hf : functorOf h p = some f) : ∃ k, h p = some k ∧ k.functor = f := by
  simpa [functorOf] using hf

theorem tagsOf_congr {h g : Nat → Option Socket} {L : List Nat}
    (hfg : ∀ a ∈ L, functorOf g a = functorOf h a) : tagsOf g L = tagsOf h L := by
  induction L with
  | nil => rfl
  | cons a L ih =>
    have h1 := hfg a (by simp)
    have h2 := ih (fun b hb => hfg b (List.mem_cons_of_mem _ hb))
    simp only [tagsOf, List.filterMap_cons, h1] at h2 ⊢
    rw [h2]

theorem tagsOf_append (h : Nat → Option Socket) (L1 L2 : List Nat) :
    tagsOf h (L1 ++ L2) = tagsOf h L1 ++ tagsOf h L2 := by
  simp [tagsOf, List.filterMap_append]

theorem tagsOf_cons_of {h : Nat → Option Socket} {a t : Nat} (L : List Nat)
    (ha : functorOf h a = some (some t)) : tagsOf h (a :: L) = t :: tagsOf h L := by
  simp [tagsOf, List.filterMap_cons, ha]

theorem join_ne_none_iff {o : Option (Option Nat)} :
    o.join ≠ none ↔ ∃ t, o = some (some t) := by
  rcases o with _ | _ | t <;> simp

/-- Every handler node of a well-formed ring carries a functor. -/
theorem Ring.tagged {s : State} {sl : Nat} {L : List Nat} (hr : Ring s sl L) :
    ∀ a ∈ L, ∃ t, functorOf s.heap a = some (some t) :=
  fun a ha => join_ne_none_iff.1 (hr.2.2.2.2 a ha)

/-- Every node of a well-formed ring is a live object. -/
theorem Ring.live {s : State} {sl : Nat} {L : List Nat} (hr : Ring s sl L) :
    ∀ a ∈ sl :: L, ∃ k, s.heap a = some k := by
  intro a ha
  rcases List.mem_cons.1 ha with e | hm
  · subst e
    obtain ⟨k, hk, _⟩ := live_of_functorOf hr.2.2.2.1
    exact ⟨k, hk⟩
  · obtain ⟨t, ht⟩ := hr.tagged a hm
    obtain ⟨k, hk, _⟩ := live_of_functorOf ht
    exact ⟨k, hk⟩

/-- Statement `Socket::decref` on a live object. -/
theorem socket_decref_live {s : State} {p : Nat} {k : Socket} (hk : s.heap p = some k) :
    Socket.decref s p = .ok (if k.refs = 0 then { s with heap := Function.update s.heap p none }
      else writeSock s p { k with refs := wdec k.refs }) := by
  simp only [Socket.decref, readSock, hk, bind, Except.bind, pure, Except.pure]
  split_ifs <;> rfl

/-- Statement `Socket::release` on a node that is already detached is `decref`. -/
theorem socket_release_detached {s : State} {p : Nat} {k : Socket} (hk : s.heap p = some k)
    (hp : k.prev = 0) : Socket.release s p = Socket.decref s p := by
  simp [Socket.release, readSock, hk, hp, bind, Except.bind]

/-! ### Field-wise effect of the primitive writes -/

theorem nextOf_writeSock (s : State) (p : Nat) (k : Socket) (a : Nat) :
    nextOf (writeSock s p k).heap a = if a = p then some k.next else nextOf s.heap a := by
  by_cases h : a = p <;> simp [writeSock, nextOf, Function.update_apply, h]

theorem prevOf_writeSock (s : State) (p : Nat) (k : Socket) (a : Nat) :
    prevOf (writeSock s p k).heap a = if a = p then some k.prev else prevOf s.heap a := by
  by_cases h : a = p <;> simp [writeSock, prevOf, Function.update_apply, h]

theorem refsOf_writeSock (s : State) (p : Nat) (k : Socket) (a : Nat) :
    refsOf (writeSock s p k).heap a = if a = p then some k.refs else refsOf s.heap a := by
  by_cases h : a = p <;> simp [writeSock, refsOf, Function.update_apply, h]

theorem functorOf_writeSock (s : State) (p : Nat) (k : Socket) (a : Nat) :
    functorOf (writeSock s p k).heap a =
      if a = p then some k.functor else functorOf s.heap a := by
  by_cases h : a = p <;> simp [writeSock, functorOf, Function.update_apply, h]

/-- The fields of a live object, read through the projections. -/
theorem proj_of_heap {h : Nat → Option Socket} {p : Nat} {k : Socket} (hk : h p = some k) :
    prevOf h p = some k.prev ∧ nextOf h p = some k.next ∧ refsOf h p = some k.refs ∧
      functorOf h p = some k.functor := by
  simp [prevOf, nextOf, refsOf, functorOf, hk]

/-- An object is determined by its four fields. -/
theorem heap_of_proj {h : Nat → Option Socket} {p : Nat} {k : Socket}
    (h1 : prevOf h p = some k.prev) (h2 : nextOf h p = some k.next)
    (h3 : refsOf h p = some k.refs) (h4 : functorOf h p = some k.functor) :
    h p = some k := by
  cases hh : h p with
  | none => simp [prevOf, hh] at h1
  | some k0 =>
    simp [prevOf, nextOf, refsOf, functorOf, hh] at h1 h2 h3 h4
    cases k0; cases k
    simp_all

/-- Statement `p->next = v` on a live object. -/
theorem setNext_spec {s : State} {p : Nat} {k : Socket} (v : Nat) (hk : s.heap p = some k) :
    ∃ s1, setNext s p v = .ok s1 ∧
      s1.brk = s.brk ∧ s1.links = s.links ∧ s1.trace = s.trace ∧
      (∀ a, nextOf s1.heap a = if a = p then some v else nextOf s.heap a) ∧
      (∀ a, prevOf s1.heap a = prevOf s.heap a) ∧
      (∀ a, refsOf s1.heap a = refsOf s.heap a) ∧
      (∀ a, functorOf s1.heap a = functorOf s.heap a) := by
  refine ⟨writeSock s p { k with next := v }, by simp [setNext, readSock, hk, bind, Except.bind, pure, Except.pure],
    rfl, rfl, rfl, ?_, ?_, ?_, ?_⟩
  · intro a; rw [nextOf_writeSock]
  · intro a; rw [prevOf_writeSock]; split_ifs with e
    · subst e; exact (proj_of_heap hk).1.symm
    · rfl
  · intro a; rw [refsOf_writeSock]; split_ifs with e
    · subst e; exact (proj_of_heap hk).2.2.1.symm
    · rfl
  · intro a; rw [functorOf_writeSock]; split_ifs with e
    · subst e; exact (proj_of_heap hk).2.2.2.symm
    · rfl

/-- Statement `p->prev = v` on a live object. -/
theorem setPrev_spec {s : State} {p : Nat} {k : Socket} (v : Nat) (hk : s.heap p = some k) :
    ∃ s1, setPrev s p v = .ok s1 ∧
      s1.brk = s.brk ∧ s1.links = s.links ∧ s1.trace = s.trace ∧
      (∀ a, nextOf s1.heap a = nextOf s.heap a) ∧
      (∀ a, prevOf s1.heap a = if a = p then some v else prevOf s.heap a) ∧
      (∀ a, refsOf s1.heap a = refsOf s.heap a) ∧
      (∀ a, functorOf s1.heap a = functorOf s.heap a) := by
  refine ⟨writeSock s p { k with prev := v }, by simp [setPrev, readSock, hk, bind, Except.bind, pure, Except.pure],
    rfl, rfl, rfl, ?_, ?_, ?_, ?_⟩
  · intro a; rw [nextOf_writeSock]; split_ifs with e
    · subst e; exact (proj_of_heap hk).2.1.symm
    · rfl
  · intro a; rw [prevOf_writeSock]
  · intro a; rw [refsOf_writeSock]; split_ifs with e
    · subst e; exact (proj_of_heap hk).2.2.1.symm
    · rfl
  · intro a; rw [functorOf_writeSock]; split_ifs with e
    · subst e; exact (proj_of_heap hk).2.2.2.symm
    · rfl

/-- An object whose payload can be read is live. -/
theorem live_iff_functorOf {h : Nat → Option Socket} {p : Nat} :
    (∃ k, h p = some k) ↔ ∃ f, functorOf h p = some f := by
  constructor
  · rintro ⟨k, hk⟩; exact ⟨k.functor, (proj_of_heap hk).2.2.2⟩
  · rintro ⟨f, hf⟩
    obtain ⟨k, hk, _⟩ := live_of_functorOf hf
    exact ⟨k, hk⟩

/-- Statement `Socket::release` on a linked node `x` whose neighbours are live
objects other than `x`. -/
theorem socket_release_linked {s : State} {x : Nat} {k kP kN : Socket}
    (hk : s.heap x = some k) (hp : k.prev ≠ 0)
    (hP : s.heap k.prev = some kP) (hN : s.heap k.next = some kN)
    (hPx : k.prev ≠ x) (hNx : k.next ≠ x) :
    ∃ s1, Socket.release s x = .ok s1 ∧
      s1.brk = s.brk ∧ s1.links = s.links ∧ s1.trace = s.trace ∧
      (∀ a, a ≠ x → nextOf s1.heap a = if a = k.prev then some k.next else nextOf s.heap a) ∧
      (∀ b, b ≠ x → prevOf s1.heap b = if b = k.next then some k.prev else prevOf s.heap b) ∧
      (∀ a, a ≠ x → functorOf s1.heap a = functorOf s.heap a) ∧
      (∀ a, a ≠ x → refsOf s1.heap a = refsOf s.heap a) ∧
      s1.heap x = (if wdec k.refs = 0 then none
        else some { prev := 0, next := k.next, refs := wdec (wdec k.refs), functor := k.functor }) := by
  obtain ⟨s1, e1, b1, l1, t1, n1, p1, r1, f1⟩ := setNext_spec k.next hP
  have hx1 : s1.heap x = some k := by
    apply heap_of_proj
    · rw [p1]; exact (proj_of_heap hk).1
    · rw [n1, if_neg hPx.symm]; exact (proj_of_heap hk).2.1
    · rw [r1]; exact (proj_of_heap hk).2.2.1
    · rw [f1]; exact (proj_of_heap hk).2.2.2
  obtain ⟨kN1, hN1⟩ : ∃ kN1, s1.heap k.next = some kN1 := by
    rw [live_iff_functorOf]
    exact ⟨kN.functor, by rw [f1]; exact (proj_of_heap hN).2.2.2⟩
  obtain ⟨s2, e2, b2, l2, t2, n2, p2, r2, f2⟩ := setPrev_spec k.prev hN1
  have hx2 : s2.heap x = some k := by
    apply heap_of_proj
    · rw [p2, if_neg hNx.symm]; exact (proj_of_heap hx1).1
    · rw [n2]; exact (proj_of_heap hx1).2.1
    · rw [r2]; exact (proj_of_heap hx1).2.2.1
    · rw [f2]; exact (proj_of_heap hx1).2.2.2
  have hrun : Socket.release s x = Socket.decref
      (writeSock (writeSock s2 x { k with prev := 0 }) x
        { prev := 0, next := k.next, refs := wdec k.refs, functor := k.functor }) x := by
    simp [Socket.release, readSock, hk, hp, e1, hx1, e2, hx2, writeSock, bind, Except.bind]
  have hx4 : (writeSock (writeSock s2 x { k with prev := 0 }) x
      { prev := 0, next := k.next, refs := wdec k.refs, functor := k.functor }).heap x =
      some { prev := 0, next := k.next, refs := wdec k.refs, functor := k.functor } := by
    simp [writeSock]
  rw [socket_decref_live hx4] at hrun
  refine ⟨_, hrun, ?_⟩
  by_cases hz : wdec k.refs = 0
  · simp only [hz, if_true]
    refine ⟨by simp [writeSock, b2, b1], by simp [writeSock, l2, l1], by simp [writeSock, t2, t1],
      ?_, ?_, ?_, ?_, by simp⟩
    · intro a ha
      simp only [nextOf, writeSock, Function.update_apply, if_neg ha]
      have := n2 a; have := n1 a
      simp only [nextOf] at *
      simp_all
    · intro a ha
      simp only [prevOf, writeSock, Function.update_apply, if_neg ha]
      have := p2 a; have := p1 a
      simp only [prevOf] at *
      simp_all
    · intro a ha
      simp only [functorOf, writeSock, Function.update_apply, if_neg ha]
      have := f2 a; have := f1 a
      simp only [functorOf] at *
      simp_all
    · intro a ha
      simp only [refsOf, writeSock, Function.update_apply, if_neg ha]
      have := r2 a; have := r1 a
      simp only [refsOf] at *
      simp_all
  · simp only [hz, if_false]
    refine ⟨by simp [writeSock, b2, b1], by simp [writeSock, l2, l1], by simp [writeSock, t2, t1],
      ?_, ?_, ?_, ?_, by simp [writeSock]⟩
    · intro a ha
      simp only [nextOf, writeSock, Function.update_apply, if_neg ha]
      have := n2 a; have := n1 a
      simp only [nextOf] at *
      simp_all
    · intro a ha
      simp only [prevOf, writeSock, Function.update_apply, if_neg ha]
      have := p2 a; have := p1 a
      simp only [prevOf] at *
      simp_all
    · intro a ha
      simp only [functorOf, writeSock, Function.update_apply, if_neg ha]
      have := f2 a; have := f1 a
      simp only [functorOf] at *
      simp_all
    · intro a ha
      simp only [refsOf, writeSock, Function.update_apply, if_neg ha]
      have := r2 a; have := r1 a
      simp only [refsOf] at *
      simp_all


/-! ## The ring under the operations -/

theorem fresh_not_live {s : State} (hf : Fresh s) {p : Nat} {k : Socket}
    (hk : s.heap p = some k) : p < s.brk := by
  by_contra hc
  rw [hf.2 p (not_lt.1 hc)] at hk
  cases hk

/-- Objects with the same four fields, or both absent, are the same. -/
theorem heap_eq_of_proj {h g : Nat → Option Socket} {p : Nat}
    (h1 : prevOf g p = prevOf h p) (h2 : nextOf g p = nextOf h p)
    (h3 : refsOf g p = refsOf h p) (h4 : functorOf g p = functorOf h p) : g p = h p := by
  cases hh : h p with
  | none =>
    apply functorOf_eq_none.1
    rw [h4]
    exact functorOf_eq_none.2 hh
  | some k =>
    apply heap_of_proj
    · rw [h1]; exact (proj_of_heap hh).1
    · rw [h2]; exact (proj_of_heap hh).2.1
    · rw [h3]; exact (proj_of_heap hh).2.2.1
    · rw [h4]; exact (proj_of_heap hh).2.2.2

/-- Constructor `Slot::Slot()`: the ring of the new slot is empty. -/
theorem slot_ctor_spec {s : State} (hf : Fresh s) :
    ∃ s1, Slot.ctor s = .ok (s1, s.brk) ∧ Ring s1 s.brk [] ∧ Fresh s1 ∧
      s1.brk = s.brk + 1 ∧ s1.links = s.links ∧ s1.trace = s.trace ∧
      s1.heap s.brk = some { prev := s.brk, next := s.brk, refs := 1, functor := none } ∧
      ∀ a, a ≠ s.brk → s1.heap a = s.heap a := by
  have hb : s.brk ≠ 0 := Nat.pos_iff_ne_zero.1 hf.1
  have h0 : (writeSock { s with brk := s.brk + 1 } s.brk
      { prev := s.brk, next := s.brk, refs := 1, functor := none }).heap s.brk =
      some { prev := s.brk, next := s.brk, refs := 1, functor := none } := by
    simp [writeSock]
  obtain ⟨s1, e1, b1, l1, t1, n1, p1, r1, f1⟩ := setNext_spec s.brk h0
  have h1 : s1.heap s.brk =
      some { prev := s.brk, next := s.brk, refs := 1, functor := none } := by
    apply heap_of_proj
    · rw [p1]; exact (proj_of_heap h0).1
    · rw [n1, if_pos rfl]
    · rw [r1]; exact (proj_of_heap h0).2.2.1
    · rw [f1]; exact (proj_of_heap h0).2.2.2
  obtain ⟨s2, e2, b2, l2, t2, n2, p2, r2, f2⟩ := setPrev_spec s.brk h1
  have h2 : s2.heap s.brk =
      some { prev := s.brk, next := s.brk, refs := 1, functor := none } := by
    apply heap_of_proj
    · rw [p2, if_pos rfl]
    · rw [n2]; exact (proj_of_heap h1).2.1
    · rw [r2]; exact (proj_of_heap h1).2.2.1
    · rw [f2]; exact (proj_of_heap h1).2.2.2
  have hoth : ∀ a, a ≠ s.brk → s2.heap a = s.heap a := by
    intro a ha
    have e0 : (writeSock { s with brk := s.brk + 1 } s.brk
        { prev := s.brk, next := s.brk, refs := 1, functor := none }).heap a = s.heap a := by
      simp [writeSock, Function.update_apply, ha]
    rw [← e0]
    apply heap_eq_of_proj
    · rw [p2, if_neg ha, p1]
    · rw [n2, n1, if_neg ha]
    · rw [r2, r1]
    · rw [f2, f1]
  refine ⟨s2, ?_, ?_, ?_, ?_, ?_, ?_, h2, hoth⟩
  · simp only [Slot.ctor, Socket.ctor, ok_bind, e1, e2, pure_ok]
  · refine ⟨?_, by simp, by simpa using hb.symm, ?_, by simp⟩
    · simp [Seg, Adj, nextOf, prevOf, h2]
    · simp [functorOf, h2]
  · refine ⟨by rw [b2, b1]; simp [writeSock], ?_⟩
    intro p hp
    have hp2 : s.brk + 1 ≤ p := by
      rw [b2, b1] at hp
      simpa [writeSock] using hp
    rw [hoth p (by omega)]
    exact hf.2 p (by omega)
  · rw [b2, b1]; simp [writeSock]
  · rw [l2, l1]; simp [writeSock]
  · rw [t2, t1]; simp [writeSock]

/-- Method `Slot::bind` appends the new node at the tail of the ring. -/
theorem slot_bind_ring {s : State} {sl : Nat} {L : List Nat} (t : Nat)
    (hf : Fresh s) (hr : Ring s sl L) :
    ∃ s1, Slot.bind s sl t = .ok (s1, s.links.length) ∧
      Ring s1 sl (L ++ [s.brk]) ∧ Fresh s1 ∧
      s1.brk = s.brk + 1 ∧ s1.links = s.links ++ [s.brk] ∧ s1.trace = s.trace ∧
      (∀ a, functorOf s1.heap a =
        if a = s.brk then some (some t) else functorOf s.heap a) ∧
      (∀ a, refsOf s1.heap a = if a = s.brk then some 1 else refsOf s.heap a) ∧
      tagsOf s1.heap (L ++ [s.brk]) = tagsOf s.heap L ++ [t] := by
  obtain ⟨ksl, hsl⟩ := hr.live sl (by simp)
  have hTp : prevOf s.heap sl = some ksl.prev := (proj_of_heap hsl).1
  have hTm : ksl.prev ∈ sl :: L := seg_last_mem L sl sl ksl.prev hr.1 hTp
  obtain ⟨kT, hT⟩ := hr.live ksl.prev hTm
  obtain ⟨s1, e1, b1, l1, t1, n1, p1, f1, r1⟩ := socket_new_spec (t := t) hf hsl hT
  have hfresh : ∀ a ∈ sl :: L, a ≠ s.brk := by
    intro a ha e
    obtain ⟨ka, hka⟩ := hr.live a ha
    have := fresh_not_live hf hka
    omega
  have hring : Ring s1 sl (L ++ [s.brk]) := by
    refine ⟨?_, ?_, ?_, ?_, ?_⟩
    · apply seg_snoc (h := s.heap) (n := s.brk) (T := ksl.prev) (q := sl) hTp
      · intro a ha; rw [n1, if_neg ha]
      · rw [n1, if_pos rfl]
      · intro b hb hbq; rw [p1, if_neg hb, if_neg hbq]
      · rw [p1, if_pos rfl]
      · rw [p1, if_neg (hfresh sl (by simp)), if_pos rfl]
      · exact hr.1
      · exact hr.2.1
      · intro c; exact hfresh _ c rfl
      · exact (List.nodup_cons.1 hr.2.1).1
    · have h0 := hr.2.1
      rw [← List.cons_append]
      apply List.Nodup.append h0 (by simp)
      intro a ha hb
      simp at hb
      exact hfresh a ha hb
    · intro c
      rw [← List.cons_append, List.mem_append] at c
      rcases c with c | c
      · exact hr.2.2.1 c
      · simp at c
        have := hf.1
        omega
    · rw [f1, if_neg (hfresh sl (by simp))]; exact hr.2.2.2.1
    · intro a ha
      rw [List.mem_append] at ha
      rcases ha with ha | ha
      · rw [f1, if_neg (hfresh a (List.mem_cons_of_mem _ ha))]
        exact hr.2.2.2.2 a ha
      · simp at ha
        rw [f1, if_pos ha]
        simp
  refine ⟨{ s1 with links := s1.links ++ [s.brk] }, ?_, hring, ?_, b1, ?_, t1, f1, r1, ?_⟩
  · simp only [Slot.bind, readSock_ok hsl, ok_bind, e1, pure_ok, Link.mk, l1]
  · refine ⟨by show 0 < s1.brk; omega, ?_⟩
    intro p hp
    have hp1 : s.brk + 1 ≤ p := by
      have : s1.brk ≤ p := hp
      omega
    apply functorOf_eq_none.1
    rw [f1, if_neg (by omega)]
    exact functorOf_eq_none.2 (hf.2 p (by omega))
  · show s1.links ++ [s.brk] = s.links ++ [s.brk]
    rw [l1]
  · show tagsOf s1.heap (L ++ [s.brk]) = _
    rw [tagsOf_append]
    congr 1
    · apply tagsOf_congr
      intro a ha
      rw [f1, if_neg (hfresh a (List.mem_cons_of_mem _ ha))]
    · simp [tagsOf, f1]

/-- Method `Socket::release` on a node of the ring unlinks exactly that node. -/
theorem socket_release_ring {s : State} {sl x : Nat} {L1 L2 : List Nat} {k : Socket}
    (hr : Ring s sl (L1 ++ x :: L2)) (hk : s.heap x = some k) :
    ∃ s1, Socket.release s x = .ok s1 ∧ Ring s1 sl (L1 ++ L2) ∧
      s1.brk = s.brk ∧ s1.links = s.links ∧ s1.trace = s.trace ∧
      (∀ a, a ≠ x → functorOf s1.heap a = functorOf s.heap a) ∧
      (∀ a, a ≠ x → refsOf s1.heap a = refsOf s.heap a) ∧
      s1.heap x = (if wdec k.refs = 0 then none
        else some { prev := 0, next := k.next, refs := wdec (wdec k.refs), functor := k.functor }) ∧
      tagsOf s1.heap (L1 ++ L2) = tagsOf s.heap (L1 ++ L2) := by
  have hseg := (seg_append L1 x L2 sl sl).1 hr.1
  have hPp : prevOf s.heap x = some k.prev := (proj_of_heap hk).1
  have hNn : nextOf s.heap x = some k.next := (proj_of_heap hk).2.1
  have hPm : k.prev ∈ sl :: L1 := seg_last_mem L1 sl x k.prev hseg.1 hPp
  have hNm : k.next ∈ L2 ++ [sl] := seg_first_mem L2 x sl k.next hseg.2 hNn
  have hnd := hr.2.1
  have hxL1 : x ∉ L1 := by
    intro c
    have := (List.nodup_cons.1 hnd).2
    rw [List.nodup_append] at this
    exact this.2.2 c (by simp)
  have hxL2 : x ∉ L2 := by
    intro c
    have := (List.nodup_cons.1 hnd).2
    rw [List.nodup_append] at this
    exact (List.nodup_cons.1 this.2.1).1 c
  have hxsl : x ≠ sl := by
    intro e
    exact (List.nodup_cons.1 hnd).1 (by simp [e])
  have hPx : k.prev ≠ x := by
    intro e
    rw [e] at hPm
    rcases List.mem_cons.1 hPm with c | c
    · exact hxsl c
    · exact hxL1 c
  have hNx : k.next ≠ x := by
    intro e
    rw [e] at hNm
    rcases List.mem_append.1 hNm with c | c
    · exact hxL2 c
    · simp at c; exact hxsl c
  have hP0 : k.prev ≠ 0 := by
    intro e
    apply hr.2.2.1
    rw [e] at hPm
    rcases List.mem_cons.1 hPm with c | c
    · simp [c]
    · simp [c]
  obtain ⟨kP, hP⟩ := hr.live k.prev (by
    rcases List.mem_cons.1 hPm with c | c
    · simp [c]
    · simp [c])
  obtain ⟨kN, hN⟩ := hr.live k.next (by
    rcases List.mem_append.1 hNm with c | c
    · simp [c]
    · simp at c; simp [c])
  obtain ⟨s1, e1, b1, l1, t1, n1, p1, f1, r1, hx1⟩ :=
    socket_release_linked hk hP0 hP hN hPx hNx
  have hsub : (sl :: (L1 ++ L2)).Sublist (sl :: (L1 ++ x :: L2)) := by
    apply List.Sublist.cons₂
    apply List.Sublist.append (List.Sublist.refl _)
    exact List.sublist_cons_self x L2
  have hne : ∀ a ∈ sl :: (L1 ++ L2), a ≠ x := by
    intro a ha e
    subst e
    rcases List.mem_cons.1 ha with c | c
    · exact hxsl c
    · rcases List.mem_append.1 c with c | c
      · exact hxL1 c
      · exact hxL2 c
  refine ⟨s1, e1, ⟨?_, ?_, ?_, ?_, ?_⟩, b1, l1, t1, f1, r1, hx1, ?_⟩
  · exact seg_erase hPp hNn n1 p1 L1 L2 sl sl hr.1 hnd (List.nodup_cons.1 hnd).1
  · exact hnd.sublist hsub
  · intro c; exact hr.2.2.1 (hsub.subset c)
  · rw [f1 sl (hne sl (by simp))]; exact hr.2.2.2.1
  · intro a ha
    rw [f1 a (hne a (List.mem_cons_of_mem _ ha))]
    apply hr.2.2.2.2 a
    rcases List.mem_append.1 ha with c | c
    · simp [c]
    · simp [c]
  · apply tagsOf_congr
    intro a ha
    exact f1 a (hne a (List.mem_cons_of_mem _ ha))


/-! ## Traversal -/

/-- The virtual call on the sentinel returns at once (line 108). -/
theorem invoke_null (prog : Nat → List Action) (sl fuel : Nat) {s : State} {p : Nat}
    (hp : functorOf s.heap p = some none) : invoke prog sl (fuel + 1) s p = .ok s := by
  obtain ⟨k, hk, hkf⟩ := live_of_functorOf hp
  simp only [invoke, readSock_ok hk, ok_bind, hkf, pure_ok]

/-- The virtual call on a handler whose functor does nothing to the signal:
the tag is recorded and the call is passed on to `next` (lines 117-120, 20-22). -/
theorem invoke_passive_step (prog : Nat → List Action) (sl fuel : Nat) {s : State}
    {p t : Nat} {k : Socket} (hk : s.heap p = some k) (hkf : k.functor = some t)
    (ht : prog t = []) :
    invoke prog sl (fuel + 1) s p =
      invoke prog sl fuel { s with trace := s.trace ++ [t] } k.next := by
  have hk2 : ({ s with trace := s.trace ++ [t] } : State).heap p = some k := hk
  simp only [invoke, readSock_ok hk, ok_bind, hkf, ht, execActions, pure_ok, readSock_ok hk2]

/-- A run of handlers that do nothing to the signal is traversed in order. -/
theorem invoke_passive_seg (prog : Nat → List Action) (sl : Nat) :
    ∀ (L : List Nat) (x q : Nat) (s : State) (fuel : Nat),
      Seg s.heap x L q →
      (∀ a ∈ x :: L, ∃ t, functorOf s.heap a = some (some t) ∧ prog t = []) →
      invoke prog sl (fuel + (L.length + 1)) s x =
        invoke prog sl fuel { s with trace := s.trace ++ tagsOf s.heap (x :: L) } q := by
  intro L
  induction L with
  | nil =>
    intro x q s fuel hs hp
    obtain ⟨t, hft, ht⟩ := hp x (by simp)
    obtain ⟨k, hk, hkf⟩ := live_of_functorOf hft
    have hn : nextOf s.heap x = some q := hs.1
    have hkq : k.next = q := by
      rw [(proj_of_heap hk).2.1] at hn
      simpa using hn
    rw [show fuel + ([].length + 1) = fuel + 1 from rfl,
      invoke_passive_step prog sl fuel hk hkf ht, hkq, tagsOf_cons_of [] hft]
    rfl
  | cons a L ih =>
    intro x q s fuel hs hp
    obtain ⟨t, hft, ht⟩ := hp x (by simp)
    obtain ⟨k, hk, hkf⟩ := live_of_functorOf hft
    have hn : nextOf s.heap x = some a := hs.1.1
    have hka : k.next = a := by
      rw [(proj_of_heap hk).2.1] at hn
      simpa using hn
    rw [show fuel + ((a :: L).length + 1) = (fuel + (L.length + 1)) + 1 from rfl,
      invoke_passive_step prog sl _ hk hkf ht, hka,
      ih a q { s with trace := s.trace ++ [t] } fuel hs.2
        (fun b hb => hp b (List.mem_cons_of_mem _ hb)),
      tagsOf_cons_of (a :: L) hft]
    simp

/-- Method `Slot::fire` on a well-formed ring whose handlers do nothing to the
signal: every handler is invoked once, in ring order, and nothing but the trace
changes. -/
theorem fire_passive (prog : Nat → List Action) {s : State} {sl : Nat} {L : List Nat}
    (hr : Ring s sl L) (hp : ∀ t ∈ tagsOf s.heap L, prog t = []) (n : Nat) :
    Slot.fire prog (n + L.length + 1) s sl =
      .ok { s with trace := s.trace ++ tagsOf s.heap L } := by
  obtain ⟨ksl, hsl, hslf⟩ := live_of_functorOf hr.2.2.2.1
  simp only [Slot.fire, readSock_ok hsl, ok_bind]
  cases L with
  | nil =>
    have hn : nextOf s.heap sl = some sl := hr.1.1
    have hks : ksl.next = sl := by
      rw [(proj_of_heap hsl).2.1] at hn
      simpa using hn
    rw [hks, invoke_null prog sl _ hr.2.2.2.1]
    simp [tagsOf]
  | cons a L =>
    have hn : nextOf s.heap sl = some a := hr.1.1.1
    have hka : ksl.next = a := by
      rw [(proj_of_heap hsl).2.1] at hn
      simpa using hn
    have hpass : ∀ b ∈ a :: L, ∃ t, functorOf s.heap b = some (some t) ∧ prog t = [] := by
      intro b hb
      obtain ⟨t, ht⟩ := hr.tagged b hb
      refine ⟨t, ht, hp t ?_⟩
      simp only [tagsOf, List.mem_filterMap]
      exact ⟨b, hb, by simp [ht]⟩
    rw [hka, show n + (a :: L).length + 1 = (n + 1) + (L.length + 1) by simp; omega,
      invoke_passive_seg prog sl L a sl s (n + 1) hr.1.2 hpass]
    exact invoke_null prog sl n hr.2.2.2.1

/-- Binding a list of handlers appends their nodes to the ring in order and
keeps the returned `Link` objects. -/
theorem bindAll_ring (sl : Nat) :
    ∀ (ts : List Nat) (s : State) (L : List Nat), Fresh s → Ring s sl L →
      ∃ s2 L2, bindAll sl s ts = .ok s2 ∧ Ring s2 sl (L ++ L2) ∧ Fresh s2 ∧
        s2.links = s.links ++ L2 ∧ s2.trace = s.trace ∧
        tagsOf s2.heap (L ++ L2) = tagsOf s.heap L ++ ts := by
  intro ts
  induction ts with
  | nil =>
    intro s L hf hr
    exact ⟨s, [], rfl, by simpa using hr, hf, by simp, rfl, by simp⟩
  | cons t ts ih =>
    intro s L hf hr
    obtain ⟨s1, e1, hr1, hf1, b1, l1, t1, f1, r1, g1⟩ := slot_bind_ring t hf hr
    obtain ⟨s2, L2, e2, hr2, hf2, l2, t2, g2⟩ := ih s1 (L ++ [s.brk]) hf1 hr1
    refine ⟨s2, s.brk :: L2, ?_, by simpa using hr2, hf2, ?_, by rw [t2, t1], ?_⟩
    · simp only [bindAll, e1, ok_bind, e2]
    · rw [l2, l1]; simp
    · have : L ++ s.brk :: L2 = L ++ [s.brk] ++ L2 := by simp
      rw [this, g2, g1]; simp


theorem fresh_init : Fresh State.init := ⟨by decide, fun _ _ => rfl⟩

/-- In a well-formed ring every node carries a tag. -/
theorem tagsOf_length {h : Nat → Option Socket} :
    ∀ (L : List Nat), (∀ a ∈ L, ∃ t, functorOf h a = some (some t)) →
      (tagsOf h L).length = L.length := by
  intro L
  induction L with
  | nil => intro _; rfl
  | cons a L ih =>
    intro hL
    obtain ⟨t, ht⟩ := hL a (by simp)
    rw [tagsOf_cons_of L ht]
    simp [ih (fun b hb => hL b (List.mem_cons_of_mem _ hb))]

/-- Method `Link::release` through a `Link` that holds a node of the ring. -/
theorem link_release_ring {s : State} {sl l x : Nat} {L1 L2 : List Nat} {k : Socket}
    (hr : Ring s sl (L1 ++ x :: L2)) (hl : getLink s l = x) (hk : s.heap x = some k) :
    ∃ s1, Link.release s l = .ok s1 ∧ Ring s1 sl (L1 ++ L2) ∧
      s1.brk = s.brk ∧ s1.links = s.links.set l 0 ∧ s1.trace = s.trace ∧
      (∀ a, a ≠ x → functorOf s1.heap a = functorOf s.heap a) ∧
      (∀ a, a ≠ x → refsOf s1.heap a = refsOf s.heap a) ∧
      s1.heap x = (if wdec k.refs = 0 then none
        else some { prev := 0, next := k.next, refs := wdec (wdec k.refs), functor := k.functor }) ∧
      tagsOf s1.heap (L1 ++ L2) = tagsOf s.heap (L1 ++ L2) := by
  obtain ⟨s1, e1, hr1, b1, l1, t1, f1, r1, hx1, g1⟩ := socket_release_ring hr hk
  have hx0 : x ≠ 0 := by
    intro e
    apply hr.2.2.1
    simp [e]
  refine ⟨setLink s1 l 0, ?_, hr1, b1, ?_, t1, f1, r1, hx1, g1⟩
  · simp only [Link.release, hl, ne_eq, hx0, not_false_eq_true, if_true, e1, ok_bind, pure_ok]
  · simp [setLink, l1]

/-- C1: binding `N` handlers whose payloads do not modify the signal, in order,
on a freshly constructed `Slot` and then calling `fire` once invokes each
handler exactly once, in the order bound: the trace of the fire is the bound
list. -/
theorem fire_invokes_in_bind_order (prog : Nat → List Action) (s0 : State) (ts : List Nat)
    (hf : Fresh s0) (hp : ∀ t ∈ ts, prog t = []) :
    ∃ s1 sl s2, Slot.ctor s0 = .ok (s1, sl) ∧ bindAll sl s1 ts = .ok s2 ∧
      ∀ n, Slot.fire prog (n + ts.length + 1) s2 sl =
        .ok { s2 with trace := s2.trace ++ ts } := by
  obtain ⟨s1, e1, hr1, hf1, -⟩ := slot_ctor_spec hf
  obtain ⟨s2, L2, e2, hr2, hf2, l2, t2, g2⟩ := bindAll_ring s0.brk ts s1 [] hf1 hr1
  refine ⟨s1, s0.brk, s2, e1, e2, ?_⟩
  intro n
  simp only [List.nil_append] at hr2 g2
  have hg : tagsOf s2.heap L2 = ts := by simpa [tagsOf] using g2
  have hlen : L2.length = ts.length := by
    rw [← tagsOf_length L2 hr2.tagged, hg]
  have := fire_passive prog hr2 (by rw [hg]; exact hp) n
  rw [hg, hlen] at this
  exact this

theorem fire_invokes_in_bind_order_witness :
    Fresh State.init ∧ (∀ t ∈ [7, 8, 9], (fun _ => []) t = ([] : List Action)) ∧
    ∃ s1 sl s2, Slot.ctor State.init = .ok (s1, sl) ∧ bindAll sl s1 [7, 8, 9] = .ok s2 ∧
      ∀ n, Slot.fire (fun _ => []) (n + [7, 8, 9].length + 1) s2 sl =
        .ok { s2 with trace := s2.trace ++ [7, 8, 9] } :=
  ⟨fresh_init, fun _ _ => rfl,
    fire_invokes_in_bind_order (fun _ => []) State.init [7, 8, 9] fresh_init (fun _ _ => rfl)⟩

/-- C2: releasing the handle of the handler at any position of a well-formed
ring makes the next fire invoke exactly the other handlers, each once and in
ring order; and bind `a`, `b`, `c`, fire (trace `a, b, c`), release the handle
of `b`, fire again (trace `a, c`). -/
theorem release_removes_from_next_fire :
    (∀ (prog : Nat → List Action) (s : State) (sl l x : Nat) (L1 L2 : List Nat),
      Ring s sl (L1 ++ x :: L2) → getLink s l = x →
      (∀ t ∈ tagsOf s.heap (L1 ++ L2), prog t = []) →
      ∃ s1, Link.release s l = .ok s1 ∧ Ring s1 sl (L1 ++ L2) ∧
        ∀ n, Slot.fire prog (n + (L1 ++ L2).length + 1) s1 sl =
          .ok { s1 with trace := s1.trace ++ tagsOf s.heap (L1 ++ L2) }) ∧
    (∀ (prog : Nat → List Action) (a b c : Nat), prog a = [] → prog b = [] → prog c = [] →
      ∃ s0 sl s1 s2 s3 s4, Slot.ctor State.init = .ok (s0, sl) ∧
        bindAll sl s0 [a, b, c] = .ok s1 ∧
        Slot.fire prog 4 s1 sl = .ok s2 ∧ s2.trace = s1.trace ++ [a, b, c] ∧
        Link.release s2 1 = .ok s3 ∧
        Slot.fire prog 4 s3 sl = .ok s4 ∧ s4.trace = s3.trace ++ [a, c]) := by
  have general : ∀ (prog : Nat → List Action) (s : State) (sl l x : Nat) (L1 L2 : List Nat),
      Ring s sl (L1 ++ x :: L2) → getLink s l = x →
      (∀ t ∈ tagsOf s.heap (L1 ++ L2), prog t = []) →
      ∃ s1, Link.release s l = .ok s1 ∧ Ring s1 sl (L1 ++ L2) ∧
        ∀ n, Slot.fire prog (n + (L1 ++ L2).length + 1) s1 sl =
          .ok { s1 with trace := s1.trace ++ tagsOf s.heap (L1 ++ L2) } := by
    intro prog s sl l x L1 L2 hr hl hp
    obtain ⟨k, hk⟩ := hr.live x (by simp)
    obtain ⟨s1, e1, hr1, b1, l1, t1, f1, r1, hx1, g1⟩ := link_release_ring hr hl hk
    refine ⟨s1, e1, hr1, ?_⟩
    intro n
    have := fire_passive prog hr1 (by rw [g1]; exact hp) n
    rw [g1] at this
    exact this
  refine ⟨general, ?_⟩
  intro prog a b c ha hb hc
  obtain ⟨s0, e0, hr0, hf0, b0, l0, t0, -⟩ := slot_ctor_spec fresh_init
  obtain ⟨s1, L, e1, hr1, hf1, l1, t1, g1⟩ := bindAll_ring State.init.brk [a, b, c] s0 [] hf0 hr0
  simp only [List.nil_append] at hr1 g1
  have hg : tagsOf s1.heap L = [a, b, c] := by simpa [tagsOf] using g1
  have hlen : L.length = 3 := by
    rw [← tagsOf_length L hr1.tagged, hg]; rfl
  obtain ⟨n1, n2, n3, rfl⟩ : ∃ n1 n2 n3, L = [n1, n2, n3] := by
    match L, hlen with
    | [n1, n2, n3], _ => exact ⟨n1, n2, n3, rfl⟩
  obtain ⟨u1, hu1⟩ := hr1.tagged n1 (by simp)
  obtain ⟨u2, hu2⟩ := hr1.tagged n2 (by simp)
  obtain ⟨u3, hu3⟩ := hr1.tagged n3 (by simp)
  have hg2 := hg
  rw [tagsOf_cons_of _ hu1, tagsOf_cons_of _ hu2, tagsOf_cons_of _ hu3] at hg2
  simp only [tagsOf, List.filterMap_nil, List.cons.injEq, and_true] at hg2
  obtain ⟨rfl, rfl, rfl⟩ := hg2
  have hfire1 := fire_passive prog hr1 (by
    rw [hg]; intro t ht; simp at ht; rcases ht with rfl | rfl | rfl <;> assumption) 0
  rw [hg] at hfire1
  have hr2 : Ring { s1 with trace := s1.trace ++ [u1, u2, u3] } State.init.brk
      ([n1] ++ n2 :: [n3]) := hr1
  have hl2 : getLink { s1 with trace := s1.trace ++ [u1, u2, u3] } 1 = n2 := by
    simp [getLink, l1, l0, State.init]
  have hp2 : ∀ t ∈ tagsOf ({ s1 with trace := s1.trace ++ [u1, u2, u3] } : State).heap
      ([n1] ++ [n3]), prog t = [] := by
    intro t ht
    rw [show [n1] ++ [n3] = [n1, n3] from rfl, tagsOf_cons_of _ hu1, tagsOf_cons_of _ hu3] at ht
    simp [tagsOf] at ht
    rcases ht with rfl | rfl <;> assumption
  obtain ⟨s3, e3, hr3, hfire3⟩ := general prog _ _ 1 n2 [n1] [n3] hr2 hl2 hp2
  have hfire3 := hfire3 1
  rw [show [n1] ++ [n3] = [n1, n3] from rfl, tagsOf_cons_of _ hu1, tagsOf_cons_of _ hu3] at hfire3
  exact ⟨s0, State.init.brk, s1, _, s3, _, e0, e1, hfire1, rfl, e3, hfire3, rfl⟩

theorem release_removes_from_next_fire_witness :
    (Ring ringABC 1 ([2] ++ 3 :: [4]) ∧ getLink ringABC 1 = 3 ∧
      ∃ s1, Link.release ringABC 1 = .ok s1 ∧ Ring s1 1 ([2] ++ [4]) ∧
        ∀ n, Slot.fire (fun _ => []) (n + ([2] ++ [4]).length + 1) s1 1 =
          .ok { s1 with trace := s1.trace ++ tagsOf ringABC.heap ([2] ++ [4]) }) ∧
    ∃ s0 sl s1 s2 s3 s4, Slot.ctor State.init = .ok (s0, sl) ∧
      bindAll sl s0 [7, 8, 9] = .ok s1 ∧
      Slot.fire (fun _ => []) 4 s1 sl = .ok s2 ∧ s2.trace = s1.trace ++ [7, 8, 9] ∧
      Link.release s2 1 = .ok s3 ∧
      Slot.fire (fun _ => []) 4 s3 sl = .ok s4 ∧ s4.trace = s3.trace ++ [7, 9] :=
  ⟨⟨by decide, by decide,
    release_removes_from_next_fire.1 (fun _ => []) ringABC 1 1 3 [2] [4] (by decide) (by decide)
      (fun _ _ => rfl)⟩,
   release_removes_from_next_fire.2 (fun _ => []) 7 8 9 rfl rfl rfl⟩

/-- The virtual call on a handler node, one step (lines 117-120, 20-22): the
functor runs, then `this->next` is read and called. -/
theorem invoke_step (prog : Nat → List Action) (sl fuel : Nat) {s : State}
    {p t : Nat} {k : Socket} (hk : s.heap p = some k) (hkf : k.functor = some t) :
    invoke prog sl (fuel + 1) s p =
      (execActions (fun s0 => readSock s0 sl >>= fun k0 => invoke prog sl fuel s0 k0.next)
        sl { s with trace := s.trace ++ [t] } (prog t)) >>= fun s1 =>
      readSock s1 p >>= fun k1 => invoke prog sl fuel s1 k1.next := by
  simp only [invoke, readSock_ok hk, ok_bind, hkf]

/-- Starting from the successor of `p`, a run `L` of handlers that do nothing
to the signal is traversed in order, up to the node `q` that follows it. -/
theorem invoke_prefix (prog : Nat → List Action) (sl : Nat) {s : State} {p q : Nat}
    {L : List Nat} {kp : Socket} (hs : Seg s.heap p L q) (hkp : s.heap p = some kp)
    (hp : ∀ a ∈ L, ∃ t, functorOf s.heap a = some (some t) ∧ prog t = []) (fuel : Nat) :
    invoke prog sl (fuel + L.length) s kp.next =
      invoke prog sl fuel { s with trace := s.trace ++ tagsOf s.heap L } q := by
  cases L with
  | nil =>
    have hn : nextOf s.heap p = some q := hs.1
    have hkq : kp.next = q := by
      rw [(proj_of_heap hkp).2.1] at hn
      simpa using hn
    rw [hkq]
    simp [tagsOf]
  | cons a L =>
    have hn : nextOf s.heap p = some a := hs.1.1
    have hka : kp.next = a := by
      rw [(proj_of_heap hkp).2.1] at hn
      simpa using hn
    rw [hka]
    exact invoke_passive_seg prog sl L a q s fuel hs.2 hp


theorem passive_nodes {prog : Nat → List Action} {h : Nat → Option Socket} {L : List Nat}
    (hL : ∀ a ∈ L, ∃ t, functorOf h a = some (some t))
    (hp : ∀ t ∈ tagsOf h L, prog t = []) :
    ∀ a ∈ L, ∃ t, functorOf h a = some (some t) ∧ prog t = [] := by
  intro a ha
  obtain ⟨t, ht⟩ := hL a ha
  refine ⟨t, ht, hp t ?_⟩
  simp only [tagsOf, List.mem_filterMap]
  exact ⟨a, ha, by simp [ht]⟩

/-- A fire over a ring in which exactly the handler `x` binds a new handler
(all other payloads, and the new one, leave the signal alone): the traversal
reads `x->next` after the functor of `x` has run, so it goes on through the
rest of the ring and reaches the node that was just appended. -/
theorem fire_with_binder (prog : Nat → List Action) {s : State} {sl x tx u : Nat}
    {L1 L2 : List Nat} (hf : Fresh s) (hr : Ring s sl (L1 ++ x :: L2))
    (hx : functorOf s.heap x = some (some tx)) (hbind : prog tx = [Action.bind u])
    (hnew : prog u = []) (hp : ∀ t ∈ tagsOf s.heap (L1 ++ L2), prog t = []) :
    ∃ s1, (∀ n, Slot.fire prog (n + (L1 ++ x :: L2).length + 2) s sl = .ok s1) ∧
      s1.trace = s.trace ++ tagsOf s.heap (L1 ++ x :: L2) ++ [u] ∧
      Ring s1 sl (L1 ++ x :: (L2 ++ [s.brk])) ∧ Fresh s1 ∧ s1.brk = s.brk + 1 ∧
      s1.links = s.links ++ [s.brk] ∧
      (∀ a, functorOf s1.heap a =
        if a = s.brk then some (some u) else functorOf s.heap a) := by
  obtain ⟨ksl, hsl⟩ := hr.live sl (by simp)
  obtain ⟨k, hk, hkf⟩ := live_of_functorOf hx
  have hseg := (seg_append L1 x L2 sl sl).1 hr.1
  have htag : ∀ a ∈ L1 ++ L2, ∃ t, functorOf s.heap a = some (some t) := by
    intro a ha
    apply hr.tagged a
    rcases List.mem_append.1 ha with c | c
    · simp [c]
    · simp [c]
  have hpn := passive_nodes htag hp
  -- the state in which the functor of `x` starts
  have hr2 : Ring { s with trace := s.trace ++ tagsOf s.heap L1 ++ [tx] } sl
      (L1 ++ x :: L2) := hr
  have hf2 : Fresh { s with trace := s.trace ++ tagsOf s.heap L1 ++ [tx] } := hf
  obtain ⟨sb, eb, hrb, hfb, bb, lb, tb, fb, rb, gb⟩ := slot_bind_ring u hf2 hr2
  have hrb2 : Ring sb sl (L1 ++ x :: (L2 ++ [s.brk])) := by
    have : L1 ++ x :: L2 ++ [s.brk] = L1 ++ x :: (L2 ++ [s.brk]) := by simp
    rw [← this]; exact hrb
  have hsegb := (seg_append L1 x (L2 ++ [s.brk]) sl sl).1 hrb2.1
  obtain ⟨kb, hkb⟩ := hrb2.live x (by simp)
  have hxb : ∀ a ∈ sl :: (L1 ++ x :: L2), a ≠ s.brk := by
    intro a ha e
    obtain ⟨ka, hka⟩ := hr.live a ha
    have := fresh_not_live hf hka
    omega
  have hpb : ∀ a ∈ L2 ++ [s.brk], ∃ t, functorOf sb.heap a = some (some t) ∧ prog t = [] := by
    intro a ha
    rcases List.mem_append.1 ha with c | c
    · obtain ⟨t, ht, hpt⟩ := hpn a (by simp [c])
      refine ⟨t, ?_, hpt⟩
      rw [fb, if_neg (hxb a (by simp [c]))]
      exact ht
    · simp at c
      exact ⟨u, by rw [fb, if_pos c], hnew⟩
  have htagsb : tagsOf sb.heap (L2 ++ [s.brk]) = tagsOf s.heap L2 ++ [u] := by
    rw [tagsOf_append]
    congr 1
    · apply tagsOf_congr
      intro a ha
      rw [fb, if_neg (hxb a (by simp [ha]))]
    · simp [tagsOf, fb]
  refine ⟨{ sb with trace := sb.trace ++ tagsOf sb.heap (L2 ++ [s.brk]) }, ?_, ?_, hrb2, hfb,
    bb, lb, fb⟩
  · intro n
    have hfuel : n + (L1 ++ x :: L2).length + 2 =
        (((n + 1) + (L2 ++ [s.brk]).length) + 1) + L1.length := by
      simp; omega
    have h1 := invoke_prefix prog sl hseg.1 hsl
      (fun a ha => hpn a (by simp [ha])) (((n + 1) + (L2 ++ [s.brk]).length) + 1)
    have hk2 : ({ s with trace := s.trace ++ tagsOf s.heap L1 } : State).heap x = some k := hk
    have h2 := invoke_step prog sl ((n + 1) + (L2 ++ [s.brk]).length) hk2 hkf
    have h3 := invoke_prefix prog sl hsegb.2 hkb hpb (n + 1)
    have h4 := invoke_null prog sl n
      (s := { sb with trace := sb.trace ++ tagsOf sb.heap (L2 ++ [s.brk]) }) (p := sl)
      hrb2.2.2.2.1
    simp only [Slot.fire, readSock_ok hsl, ok_bind]
    rw [hfuel, h1, h2, hbind]
    simp only [execActions, execAction, eb, ok_bind, pure_ok, readSock_ok hkb]
    rw [h3, h4]
  · show sb.trace ++ tagsOf sb.heap (L2 ++ [s.brk]) = _
    rw [tb, htagsb, tagsOf_append, tagsOf_cons_of L2 hx]
    simp


theorem fresh_ringABC : Fresh ringABC := by
  refine ⟨by decide, ?_⟩
  intro p hp
  have h5 : 5 ≤ p := hp
  simp only [ringABC]
  rw [if_neg (by omega), if_neg (by omega), if_neg (by omega), if_neg (by omega)]

/-- C3, as the code behaves: with handlers 7, 8, 9 bound and the functor 7
binding a new handler 99 when called, one fire invokes 7, 8, 9 and then the
handler bound during that very fire. -/
theorem bind_during_fire_runs_new_handler :
    traceOf (Slot.fire progBind 5 ringABC 1) = some [7, 8, 9, 99] := by
  decide

/-- C3 (amended): a handler whose payload binds a new handler on the same slot
during a fire causes the new handler to be invoked by that same fire, once and
after all earlier-bound handlers; the next fire invokes it again, once and
after all earlier-bound handlers (and then the handler bound during that
second fire). -/
theorem bind_during_fire (prog : Nat → List Action) (s : State) (sl x tx u : Nat)
    (L1 L2 : List Nat) (hf : Fresh s) (hr : Ring s sl (L1 ++ x :: L2))
    (hx : functorOf s.heap x = some (some tx)) (hbind : prog tx = [Action.bind u])
    (hnew : prog u = []) (hp : ∀ t ∈ tagsOf s.heap (L1 ++ L2), prog t = []) :
    ∃ s1 s2,
      (∀ n, Slot.fire prog (n + (L1 ++ x :: L2).length + 2) s sl = .ok s1) ∧
      s1.trace = s.trace ++ tagsOf s.heap (L1 ++ x :: L2) ++ [u] ∧
      Ring s1 sl (L1 ++ x :: L2 ++ [s.brk]) ∧
      (∀ n, Slot.fire prog (n + (L1 ++ x :: L2).length + 3) s1 sl = .ok s2) ∧
      s2.trace = s1.trace ++ tagsOf s.heap (L1 ++ x :: L2) ++ [u, u] ∧
      Ring s2 sl (L1 ++ x :: L2 ++ [s.brk, s.brk + 1]) := by
  obtain ⟨s1, hfire1, ht1, hr1, hf1, b1, l1, f1⟩ := fire_with_binder prog hf hr hx hbind hnew hp
  have hxb : ∀ a ∈ sl :: (L1 ++ x :: L2), a ≠ s.brk := by
    intro a ha e
    obtain ⟨ka, hka⟩ := hr.live a ha
    have := fresh_not_live hf hka
    omega
  have hx1 : functorOf s1.heap x = some (some tx) := by
    rw [f1, if_neg (hxb x (by simp))]; exact hx
  have htags : ∀ M : List Nat, (∀ a ∈ M, a ∈ sl :: (L1 ++ x :: L2)) →
      tagsOf s1.heap M = tagsOf s.heap M := by
    intro M hM
    apply tagsOf_congr
    intro a ha
    rw [f1, if_neg (hxb a (hM a ha))]
  have hnewtag : tagsOf s1.heap [s.brk] = [u] := by simp [tagsOf, f1]
  have hp1 : ∀ t ∈ tagsOf s1.heap (L1 ++ (L2 ++ [s.brk])), prog t = [] := by
    intro t ht
    rw [← List.append_assoc, tagsOf_append, hnewtag,
      htags (L1 ++ L2) (by intro a ha; simp at ha ⊢; tauto)] at ht
    rcases List.mem_append.1 ht with c | c
    · exact hp t c
    · simp at c; rw [c]; exact hnew
  obtain ⟨s2, hfire2, ht2, hr2, hf2, b2, l2, f2⟩ :=
    fire_with_binder prog hf1 hr1 hx1 hbind hnew hp1
  refine ⟨s1, s2, hfire1, ht1, ?_, ?_, ?_, ?_⟩
  · simpa using hr1
  · intro n
    have := hfire2 n
    simp only [List.length_append, List.length_cons, List.length_nil] at this ⊢
    rw [← this]
    congr 1
  · rw [ht2]
    have e : L1 ++ x :: (L2 ++ [s.brk]) = (L1 ++ x :: L2) ++ [s.brk] := by simp
    rw [e, tagsOf_append, hnewtag, htags (L1 ++ x :: L2) (by intro a ha; simp at ha ⊢; tauto)]
    simp
  · rw [b1] at hr2
    simpa using hr2

theorem bind_during_fire_witness :
    Fresh ringABC ∧ Ring ringABC 1 ([] ++ 2 :: [3, 4]) ∧
    ∃ s1 s2,
      (∀ n, Slot.fire progBind (n + ([] ++ 2 :: [3, 4]).length + 2) ringABC 1 = .ok s1) ∧
      s1.trace = ringABC.trace ++ tagsOf ringABC.heap ([] ++ 2 :: [3, 4]) ++ [99] ∧
      Ring s1 1 ([] ++ 2 :: [3, 4] ++ [ringABC.brk]) ∧
      (∀ n, Slot.fire progBind (n + ([] ++ 2 :: [3, 4]).length + 3) s1 1 = .ok s2) ∧
      s2.trace = s1.trace ++ tagsOf ringABC.heap ([] ++ 2 :: [3, 4]) ++ [99, 99] ∧
      Ring s2 1 ([] ++ 2 :: [3, 4] ++ [ringABC.brk, ringABC.brk + 1]) :=
  ⟨fresh_ringABC, by decide,
    bind_during_fire progBind ringABC 1 2 7 99 [] [3, 4] fresh_ringABC (by decide) (by decide)
      (by decide) (by decide) (by decide)⟩

/-- C4, at the failing input: handlers 7, 8, 9 are bound, each `Link` kept once,
and the functor 7 releases the only `Link` to its own node. `Socket::release`
destroys the node, and `Socket::operator()` then reads `this->next` of the
destroyed node; handlers 8 and 9 are not reached. With a second `Link` to the
node the same fire is well defined and invokes 7, 8, 9. -/
theorem self_release_reads_destroyed_node :
    (∀ n, Slot.fire (progRelease 7 0) (n + 2) ringABC 1 = .error .dangling) ∧
    traceOf (Link.copy ringABC 0 >>= fun r => Slot.fire (progRelease 7 0) 5 r.1 1) =
      some [7, 8, 9] :=
  ⟨fun _ => rfl, by decide⟩

/-- C5, at the failing input: handlers 7, 8, 9 are bound, an `AutoLink` takes
over the `Link` to handler 7, and the `Link` to handler 8 is assigned to it (by
copy, or by move) and then discarded. The node of handler 7 is still linked
(its `prev` is the sentinel) and the next fire still invokes 7. -/
theorem autolink_assign_keeps_previous_handler :
    (∃ s, (AutoLink.assign (AutoLink.move ringABC 0).1 3 1 >>= fun s1 => Link.dtor s1 1) = .ok s ∧
      prevOf s.heap 2 = some 1 ∧ s.links = [0, 0, 4, 3] ∧
      traceOf (Slot.fire (fun _ => []) 5 s 1) = some [7, 8, 9]) ∧
    (∃ s, Link.dtor (AutoLink.moveAssign (AutoLink.move ringABC 0).1 3 1) 1 = .ok s ∧
      prevOf s.heap 2 = some 1 ∧ s.links = [0, 0, 4, 3] ∧
      traceOf (Slot.fire (fun _ => []) 5 s 1) = some [7, 8, 9]) :=
  ⟨⟨_, rfl, by decide, by decide, by decide⟩, ⟨_, rfl, by decide, by decide, by decide⟩⟩

/-- A fire in which exactly one handler `x` does something to the signal: the
handlers `L1` before it are traversed in the starting state, the program of `x`
runs and leaves the state `sb`, then `x->next` is read in `sb` and the traversal
goes on through the handlers `R` that follow `x` in `sb`. -/
theorem fire_one_active (prog : Nat → List Action) {s sb : State} {sl x tx : Nat}
    {L1 R : List Nat} {ksl k kb : Socket}
    (hsl : s.heap sl = some ksl) (hseg1 : Seg s.heap sl L1 x)
    (hp1 : ∀ a ∈ L1, ∃ t, functorOf s.heap a = some (some t) ∧ prog t = [])
    (hk : s.heap x = some k) (hkf : k.functor = some tx)
    (hexec : ∀ K, execActions K sl
      { s with trace := s.trace ++ tagsOf s.heap L1 ++ [tx] } (prog tx) = .ok sb)
    (hkb : sb.heap x = some kb) (hseg2 : Seg sb.heap x R sl)
    (hp2 : ∀ a ∈ R, ∃ t, functorOf sb.heap a = some (some t) ∧ prog t = [])
    (hnull : functorOf sb.heap sl = some none) (n : Nat) :
    Slot.fire prog (n + L1.length + R.length + 2) s sl =
      .ok { sb with trace := sb.trace ++ tagsOf sb.heap R } := by
  have hfuel : n + L1.length + R.length + 2 = (((n + 1) + R.length) + 1) + L1.length := by
    omega
  have h1 := invoke_prefix prog sl hseg1 hsl hp1 (((n + 1) + R.length) + 1)
  have hk2 : ({ s with trace := s.trace ++ tagsOf s.heap L1 } : State).heap x = some k := hk
  have h2 := invoke_step prog sl ((n + 1) + R.length) hk2 hkf
  have h3 := invoke_prefix prog sl hseg2 hkb hp2 (n + 1)
  have h4 := invoke_null prog sl n
    (s := { sb with trace := sb.trace ++ tagsOf sb.heap R }) (p := sl) hnull
  simp only [Slot.fire, readSock_ok hsl, ok_bind]
  rw [hfuel, h1, h2, hexec]
  simp only [ok_bind, readSock_ok hkb]
  rw [h3, h4]

/-- A program that is a single `release` runs `Link::release`. -/
theorem execActions_release (K : State → Except Err State) (sl : Nat) (s : State) (l : Nat) :
    execActions K sl s [Action.release l] = Link.release s l := by
  simp only [execActions, execAction]
  cases Link.release s l <;> rfl

theorem nodup_split {sl y : Nat} {P Q : List Nat} (hnd : (sl :: (P ++ y :: Q)).Nodup) :
    ∀ a ∈ sl :: (P ++ Q), a ≠ y := by
  intro a ha e
  subst e
  have h1 := (List.nodup_cons.1 hnd).1
  have h2 := (List.nodup_cons.1 hnd).2
  rw [List.nodup_append] at h2
  rcases List.mem_cons.1 ha with c | c
  · apply h1
    rw [← c]
    simp
  · rcases List.mem_append.1 c with c | c
    · exact h2.2.2 c (by simp)
    · exact (List.nodup_cons.1 h2.2.1).1 c

/-- C10: during a fire over a well-formed ring the handler `x` releases a
`Link` to another handler `y`. If `y` has not been visited yet (it comes after
`x`, possibly right after it), `y` is not invoked by that fire and every other
handler is invoked exactly once in ring order. If `y` was already visited (it
comes before `x`), the rest of the traversal is unaffected: every handler of
the ring is invoked exactly once in ring order. -/
theorem release_other_during_fire (prog : Nat → List Action) (s : State)
    (sl l x y tx : Nat) (A B C : List Nat)
    (hx : functorOf s.heap x = some (some tx)) (hrel : prog tx = [Action.release l])
    (hl : getLink s l = y) :
    (Ring s sl (A ++ x :: (B ++ y :: C)) →
      (∀ t ∈ tagsOf s.heap (A ++ (B ++ C)), prog t = []) →
      ∃ s1, (∀ n, Slot.fire prog (n + (A ++ x :: (B ++ C)).length + 1) s sl = .ok s1) ∧
        s1.trace = s.trace ++ tagsOf s.heap (A ++ x :: (B ++ C)) ∧
        Ring s1 sl (A ++ x :: (B ++ C))) ∧
    (Ring s sl (A ++ y :: (B ++ x :: C)) →
      (∀ t ∈ tagsOf s.heap (A ++ y :: (B ++ C)), prog t = []) →
      ∃ s1, (∀ n, Slot.fire prog (n + (A ++ y :: (B ++ x :: C)).length + 1) s sl = .ok s1) ∧
        s1.trace = s.trace ++ tagsOf s.heap (A ++ y :: (B ++ x :: C)) ∧
        Ring s1 sl (A ++ (B ++ x :: C))) := by
  obtain ⟨k, hk, hkf⟩ := live_of_functorOf hx
  constructor
  · intro hr hp
    obtain ⟨ksl, hsl⟩ := hr.live sl (by simp)
    obtain ⟨ky, hky⟩ := hr.live y (by simp)
    have hseg := (seg_append A x (B ++ y :: C) sl sl).1 hr.1
    have htag : ∀ a ∈ A ++ (B ++ C), ∃ t, functorOf s.heap a = some (some t) := by
      intro a ha
      apply hr.tagged a
      simp only [List.mem_append, List.mem_cons] at ha ⊢
      rcases ha with c | c | c
      · exact Or.inl c
      · exact Or.inr (Or.inr (Or.inl c))
      · exact Or.inr (Or.inr (Or.inr (Or.inr c)))
    have hpn := passive_nodes htag hp
    have hrs : Ring { s with trace := s.trace ++ tagsOf s.heap A ++ [tx] } sl
        ((A ++ x :: B) ++ y :: C) := by
      have e : (A ++ x :: B) ++ y :: C = A ++ x :: (B ++ y :: C) := by simp
      rw [e]; exact hr
    have hls : getLink { s with trace := s.trace ++ tagsOf s.heap A ++ [tx] } l = y := hl
    obtain ⟨sb, eb, hrb, bb, lb, tb, fb, rb, hyb, gb⟩ :=
      link_release_ring (k := ky) hrs hls hky
    have hrb0 : Ring sb sl (A ++ x :: (B ++ C)) := by
      have e : (A ++ x :: B) ++ C = A ++ x :: (B ++ C) := by simp
      rw [← e]; exact hrb
    have hsegb := (seg_append A x (B ++ C) sl sl).1 hrb0.1
    obtain ⟨kb, hkb⟩ := hrb0.live x (by simp)
    have hne : ∀ a ∈ sl :: ((A ++ x :: B) ++ C), a ≠ y := nodup_split hrs.2.1
    have hneBC : ∀ a ∈ B ++ C, a ≠ y := by
      intro a ha
      apply hne a
      simp only [List.mem_append, List.mem_cons] at ha ⊢
      rcases ha with c | c
      · exact Or.inr (Or.inl (Or.inr (Or.inr c)))
      · exact Or.inr (Or.inr c)
    have hpb : ∀ a ∈ B ++ C, ∃ t, functorOf sb.heap a = some (some t) ∧ prog t = [] := by
      intro a ha
      obtain ⟨t, ht, hpt⟩ := hpn a (List.mem_append_right _ ha)
      refine ⟨t, ?_, hpt⟩
      rw [fb a (hneBC a ha)]
      exact ht
    have htb : tagsOf sb.heap (B ++ C) = tagsOf s.heap (B ++ C) := by
      apply tagsOf_congr
      intro a ha
      exact fb a (hneBC a ha)
    refine ⟨{ sb with trace := sb.trace ++ tagsOf sb.heap (B ++ C) }, ?_, ?_, hrb0⟩
    · intro n
      have := fire_one_active prog hsl hseg.1
        (fun a ha => hpn a (List.mem_append_left _ ha)) hk hkf
        (fun K => by rw [hrel, execActions_release]; exact eb) hkb hsegb.2 hpb
        hrb0.2.2.2.1 n
      rw [← this]
      congr 1
      simp only [List.length_append, List.length_cons]
      omega
    · show sb.trace ++ tagsOf sb.heap (B ++ C) = _
      rw [tb, htb]
      show s.trace ++ tagsOf s.heap A ++ [tx] ++ tagsOf s.heap (B ++ C) = _
      rw [tagsOf_append s.heap A, tagsOf_cons_of _ hx]
      simp
  · intro hr hp
    obtain ⟨ksl, hsl⟩ := hr.live sl (by simp)
    obtain ⟨ky, hky⟩ := hr.live y (by simp)
    have hr0 : Ring s sl ((A ++ y :: B) ++ x :: C) := by
      have e : (A ++ y :: B) ++ x :: C = A ++ y :: (B ++ x :: C) := by simp
      rw [e]; exact hr
    have hseg := (seg_append (A ++ y :: B) x C sl sl).1 hr0.1
    have htag : ∀ a ∈ A ++ y :: (B ++ C), ∃ t, functorOf s.heap a = some (some t) := by
      intro a ha
      apply hr.tagged a
      simp only [List.mem_append, List.mem_cons] at ha ⊢
      rcases ha with c | c | c | c
      · exact Or.inl c
      · exact Or.inr (Or.inl c)
      · exact Or.inr (Or.inr (Or.inl c))
      · exact Or.inr (Or.inr (Or.inr (Or.inr c)))
    have hpn := passive_nodes htag hp
    have hrs : Ring { s with trace := s.trace ++ tagsOf s.heap (A ++ y :: B) ++ [tx] } sl
        (A ++ y :: (B ++ x :: C)) := hr
    have hls : getLink { s with trace := s.trace ++ tagsOf s.heap (A ++ y :: B) ++ [tx] } l = y :=
      hl
    obtain ⟨sb, eb, hrb, bb, lb, tb, fb, rb, hyb, gb⟩ :=
      link_release_ring (k := ky) hrs hls hky
    have hrb0 : Ring sb sl ((A ++ B) ++ x :: C) := by
      have e : (A ++ B) ++ x :: C = A ++ (B ++ x :: C) := by simp
      rw [e]; exact hrb
    have hsegb := (seg_append (A ++ B) x C sl sl).1 hrb0.1
    obtain ⟨kb, hkb⟩ := hrb0.live x (by simp)
    have hne : ∀ a ∈ sl :: (A ++ (B ++ x :: C)), a ≠ y := nodup_split hrs.2.1
    have hneC : ∀ a ∈ C, a ≠ y := by
      intro a ha
      apply hne a
      simp only [List.mem_append, List.mem_cons]
      exact Or.inr (Or.inr (Or.inr (Or.inr ha)))
    have hpb : ∀ a ∈ C, ∃ t, functorOf sb.heap a = some (some t) ∧ prog t = [] := by
      intro a ha
      obtain ⟨t, ht, hpt⟩ := hpn a (by
        simp only [List.mem_append, List.mem_cons]
        exact Or.inr (Or.inr (Or.inr ha)))
      refine ⟨t, ?_, hpt⟩
      rw [fb a (hneC a ha)]
      exact ht
    have htb : tagsOf sb.heap C = tagsOf s.heap C := by
      apply tagsOf_congr
      intro a ha
      exact fb a (hneC a ha)
    refine ⟨{ sb with trace := sb.trace ++ tagsOf sb.heap C }, ?_, ?_, hrb⟩
    · intro n
      have := fire_one_active prog hsl hseg.1
        (fun a ha => hpn a (by
          simp only [List.mem_append, List.mem_cons] at ha ⊢
          rcases ha with c | c | c
          · exact Or.inl c
          · exact Or.inr (Or.inl c)
          · exact Or.inr (Or.inr (Or.inl c)))) hk hkf
        (fun K => by rw [hrel, execActions_release]; exact eb) hkb hsegb.2 hpb
        hrb0.2.2.2.1 n
      rw [← this]
      congr 1
      simp only [List.length_append, List.length_cons]
      omega
    · show sb.trace ++ tagsOf sb.heap C = _
      rw [tb, htb]
      show s.trace ++ tagsOf s.heap (A ++ y :: B) ++ [tx] ++ tagsOf s.heap C = _
      have e : A ++ y :: (B ++ x :: C) = (A ++ y :: B) ++ x :: C := by simp
      rw [e, tagsOf_append s.heap (A ++ y :: B) (x :: C), tagsOf_cons_of _ hx]
      simp

theorem release_other_during_fire_witness :
    (Ring ringABC 1 ([] ++ 2 :: ([] ++ 3 :: [4])) ∧
      ∃ s1, (∀ n, Slot.fire (progRelease 7 1) (n + ([] ++ 2 :: ([] ++ [4])).length + 1)
          ringABC 1 = .ok s1) ∧
        s1.trace = ringABC.trace ++ tagsOf ringABC.heap ([] ++ 2 :: ([] ++ [4])) ∧
        Ring s1 1 ([] ++ 2 :: ([] ++ [4]))) ∧
    (Ring ringABC 1 ([2] ++ 3 :: ([] ++ 4 :: [])) ∧
      ∃ s1, (∀ n, Slot.fire (progRelease 9 1) (n + ([2] ++ 3 :: ([] ++ 4 :: [])).length + 1)
          ringABC 1 = .ok s1) ∧
        s1.trace = ringABC.trace ++ tagsOf ringABC.heap ([2] ++ 3 :: ([] ++ 4 :: [])) ∧
        Ring s1 1 ([2] ++ ([] ++ 4 :: []))) :=
  ⟨⟨by decide, (release_other_during_fire (progRelease 7 1) ringABC 1 1 2 3 7 [] [] [4]
      (by decide) (by decide) (by decide)).1 (by decide) (by decide)⟩,
   ⟨by decide, (release_other_during_fire (progRelease 9 1) ringABC 1 1 4 3 9 [2] [] []
      (by decide) (by decide) (by decide)).2 (by decide) (by decide)⟩⟩

/-! ## Counting owners -/

theorem wdec_succ {r : Nat} (h : r + 1 < 4294967296) : wdec (r + 1) = r := by
  unfold wdec
  omega

theorem wdec_pos {r : Nat} (h0 : r ≠ 0) (h : r < 4294967296) : wdec r = r - 1 := by
  unfold wdec
  omega

theorem winc_lt {r : Nat} (h : r + 1 < 4294967296) : winc r = r + 1 := by
  unfold winc
  omega

/-- Emptying a `Link` that holds `x` removes one holder of `x`. -/
theorem count_set_zero {x : Nat} (hx : x ≠ 0) :
    ∀ (ls : List Nat) (l : Nat), ls.getD l 0 = x → (ls.set l 0).count x + 1 = ls.count x := by
  intro ls
  induction ls with
  | nil => intro l h; simp at h; exact absurd h.symm hx
  | cons a ls ih =>
    intro l h
    cases l with
    | zero =>
      simp at h
      subst h
      simp [List.count_cons, hx.symm]
    | succ l =>
      simp at h
      have := ih l (by simpa using h)
      simp only [List.set_cons_succ, List.count_cons]
      omega

/-- Emptying a `Link` does not change the holders of any other node. -/
theorem count_set_zero_ne {x y : Nat} (hy : y ≠ 0) :
    ∀ (ls : List Nat) (l : Nat), ls.getD l 0 = x → y ≠ x → (ls.set l 0).count y = ls.count y := by
  intro ls
  induction ls with
  | nil => intro l _ _; simp
  | cons a ls ih =>
    intro l h hne
    cases l with
    | zero =>
      simp at h
      subst h
      simp [List.count_cons, hy.symm, hne.symm]
    | succ l =>
      simp at h
      have := ih l (by simpa using h) hne
      simp only [List.set_cons_succ, List.count_cons]
      omega

theorem getLink_setLink_self (s : State) (l v : Nat) (h : v = 0) :
    getLink (setLink s l v) l = 0 := by
  subst h
  simp only [getLink, setLink, List.getD_eq_getElem?_getD, List.getElem?_set]
  split_ifs <;> simp

/-- Destructor `Link::~Link` on an empty `Link` does nothing. -/
theorem link_dtor_empty {s : State} {l : Nat} (h : getLink s l = 0) : Link.dtor s l = .ok s := by
  simp [Link.dtor, h, pure_ok]

/-- Method `Link::release` on an empty `Link` does nothing. -/
theorem link_release_empty {s : State} {l : Nat} (h : getLink s l = 0) :
    Link.release s l = .ok s := by
  simp [Link.release, h, pure_ok]

/-- Destroying an `AutoLink` that wraps a handle to an attached handler whose
node satisfies the ownership equation, while `k` other `Link` objects refer to
the same node, detaches the node: the very next fire does not invoke that
handler and invokes every other attached handler once, in order; the node is
destroyed at that point iff `k = 0`. -/
theorem autolink_dtor_detaches (prog : Nat → List Action) (s : State) (sl a x k : Nat)
    (L1 L2 : List Nat) (hr : Ring s sl (L1 ++ x :: L2)) (ha : getLink s a = x)
    (hown : Owned s x) (hcnt : linkCount s x = k + 1)
    (hp : ∀ t ∈ tagsOf s.heap (L1 ++ L2), prog t = []) :
    ∃ s1, AutoLink.dtor s a = .ok s1 ∧ Ring s1 sl (L1 ++ L2) ∧
      (∀ n, Slot.fire prog (n + (L1 ++ L2).length + 1) s1 sl =
        .ok { s1 with trace := s1.trace ++ tagsOf s.heap (L1 ++ L2) }) ∧
      (s1.heap x = none ↔ k = 0) ∧
      linkCount s1 x = k ∧
      (k ≠ 0 → prevOf s1.heap x = some 0 ∧ refsOf s1.heap x = some (k - 1)) := by
  obtain ⟨kx, hkx⟩ := hr.live x (by simp)
  have hx0 : x ≠ 0 := by
    intro e
    apply hr.2.2.1
    simp [e]
  have hprev : kx.prev ≠ 0 := by
    have hseg := (seg_append L1 x L2 sl sl).1 hr.1
    have hPm := seg_last_mem L1 sl x kx.prev hseg.1 (proj_of_heap hkx).1
    intro e
    apply hr.2.2.1
    rw [e] at hPm
    simp only [List.mem_cons, List.mem_append] at hPm ⊢
    tauto
  have hrefs : kx.refs = k + 1 ∧ k + 1 < 4294967296 := by
    have := hown
    simp only [Owned, hkx, hprev, ne_eq, not_false_eq_true, if_true, hcnt] at this
    omega
  obtain ⟨s1, e1, hr1, b1, l1, t1, f1, r1, hx1, g1⟩ := link_release_ring hr ha hkx
  have hl1 : getLink s1 a = 0 := by
    have := getLink_setLink_self s a 0 rfl
    simpa [getLink, setLink, l1] using this
  refine ⟨s1, ?_, hr1, ?_, ?_, ?_, ?_⟩
  · simp only [AutoLink.dtor, e1, ok_bind, link_dtor_empty hl1]
  · intro n
    have := fire_passive prog hr1 (by rw [g1]; exact hp) n
    rw [g1] at this
    exact this
  · rw [hx1, hrefs.1, wdec_succ hrefs.2]
    by_cases hk : k = 0 <;> simp [hk]
  · have := count_set_zero hx0 s.links a ha
    simp only [linkCount, l1] at hcnt ⊢
    omega
  · intro hk
    rw [hrefs.1, wdec_succ hrefs.2, if_neg hk] at hx1
    have := proj_of_heap hx1
    refine ⟨this.1, ?_⟩
    rw [this.2.2.1, wdec_pos hk (by omega)]

theorem autolink_dtor_detaches_witness :
    Ring ringABCcopy 1 ([2] ++ 3 :: [4]) ∧ getLink ringABCcopy 3 = 3 ∧ Owned ringABCcopy 3 ∧
    linkCount ringABCcopy 3 = 1 + 1 ∧
    ∃ s1, AutoLink.dtor ringABCcopy 3 = .ok s1 ∧ Ring s1 1 ([2] ++ [4]) ∧
      (∀ n, Slot.fire (fun _ => []) (n + ([2] ++ [4]).length + 1) s1 1 =
        .ok { s1 with trace := s1.trace ++ tagsOf ringABCcopy.heap ([2] ++ [4]) }) ∧
      (s1.heap 3 = none ↔ 1 = 0) ∧
      linkCount s1 3 = 1 ∧
      (1 ≠ 0 → prevOf s1.heap 3 = some 0 ∧ refsOf s1.heap 3 = some (1 - 1)) :=
  ⟨by decide, by decide, by decide, by decide,
    autolink_dtor_detaches (fun _ => []) ringABCcopy 1 3 3 1 [2] [4] (by decide) (by decide)
      (by decide) (by decide) (fun _ _ => rfl)⟩

/-- Method `Link::release` twice. Whenever a release returns, the `Link`
is empty afterwards and a second release on it returns the very same state
(every pointer, every count, the set of live nodes, the `Link` objects); a
release on a default-constructed `Link` returns the state unchanged; and the
first release does return when the `Link` holds a node of a well-formed ring
or a live detached node. -/
theorem link_release_idempotent :
    (∀ (s : State) (l : Nat) (s1 : State), Link.release s l = .ok s1 →
      getLink s1 l = 0 ∧ Link.release s1 l = .ok s1) ∧
    (∀ s : State, Link.release (Link.default s).1 (Link.default s).2 = .ok (Link.default s).1) ∧
    (∀ (s : State) (sl l x : Nat) (L1 L2 : List Nat), Ring s sl (L1 ++ x :: L2) →
      getLink s l = x →
      ∃ s1, Link.release s l = .ok s1 ∧ getLink s1 l = 0 ∧ Link.release s1 l = .ok s1) ∧
    (∀ (s : State) (l : Nat) (k : Socket), getLink s l ≠ 0 → s.heap (getLink s l) = some k →
      k.prev = 0 →
      ∃ s1, Link.release s l = .ok s1 ∧ getLink s1 l = 0 ∧ Link.release s1 l = .ok s1) := by
  have first : ∀ (s : State) (l : Nat) (s1 : State), Link.release s l = .ok s1 →
      getLink s1 l = 0 ∧ Link.release s1 l = .ok s1 := by
    intro s l s1 h
    have hl : getLink s1 l = 0 := by
      by_cases h0 : getLink s l = 0
      · rw [link_release_empty h0] at h
        cases h
        exact h0
      · simp only [Link.release, ne_eq, h0, not_false_eq_true, if_true] at h
        cases hr : Socket.release s (getLink s l) with
        | error e => rw [hr] at h; cases h
        | ok s2 =>
          rw [hr] at h
          simp only [ok_bind, pure_ok] at h
          cases h
          exact getLink_setLink_self s2 l 0 rfl
    exact ⟨hl, link_release_empty hl⟩
  refine ⟨first, ?_, ?_, ?_⟩
  · intro s
    apply link_release_empty
    simp [Link.default, getLink]
  · intro s sl l x L1 L2 hr hl
    obtain ⟨k, hk⟩ := hr.live x (by simp)
    obtain ⟨s1, e1, -⟩ := link_release_ring hr hl hk
    exact ⟨s1, e1, first s l s1 e1⟩
  · intro s l k h0 hk hp
    have hd := socket_decref_live hk
    have hrel : Link.release s l = .ok (setLink
        (if k.refs = 0 then { s with heap := Function.update s.heap (getLink s l) none }
          else writeSock s (getLink s l) { k with refs := wdec k.refs }) l 0) := by
      simp only [Link.release, ne_eq, h0, not_false_eq_true, if_true,
        socket_release_detached hk hp, hd, ok_bind, pure_ok]
    exact ⟨_, hrel, first s l _ hrel⟩

theorem link_release_idempotent_witness :
    (∃ s1, Link.release ringABC 1 = .ok s1 ∧ getLink s1 1 = 0 ∧ Link.release s1 1 = .ok s1) ∧
    (Ring ringABC 1 ([2] ++ 3 :: [4]) ∧ getLink ringABC 1 = 3 ∧
      ∃ s1, Link.release ringABC 1 = .ok s1 ∧ getLink s1 1 = 0 ∧
        Link.release s1 1 = .ok s1) ∧
    (getLink tornABCcopy 1 ≠ 0 ∧
      tornABCcopy.heap (getLink tornABCcopy 1) =
        some { prev := 0, next := 4, refs := 1, functor := some 8 } ∧
      ∃ s1, Link.release tornABCcopy 1 = .ok s1 ∧ getLink s1 1 = 0 ∧
        Link.release s1 1 = .ok s1) :=
  ⟨⟨_, rfl, link_release_idempotent.1 ringABC 1 _ rfl⟩,
   ⟨by decide, by decide,
    link_release_idempotent.2.2.1 ringABC 1 1 3 [2] [4] (by decide) (by decide)⟩,
   ⟨by decide, by decide,
    link_release_idempotent.2.2.2 tornABCcopy 1
      { prev := 0, next := 4, refs := 1, functor := some 8 } (by decide) (by decide) rfl⟩⟩

theorem ring_congr {s s1 : State} {sl : Nat} {L : List Nat}
    (hn : ∀ a, nextOf s1.heap a = nextOf s.heap a)
    (hp : ∀ a, prevOf s1.heap a = prevOf s.heap a)
    (hf : ∀ a, functorOf s1.heap a = functorOf s.heap a) (hr : Ring s sl L) : Ring s1 sl L := by
  refine ⟨seg_frame L sl sl hr.1 (fun a _ => hn a) (fun a _ => hp a), hr.2.1, hr.2.2.1, ?_, ?_⟩
  · rw [hf]; exact hr.2.2.2.1
  · intro a ha
    rw [hf]; exact hr.2.2.2.2 a ha

theorem socket_decref_pos {s : State} {p : Nat} {k : Socket} (hk : s.heap p = some k)
    (h0 : k.refs ≠ 0) :
    Socket.decref s p = .ok (writeSock s p { k with refs := wdec k.refs }) := by
  rw [socket_decref_live hk, if_neg h0]

theorem getLink_mem_ne_zero {s : State} {sl l : Nat} {L : List Nat} (hr : Ring s sl L)
    (hl : getLink s l ∈ L) : getLink s l ≠ 0 := by
  intro e
  apply hr.2.2.1
  rw [e] at hl
  exact List.mem_cons_of_mem _ hl

theorem getLink_lt {s : State} {l : Nat} (h : getLink s l ≠ 0) : l < s.links.length := by
  by_contra hc
  apply h
  simp only [getLink, List.getD_eq_getElem?_getD]
  rw [List.getElem?_eq_none (not_lt.1 hc)]
  rfl

/-- Constructor `Link::Link(const Link&)` from a `Link` that holds a live node. -/
theorem link_copy_live {s : State} {l : Nat} {k : Socket} (h0 : getLink s l ≠ 0)
    (hk : s.heap (getLink s l) = some k) :
    Link.copy s l = .ok (writeSock { s with links := s.links ++ [getLink s l] }
        (getLink s l) { k with refs := winc k.refs }, s.links.length) := by
  have hk1 : ({ s with links := s.links ++ [getLink s l] } : State).heap (getLink s l) =
      some k := hk
  simp only [Link.copy, ne_eq, h0, not_false_eq_true, if_true, Socket.incref,
    readSock_ok hk1, ok_bind, pure_ok]

/-- Destructor `Link::~Link` on a `Link` that holds a live node with a nonzero
count. -/
theorem link_dtor_pos {s : State} {l : Nat} {k : Socket} (h0 : getLink s l ≠ 0)
    (hk : s.heap (getLink s l) = some k) (hz : k.refs ≠ 0) :
    Link.dtor s l = .ok (setLink (writeSock s (getLink s l) { k with refs := wdec k.refs })
      l 0) := by
  simp only [Link.dtor, ne_eq, h0, not_false_eq_true, if_true, socket_decref_pos hk hz,
    ok_bind, pure_ok]

theorem copy_then_discard (s : State) (sl l : Nat) (L : List Nat) (k : Socket)
    (hr : Ring s sl L) (hl : getLink s l ∈ L) (hk : s.heap (getLink s l) = some k)
    (hroom : k.refs + 1 < 4294967296) :
    ∃ s1 c s2, Link.copy s l = .ok (s1, c) ∧ Link.dtor s1 l = .ok s2 ∧
        s2.heap = s.heap ∧ s2.trace = s.trace ∧ getLink s2 c = getLink s l ∧ getLink s2 l = 0 := by
  have h0 := getLink_mem_ne_zero hr hl
  have hlt := getLink_lt h0
  have hcopy := link_copy_live h0 hk
  obtain ⟨x, hx⟩ : ∃ x, x = getLink s l := ⟨_, rfl⟩
  rw [← hx] at hcopy hk h0
  obtain ⟨r1, hr1⟩ : ∃ r1, r1 = winc k.refs := ⟨_, rfl⟩
  have hwinc : r1 = k.refs + 1 := by rw [hr1]; exact winc_lt hroom
  rw [← hr1] at hcopy
  obtain ⟨s1, hs1⟩ : ∃ s1, s1 = writeSock { s with links := s.links ++ [x] } x
      { k with refs := r1 } := ⟨_, rfl⟩
  rw [← hs1] at hcopy
  have hgl : getLink s1 l = x := by
    rw [hs1, hx]
    simp only [getLink, writeSock, List.getD_eq_getElem?_getD]
    rw [List.getElem?_append_left hlt]
  have hk2 : s1.heap x = some { k with refs := r1 } := by
    rw [hs1]
    simp [writeSock]
  have hd := link_dtor_pos (s := s1) (l := l) (by rw [hgl]; exact h0) (by rw [hgl]; exact hk2)
    (by show r1 ≠ 0; omega)
  rw [hgl] at hd
  have hr2 : wdec r1 = k.refs := by rw [hwinc]; exact wdec_succ hroom
  have hd2 : Link.dtor s1 l = .ok (setLink (writeSock s1 x { k with refs := wdec r1 }) l 0) :=
    hd
  rw [hr2] at hd2
  refine ⟨s1, s.links.length, _, hcopy, hd2, ?_, ?_, ?_, ?_⟩
  · funext p
    rw [hs1]
    simp only [setLink, writeSock, Function.update_apply]
    split_ifs with e
    · rw [e, hk]
    · rfl
  · rw [hs1]; rfl
  · rw [hs1, ← hx]
    simp only [getLink, setLink, writeSock, List.getD_eq_getElem?_getD]
    rw [List.getElem?_set_ne (by omega), List.getElem?_append_right (le_refl _)]
    simp
  · exact getLink_setLink_self _ l 0 rfl

/-- Copying a `Link` whose node has a count below `2^32 - 1` and then
discarding the original leaves the handler
registered: the heap is what it was (the node is linked at the same ring
position with the same count), the copy holds the node and the next fire
invokes the same handlers. And `~Link` never changes the `prev` or `next` of
any node, so in a state where the count of the node is right (the ownership
equation) the ring and the handlers a fire invokes stay the same. -/
theorem link_dtor_keeps_ring :
    (∀ (s : State) (l : Nat) (s1 : State), Link.dtor s l = .ok s1 →
      ∀ p, s1.heap p = none ∨
        (prevOf s1.heap p = prevOf s.heap p ∧ nextOf s1.heap p = nextOf s.heap p)) ∧
    (∀ (prog : Nat → List Action) (s : State) (sl l : Nat) (L : List Nat), Ring s sl L →
      getLink s l ∈ L → Owned s (getLink s l) →
      (∀ t ∈ tagsOf s.heap L, prog t = []) →
      ∃ s1, Link.dtor s l = .ok s1 ∧ Ring s1 sl L ∧ s1.heap (getLink s l) ≠ none ∧
        ∀ n, Slot.fire prog (n + L.length + 1) s1 sl =
          .ok { s1 with trace := s1.trace ++ tagsOf s.heap L }) ∧
    (∀ (prog : Nat → List Action) (s : State) (sl l : Nat) (L : List Nat) (k : Socket),
      Ring s sl L → getLink s l ∈ L → s.heap (getLink s l) = some k →
      k.refs + 1 < 4294967296 →
      (∀ t ∈ tagsOf s.heap L, prog t = []) →
      ∃ s1 c s2, Link.copy s l = .ok (s1, c) ∧ Link.dtor s1 l = .ok s2 ∧
        s2.heap = s.heap ∧ Ring s2 sl L ∧ getLink s2 c = getLink s l ∧ getLink s2 l = 0 ∧
        ∀ n, Slot.fire prog (n + L.length + 1) s2 sl =
          .ok { s2 with trace := s2.trace ++ tagsOf s.heap L }) := by
  refine ⟨?_, ?_, ?_⟩
  · intro s l s1 h p
    by_cases h0 : getLink s l = 0
    · rw [link_dtor_empty h0] at h
      cases h
      exact Or.inr ⟨rfl, rfl⟩
    · simp only [Link.dtor, ne_eq, h0, not_false_eq_true, if_true] at h
      cases hk : s.heap (getLink s l) with
      | none =>
        simp only [Socket.decref, readSock_dangling hk, error_bind] at h
        cases h
      | some k =>
        rw [socket_decref_live hk] at h
        simp only [ok_bind, pure_ok] at h
        cases h
        by_cases hz : k.refs = 0
        · by_cases hp : p = getLink s l
          · left
            simp [setLink, hz, hp]
          · right
            simp [setLink, hz, prevOf, nextOf, Function.update_apply, hp]
        · right
          simp only [hz, if_false, setLink]
          rw [prevOf_writeSock, nextOf_writeSock]
          by_cases hp : p = getLink s l
          · rw [if_pos hp, if_pos hp, hp]
            exact ⟨(proj_of_heap hk).1.symm, (proj_of_heap hk).2.1.symm⟩
          · rw [if_neg hp, if_neg hp]
            exact ⟨rfl, rfl⟩
  · intro prog s sl l L hr hl hown hp
    obtain ⟨k, hk⟩ := hr.live (getLink s l) (List.mem_cons_of_mem _ hl)
    have h0 := getLink_mem_ne_zero hr hl
    have hcount : 1 ≤ linkCount s (getLink s l) := by
      have hlt := getLink_lt h0
      have hmem : getLink s l ∈ s.links := by
        simp only [getLink, List.getD_eq_getElem?_getD, List.getElem?_eq_getElem hlt,
          Option.getD_some]
        exact List.getElem_mem hlt
      exact List.count_pos_iff.2 hmem
    have hlinked : k.prev ≠ 0 := by
      obtain ⟨L1, L2, rfl⟩ := List.append_of_mem hl
      have hseg := (seg_append L1 _ L2 sl sl).1 hr.1
      have hPm := seg_last_mem L1 sl _ k.prev hseg.1 (proj_of_heap hk).1
      intro e
      apply hr.2.2.1
      rw [e] at hPm
      simp only [List.mem_cons, List.mem_append] at hPm ⊢
      tauto
    have hrefs : k.refs ≠ 0 := by
      have := hown
      simp only [Owned, hk, hlinked, ne_eq, not_false_eq_true, if_true] at this
      omega
    have hd := socket_decref_pos hk hrefs
    have hr1 : Ring (setLink (writeSock s (getLink s l) { k with refs := wdec k.refs }) l 0)
        sl L := by
      apply ring_congr (s := s) _ _ _ hr
      · intro a
        show nextOf (writeSock s (getLink s l) { k with refs := wdec k.refs }).heap a = _
        rw [nextOf_writeSock]
        split_ifs with e
        · rw [e]; exact (proj_of_heap hk).2.1.symm
        · rfl
      · intro a
        show prevOf (writeSock s (getLink s l) { k with refs := wdec k.refs }).heap a = _
        rw [prevOf_writeSock]
        split_ifs with e
        · rw [e]; exact (proj_of_heap hk).1.symm
        · rfl
      · intro a
        show functorOf (writeSock s (getLink s l) { k with refs := wdec k.refs }).heap a = _
        rw [functorOf_writeSock]
        split_ifs with e
        · rw [e]; exact (proj_of_heap hk).2.2.2.symm
        · rfl
    have htags : tagsOf (setLink (writeSock s (getLink s l) { k with refs := wdec k.refs })
        l 0).heap L = tagsOf s.heap L := by
      apply tagsOf_congr
      intro a _
      show functorOf (writeSock s (getLink s l) { k with refs := wdec k.refs }).heap a = _
      rw [functorOf_writeSock]
      split_ifs with e
      · rw [e]; exact (proj_of_heap hk).2.2.2.symm
      · rfl
    refine ⟨_, ?_, hr1, ?_, ?_⟩
    · simp only [Link.dtor, ne_eq, h0, not_false_eq_true, if_true, hd, ok_bind, pure_ok]
    · simp [setLink, writeSock]
    · intro n
      have := fire_passive prog hr1 (by rw [htags]; exact hp) n
      rw [htags] at this
      exact this
  · intro prog s sl l L k hr hl hk hroom hp
    obtain ⟨s1, c, s2, hcopy, hd, hheap, -, hc, hl0⟩ := copy_then_discard s sl l L k hr hl hk hroom
    have hr2 : Ring s2 sl L := by
      apply ring_congr (s := s) _ _ _ hr
      · intro a; rw [hheap]
      · intro a; rw [hheap]
      · intro a; rw [hheap]
    refine ⟨s1, c, s2, hcopy, hd, hheap, hr2, hc, hl0, ?_⟩
    intro n
    have htags : tagsOf s2.heap L = tagsOf s.heap L := by rw [hheap]
    have := fire_passive prog hr2 (by rw [htags]; exact hp) n
    rw [htags] at this
    exact this

theorem link_dtor_keeps_ring_witness :
    (∃ s1, Link.dtor ringABCcopy 1 = .ok s1 ∧ ∀ p, s1.heap p = none ∨
        (prevOf s1.heap p = prevOf ringABCcopy.heap p ∧
          nextOf s1.heap p = nextOf ringABCcopy.heap p)) ∧
    (Ring ringABCcopy 1 [2, 3, 4] ∧ getLink ringABCcopy 1 ∈ [2, 3, 4] ∧
      Owned ringABCcopy (getLink ringABCcopy 1) ∧
      ∃ s1, Link.dtor ringABCcopy 1 = .ok s1 ∧ Ring s1 1 [2, 3, 4] ∧
        s1.heap (getLink ringABCcopy 1) ≠ none ∧
        ∀ n, Slot.fire (fun _ => []) (n + [2, 3, 4].length + 1) s1 1 =
          .ok { s1 with trace := s1.trace ++ tagsOf ringABCcopy.heap [2, 3, 4] }) ∧
    (Ring ringABC 1 [2, 3, 4] ∧ getLink ringABC 1 ∈ [2, 3, 4] ∧
      ∃ s1 c s2, Link.copy ringABC 1 = .ok (s1, c) ∧ Link.dtor s1 1 = .ok s2 ∧
        s2.heap = ringABC.heap ∧ Ring s2 1 [2, 3, 4] ∧ getLink s2 c = getLink ringABC 1 ∧
        getLink s2 1 = 0 ∧
        ∀ n, Slot.fire (fun _ => []) (n + [2, 3, 4].length + 1) s2 1 =
          .ok { s2 with trace := s2.trace ++ tagsOf ringABC.heap [2, 3, 4] }) :=
  ⟨⟨_, rfl, link_dtor_keeps_ring.1 ringABCcopy 1 _ rfl⟩,
   ⟨by decide, by decide, by decide,
    link_dtor_keeps_ring.2.1 (fun _ => []) ringABCcopy 1 1 [2, 3, 4] (by decide) (by decide)
      (by decide) (fun _ _ => rfl)⟩,
   ⟨by decide, by decide,
    link_dtor_keeps_ring.2.2 (fun _ => []) ringABC 1 1 [2, 3, 4]
      { prev := 2, next := 4, refs := 1, functor := some 8 } (by decide) (by decide) rfl
      (by decide) (fun _ _ => rfl)⟩⟩

/-! ## Teardown -/

theorem seg_fwd {h : Nat → Option Socket} :
    ∀ (L : List Nat) (p q : Nat), Seg h p L q → Fwd h p L q := by
  intro L
  induction L with
  | nil => intro p q hs; exact hs.1
  | cons a L ih => intro p q hs; exact ⟨hs.1.1, ih a q hs.2⟩

theorem fwd_frame {h g : Nat → Option Socket} :
    ∀ (L : List Nat) (p q : Nat), Fwd h p L q →
      (∀ a ∈ p :: L, nextOf g a = nextOf h a) → Fwd g p L q := by
  intro L
  induction L with
  | nil =>
    intro p q hs hn
    show nextOf g p = some q
    rw [hn p (by simp)]; exact hs
  | cons a L ih =>
    intro p q hs hn
    refine ⟨by rw [hn p (by simp)]; exact hs.1, ?_⟩
    exact ih a q hs.2 (fun b hb => hn b (List.mem_cons_of_mem _ hb))

/-- The state after one iteration of the loop of `~Slot` that drops the node
`a` (object `ka`) and makes `nxt` the first node. -/
theorem dtorLoop_step (sl fuel : Nat) {s : State} {a : Nat} {ksl ka : Socket}
    (hsl : s.heap sl = some ksl) (hnext : ksl.next = a) (hne : a ≠ sl)
    (ha : s.heap a = some ka) :
    Slot.dtorLoop sl (fuel + 1) s = Slot.dtorLoop sl fuel
      { s with heap := (Function.update
          (Function.update s.heap a
            (if ka.refs = 0 then none else some { ka with prev := 0, refs := wdec ka.refs }))
          sl (some { ksl with next := ka.next })) } := by
  obtain ⟨sA, hsA⟩ : ∃ sA, sA = writeSock s a { ka with prev := 0 } := ⟨_, rfl⟩
  have e1 : setPrev s a 0 = .ok sA := by
    simp only [hsA, setPrev, readSock_ok ha, ok_bind, pure_ok]
  have hsl1 : sA.heap sl = some ksl := by
    simp [hsA, writeSock, Function.update_apply, hne.symm, hsl]
  have ha1 : sA.heap a = some { ka with prev := 0 } := by
    simp [hsA, writeSock]
  have e2 := socket_decref_live ha1
  by_cases hz : ka.refs = 0
  · have hz1 : ({ ka with prev := 0 } : Socket).refs = 0 := hz
    rw [if_pos hz1] at e2
    obtain ⟨sB, hsB⟩ : ∃ sB, sB = { sA with heap := Function.update sA.heap a none } :=
      ⟨_, rfl⟩
    rw [← hsB] at e2
    have hsl2 : sB.heap sl = some ksl := by
      simp [hsB, hsA, writeSock, Function.update_apply, hne.symm, hsl]
    have e3 : setNext sB sl ka.next = .ok (writeSock sB sl { ksl with next := ka.next }) := by
      simp only [setNext, readSock_ok hsl2, ok_bind, pure_ok]
    rw [Slot.dtorLoop]
    simp only [readSock_ok hsl, ok_bind, hnext, ne_eq, hne, not_false_eq_true, if_true,
      readSock_ok ha, e1, readSock_ok hsl1, e2, e3]
    congr 1
    simp [hsB, hsA, writeSock, hz, Function.update_idem]
  · have hz1 : ¬ ({ ka with prev := 0 } : Socket).refs = 0 := hz
    rw [if_neg hz1] at e2
    obtain ⟨sB, hsB⟩ : ∃ sB, sB = writeSock sA a
        { ({ ka with prev := 0 } : Socket) with refs := wdec ka.refs } := ⟨_, rfl⟩
    have e2b : Socket.decref sA a = .ok sB := by rw [hsB]; exact e2
    have hsl2 : sB.heap sl = some ksl := by
      simp [hsB, hsA, writeSock, Function.update_apply, hne.symm, hsl]
    have e3 : setNext sB sl ka.next = .ok (writeSock sB sl { ksl with next := ka.next }) := by
      simp only [setNext, readSock_ok hsl2, ok_bind, pure_ok]
    rw [Slot.dtorLoop]
    simp only [readSock_ok hsl, ok_bind, hnext, ne_eq, hne, not_false_eq_true, if_true,
      readSock_ok ha, e1, readSock_ok hsl1, e2b, e3]
    congr 1
    simp [hsB, hsA, writeSock, hz, Function.update_idem]


/-- The loop of `~Slot` on a ring whose `next` chain is `sl → L → sl`: it
returns after `|L|` iterations (fuel `|L| + 1` is enough for the final test),
every node of `L` has been detached and had `decref()` called once, and nothing
else changed but `sockets.next`. -/
theorem dtorLoop_spec (sl : Nat) :
    ∀ (L : List Nat) (s : State), Fwd s.heap sl L sl → (sl :: L).Nodup →
      (∀ a ∈ sl :: L, ∃ k, s.heap a = some k) →
      ∃ s1, (∀ n, Slot.dtorLoop sl (n + L.length + 1) s = .ok s1) ∧
        s1.brk = s.brk ∧ s1.links = s.links ∧ s1.trace = s.trace ∧
        nextOf s1.heap sl = some sl ∧
        (∀ a ∈ L, ∀ ka, s.heap a = some ka → s1.heap a =
          if ka.refs = 0 then none else some { ka with prev := 0, refs := wdec ka.refs }) ∧
        (∀ a, a ∉ sl :: L → s1.heap a = s.heap a) := by
  intro L
  induction L with
  | nil =>
    intro s hf _ hlive
    obtain ⟨ksl, hsl⟩ := hlive sl (by simp)
    have hn : nextOf s.heap sl = some sl := hf
    have hks : ksl.next = sl := by
      rw [(proj_of_heap hsl).2.1] at hn
      simpa using hn
    refine ⟨s, ?_, rfl, rfl, rfl, hn, by simp, fun _ _ => rfl⟩
    intro n
    rw [show n + ([] : List Nat).length + 1 = n + 1 from rfl, Slot.dtorLoop]
    simp only [readSock_ok hsl, ok_bind, hks, ne_eq, not_true_eq_false, if_false, pure_ok]
  | cons a L ih =>
    intro s hf hnd hlive
    obtain ⟨ksl, hsl⟩ := hlive sl (by simp)
    obtain ⟨ka, hka⟩ := hlive a (by simp)
    have hn : nextOf s.heap sl = some a := hf.1
    have hks : ksl.next = a := by
      rw [(proj_of_heap hsl).2.1] at hn
      simpa using hn
    have hne : a ≠ sl := by
      intro e
      apply (List.nodup_cons.1 hnd).1
      simp [e]
    have haL : a ∉ L := (List.nodup_cons.1 (List.nodup_cons.1 hnd).2).1
    have hslL : sl ∉ L := fun c => (List.nodup_cons.1 hnd).1 (List.mem_cons_of_mem _ c)
    obtain ⟨sC, hsC⟩ : ∃ sC, sC = ({ s with heap := (Function.update
          (Function.update s.heap a
            (if ka.refs = 0 then none else some { ka with prev := 0, refs := wdec ka.refs }))
          sl (some { ksl with next := ka.next })) } : State) := ⟨_, rfl⟩
    have hstep := fun fuel => dtorLoop_step sl fuel hsl hks hne hka
    simp only [← hsC] at hstep
    have hCsl : sC.heap sl = some { ksl with next := ka.next } := by
      simp [hsC]
    have hCa : sC.heap a =
        if ka.refs = 0 then none else some { ka with prev := 0, refs := wdec ka.refs } := by
      simp [hsC, Function.update_apply, hne]
    have hCo : ∀ p, p ≠ sl → p ≠ a → sC.heap p = s.heap p := by
      intro p h1 h2
      simp [hsC, Function.update_apply, h1, h2]
    have hfa : Fwd s.heap a L sl := hf.2
    have hfC : Fwd sC.heap sl L sl := by
      cases L with
      | nil =>
        have h1 : nextOf s.heap a = some sl := hfa
        have h2 : ka.next = sl := by
          rw [(proj_of_heap hka).2.1] at h1
          simpa using h1
        show nextOf sC.heap sl = some sl
        rw [(proj_of_heap hCsl).2.1, h2]
      | cons b L =>
        have h1 : nextOf s.heap a = some b := hfa.1
        have h2 : ka.next = b := by
          rw [(proj_of_heap hka).2.1] at h1
          simpa using h1
        refine ⟨by rw [(proj_of_heap hCsl).2.1, h2], ?_⟩
        apply fwd_frame L b sl hfa.2
        intro c hc
        have hc1 : c ≠ sl := fun e => hslL (e ▸ hc)
        have hc2 : c ≠ a := fun e => haL (e ▸ hc)
        rw [nextOf, nextOf, hCo c hc1 hc2]
    have hndC : (sl :: L).Nodup := by
      have h1 := (List.nodup_cons.1 hnd).2
      exact List.nodup_cons.2 ⟨hslL, (List.nodup_cons.1 h1).2⟩
    have hliveC : ∀ c ∈ sl :: L, ∃ k, sC.heap c = some k := by
      intro c hc
      rcases List.mem_cons.1 hc with e | hm
      · exact ⟨_, e ▸ hCsl⟩
      · have hc1 : c ≠ sl := fun e => hslL (e ▸ hm)
        have hc2 : c ≠ a := fun e => haL (e ▸ hm)
        rw [hCo c hc1 hc2]
        exact hlive c (by simp [hm])
    obtain ⟨s1, hrun, b1, l1, t1, n1, hL1, ho1⟩ := ih sC hfC hndC hliveC
    refine ⟨s1, ?_, ?_, ?_, ?_, n1, ?_, ?_⟩
    · intro n
      rw [show n + (a :: L).length + 1 = (n + L.length + 1) + 1 from rfl, hstep, hrun]
    · rw [b1, hsC]
    · rw [l1, hsC]
    · rw [t1, hsC]
    · intro c hc kc hkc
      rcases List.mem_cons.1 hc with e | hm
      · subst e
        rw [hka] at hkc
        cases hkc
        rw [ho1 c (by
          intro c2
          rcases List.mem_cons.1 c2 with e | hm
          · exact hne e
          · exact haL hm), hCa]
      · have hc1 : c ≠ sl := fun e => hslL (e ▸ hm)
        have hc2 : c ≠ a := fun e => haL (e ▸ hm)
        exact hL1 c hm kc (by rw [hCo c hc1 hc2]; exact hkc)
    · intro c hc
      have hc1 : c ≠ sl := fun e => hc (by simp [e])
      have hc2 : c ≠ a := fun e => hc (by simp [e])
      rw [ho1 c (fun c2 => hc (by
        rcases List.mem_cons.1 c2 with e | hm
        · simp [e]
        · simp [hm])), hCo c hc1 hc2]

/-- Ending a `Link` that holds a live detached node, by `release()` or by
`~Link`: only the object of that node is read and written. -/
theorem detached_drop (s : State) (l : Nat) (kx : Socket) (rel : Bool)
    (h0 : getLink s l ≠ 0) (hk : s.heap (getLink s l) = some kx) (hp : kx.prev = 0) :
    (if rel then Link.release s l else Link.dtor s l) =
      .ok (setLink { s with heap := (Function.update s.heap (getLink s l)
        (if kx.refs = 0 then none else some { kx with refs := wdec kx.refs })) } l 0) := by
  have hd := socket_decref_live hk
  have hstate : (if kx.refs = 0 then
        ({ s with heap := Function.update s.heap (getLink s l) none } : State)
      else writeSock s (getLink s l) { kx with refs := wdec kx.refs }) =
      { s with heap := (Function.update s.heap (getLink s l)
        (if kx.refs = 0 then none else some { kx with refs := wdec kx.refs })) } := by
    by_cases hz : kx.refs = 0
    · simp only [hz, if_true]
    · simp only [hz, if_false, writeSock]
  rw [hstate] at hd
  cases rel with
  | true =>
    simp only [if_true, Link.release, ne_eq, h0, not_false_eq_true,
      socket_release_detached hk hp, hd, ok_bind, pure_ok]
  | false =>
    simp only [Bool.false_eq_true, if_false, Link.dtor, ne_eq, h0, not_false_eq_true, if_true,
      hd, ok_bind, pure_ok]

theorem getLink_setLink_ne (s : State) {l l2 : Nat} (v : Nat) (h : l2 ≠ l) :
    getLink (setLink s l v) l2 = getLink s l2 := by
  simp only [getLink, setLink, List.getD_eq_getElem?_getD]
  rw [List.getElem?_set_ne (Ne.symm h)]

/-- The surviving `Link` objects of a live detached node are ended one after
the other: every step returns, no other object changes, and the node is
destroyed by the last step and not before. -/
theorem dropLinks_detached (x : Nat) (hx0 : x ≠ 0) (m : Nat) :
    ∀ (ops : List (Bool × Nat)) (s : State), Owned s x → prevOf s.heap x = some 0 →
      (∀ o ∈ ops, getLink s o.2 = x) → (ops.map Prod.snd).Nodup →
      linkCount s x = m + ops.length →
      ∃ s1, dropLinks s ops = .ok s1 ∧ (∀ p, p ≠ x → s1.heap p = s.heap p) ∧
        linkCount s1 x = m ∧ (m = 0 → s1.heap x = none) ∧
        (m ≠ 0 → Owned s1 x ∧ prevOf s1.heap x = some 0 ∧ refsOf s1.heap x = some (m - 1)) := by
  intro ops
  induction ops with
  | nil =>
    intro s hown hprev _ _ hcnt
    have hcnt2 : linkCount s x = m := by simpa using hcnt
    cases hk : s.heap x with
    | none => simp [Owned, hk] at hown
    | some kx =>
      have hp0 : kx.prev = 0 := by
        rw [(proj_of_heap hk).1] at hprev
        simpa using hprev
      have hown2 := hown
      simp only [Owned, hk, hp0, ne_eq, not_true_eq_false, if_false, hcnt2] at hown2
      refine ⟨s, rfl, fun _ _ => rfl, hcnt2, ?_, ?_⟩
      · intro hm; omega
      · intro _
        refine ⟨hown, hprev, ?_⟩
        rw [(proj_of_heap hk).2.2.1]
        congr 1
        omega
  | cons o ops ih =>
    intro s hown hprev hall hnd hcnt
    obtain ⟨rel, l⟩ := o
    have hl : getLink s l = x := hall (rel, l) (by simp)
    cases hk : s.heap x with
    | none => simp [Owned, hk] at hown
    | some kx =>
      have hp0 : kx.prev = 0 := by
        rw [(proj_of_heap hk).1] at hprev
        simpa using hprev
      have hown2 := hown
      simp only [Owned, hk, hp0, ne_eq, not_true_eq_false, if_false] at hown2
      have hlen : linkCount s x = (m + ops.length) + 1 := by
        rw [hcnt]; simp; omega
      have hrefs : kx.refs = m + ops.length := by omega
      have hstep := detached_drop s l kx rel (by rw [hl]; exact hx0) (by rw [hl]; exact hk) hp0
      rw [hl] at hstep
      obtain ⟨s2, hs2⟩ : ∃ s2, s2 = setLink { s with heap := (Function.update s.heap x
          (if kx.refs = 0 then none else some { kx with refs := wdec kx.refs })) } l 0 :=
        ⟨_, rfl⟩
      rw [← hs2] at hstep
      have hcnt2 : linkCount s2 x = m + ops.length := by
        have := count_set_zero hx0 s.links l hl
        have e : linkCount s2 x = (s.links.set l 0).count x := by rw [hs2]; rfl
        rw [e]
        simp only [linkCount] at hlen
        omega
      have hoth : ∀ p, p ≠ x → s2.heap p = s.heap p := by
        intro p hp
        rw [hs2]
        simp [setLink, Function.update_apply, hp]
      have hx2 : s2.heap x =
          if kx.refs = 0 then none else some { kx with refs := wdec kx.refs } := by
        rw [hs2]
        simp [setLink]
      have hrun : dropLinks s ((rel, l) :: ops) = dropLinks s2 ops := by
        cases rel with
        | true =>
          simp only [if_true] at hstep
          simp only [dropLinks, if_true, hstep, ok_bind]
        | false =>
          simp only [Bool.false_eq_true, if_false] at hstep
          simp only [dropLinks, Bool.false_eq_true, if_false, hstep, ok_bind]
      have hnd2 : (ops.map Prod.snd).Nodup := by
        simp only [List.map_cons] at hnd
        exact (List.nodup_cons.1 hnd).2
      have hlnot : ∀ o ∈ ops, o.2 ≠ l := by
        intro o ho e
        simp only [List.map_cons] at hnd
        apply (List.nodup_cons.1 hnd).1
        rw [← e]
        exact List.mem_map_of_mem _ ho
      have hall2 : ∀ o ∈ ops, getLink s2 o.2 = x := by
        intro o ho
        rw [hs2]
        have := getLink_setLink_ne { s with heap := (Function.update s.heap x
          (if kx.refs = 0 then none else some { kx with refs := wdec kx.refs })) } 0
          (hlnot o ho)
        rw [this]
        exact hall o (List.mem_cons_of_mem _ ho)
      by_cases hz : m + ops.length = 0
      · have hm : m = 0 := by omega
        have hops : ops = [] := by
          cases ops with
          | nil => rfl
          | cons _ _ => simp at hz
        subst hops
        have hr0 : kx.refs = 0 := by omega
        rw [if_pos hr0] at hx2
        refine ⟨s2, by rw [hrun]; rfl, hoth, by rw [hcnt2]; simp, fun _ => hx2, ?_⟩
        intro h; exact absurd hm h
      · have hr0 : kx.refs ≠ 0 := by omega
        rw [if_neg hr0, wdec_pos hr0 hown2.2] at hx2
        have hown3 : Owned s2 x := by
          simp only [Owned, hx2, hp0, ne_eq, not_true_eq_false, if_false, hcnt2]
          omega
        have hprev3 : prevOf s2.heap x = some 0 := by
          rw [(proj_of_heap hx2).1]
          exact congrArg some hp0
        obtain ⟨s1, e1, ho1, c1, z1, n1⟩ := ih s2 hown3 hprev3 hall2 hnd2 hcnt2
        exact ⟨s1, by rw [hrun]; exact e1, fun p hp => by rw [ho1 p hp, hoth p hp], c1, z1, n1⟩

/-- Destructor `~Slot` on a well-formed ring: it returns, the sentinel is gone,
every node of the ring has been detached and had `decref()` called once. -/
theorem slot_dtor_spec {s : State} {sl : Nat} {L : List Nat} (hr : Ring s sl L) :
    ∃ s1, (∀ n, Slot.dtor sl (n + L.length + 1) s = .ok s1) ∧
      s1.brk = s.brk ∧ s1.links = s.links ∧ s1.trace = s.trace ∧ s1.heap sl = none ∧
      (∀ a ∈ L, ∀ ka, s.heap a = some ka → s1.heap a =
        if ka.refs = 0 then none else some { ka with prev := 0, refs := wdec ka.refs }) ∧
      (∀ a, a ∉ sl :: L → s1.heap a = s.heap a) := by
  obtain ⟨s1, hrun, b1, l1, t1, n1, hL1, ho1⟩ :=
    dtorLoop_spec sl L s (seg_fwd L sl sl hr.1) hr.2.1 hr.live
  have hslL : sl ∉ L := (List.nodup_cons.1 hr.2.1).1
  refine ⟨{ s1 with heap := Function.update s1.heap sl none }, ?_, b1, l1, t1, by simp, ?_, ?_⟩
  · intro n
    simp only [Slot.dtor, hrun, ok_bind, pure_ok]
  · intro a ha ka hka
    have hne : a ≠ sl := fun e => hslL (e ▸ ha)
    simp only [Function.update_apply, hne, if_false]
    exact hL1 a ha ka hka
  · intro a ha
    have hne : a ≠ sl := fun e => ha (by simp [e])
    simp only [Function.update_apply, hne, if_false]
    exact ho1 a ha

/-- A slot is destroyed while `Link` objects to the handler node `x`, which
satisfies the ownership equation, are still held. The teardown does not destroy `x` but detaches it (`prev = 0`) and
lowers its count by one. Afterwards the surviving `Link` objects are ended in
any order, each by `release()` or by `~Link`: every operation returns although
the sentinel (and possibly former neighbours) no longer exist, no other object
is changed, the count is the number of remaining `Link` objects minus one, and
the node is destroyed exactly by the operation on the last of them. Such an
operation on a detached node depends on, and changes, nothing but the object of
that node. -/
theorem teardown_with_links_held :
    (∀ (s : State) (sl x : Nat) (L : List Nat), Ring s sl L → x ∈ L → Owned s x →
      1 ≤ linkCount s x →
      ∃ s1 kx, (∀ n, Slot.dtor sl (n + L.length + 1) s = .ok s1) ∧
        s.heap x = some kx ∧
        s1.heap x = some { kx with prev := 0, refs := kx.refs - 1 } ∧
        s1.heap sl = none ∧ s1.links = s.links ∧
        ∀ (ops : List (Bool × Nat)), (∀ o ∈ ops, getLink s o.2 = x) →
          (ops.map Prod.snd).Nodup → ops.length ≤ linkCount s x →
          ∃ s2, dropLinks s1 ops = .ok s2 ∧ (∀ p, p ≠ x → s2.heap p = s1.heap p) ∧
            (s2.heap x = none ↔ ops.length = linkCount s x) ∧
            (ops.length < linkCount s x →
              refsOf s2.heap x = some (linkCount s x - ops.length - 1))) ∧
    (∀ (s : State) (l : Nat) (kx : Socket) (rel : Bool), getLink s l ≠ 0 →
      s.heap (getLink s l) = some kx → kx.prev = 0 →
      (if rel then Link.release s l else Link.dtor s l) =
        .ok (setLink { s with heap := (Function.update s.heap (getLink s l)
          (if kx.refs = 0 then none else some { kx with refs := wdec kx.refs })) } l 0)) := by
  refine ⟨?_, detached_drop⟩
  intro s sl x L hr hx hown hcnt
  obtain ⟨kx, hkx⟩ := hr.live x (List.mem_cons_of_mem _ hx)
  have hx0 : x ≠ 0 := by
    intro e
    apply hr.2.2.1
    rw [← e]
    exact List.mem_cons_of_mem _ hx
  have hlinked : kx.prev ≠ 0 := by
    obtain ⟨L1, L2, rfl⟩ := List.append_of_mem hx
    have hseg := (seg_append L1 _ L2 sl sl).1 hr.1
    have hPm := seg_last_mem L1 sl _ kx.prev hseg.1 (proj_of_heap hkx).1
    intro e
    apply hr.2.2.1
    rw [e] at hPm
    simp only [List.mem_cons, List.mem_append] at hPm ⊢
    tauto
  have hown2 := hown
  simp only [Owned, hkx, hlinked, ne_eq, not_false_eq_true, if_true] at hown2
  have hrefs : kx.refs ≠ 0 := by omega
  obtain ⟨s1, hrun, b1, l1, t1, hsl1, hL1, ho1⟩ := slot_dtor_spec hr
  have hx1 : s1.heap x = some { kx with prev := 0, refs := kx.refs - 1 } := by
    rw [hL1 x hx kx hkx, if_neg hrefs, wdec_pos hrefs hown2.2]
  have hcnt1 : linkCount s1 x = linkCount s x := by
    simp only [linkCount, l1]
  have hown1 : Owned s1 x := by
    simp only [Owned, hx1, ne_eq, not_true_eq_false, if_false, hcnt1]
    omega
  have hprev1 : prevOf s1.heap x = some 0 := (proj_of_heap hx1).1
  refine ⟨s1, kx, hrun, hkx, hx1, hsl1, l1, ?_⟩
  intro ops hall hnd hlen
  have hall1 : ∀ o ∈ ops, getLink s1 o.2 = x := by
    intro o ho
    have := hall o ho
    simpa only [getLink, l1] using this
  obtain ⟨s2, e2, ho2, c2, z2, n2⟩ := dropLinks_detached x hx0 (linkCount s x - ops.length) ops
    s1 hown1 hprev1 hall1 hnd (by rw [hcnt1]; omega)
  refine ⟨s2, e2, ho2, ?_, ?_⟩
  · constructor
    · intro hnone
      by_contra hne
      have hm : linkCount s x - ops.length ≠ 0 := by omega
      obtain ⟨hown3, -, -⟩ := n2 hm
      simp [Owned, hnone] at hown3
    · intro heq
      exact z2 (by omega)
  · intro hlt
    exact (n2 (by omega)).2.2

theorem teardown_with_links_held_witness :
    (Ring ringABCcopy 1 [2, 3, 4] ∧ 3 ∈ [2, 3, 4] ∧ Owned ringABCcopy 3 ∧
      1 ≤ linkCount ringABCcopy 3 ∧
      ∃ s1 kx, (∀ n, Slot.dtor 1 (n + [2, 3, 4].length + 1) ringABCcopy = .ok s1) ∧
        ringABCcopy.heap 3 = some kx ∧
        s1.heap 3 = some { kx with prev := 0, refs := kx.refs - 1 } ∧
        s1.heap 1 = none ∧ s1.links = ringABCcopy.links ∧
        ∀ (ops : List (Bool × Nat)), (∀ o ∈ ops, getLink ringABCcopy o.2 = 3) →
          (ops.map Prod.snd).Nodup → ops.length ≤ linkCount ringABCcopy 3 →
          ∃ s2, dropLinks s1 ops = .ok s2 ∧ (∀ p, p ≠ 3 → s2.heap p = s1.heap p) ∧
            (s2.heap 3 = none ↔ ops.length = linkCount ringABCcopy 3) ∧
            (ops.length < linkCount ringABCcopy 3 →
              refsOf s2.heap 3 = some (linkCount ringABCcopy 3 - ops.length - 1))) ∧
    (getLink tornABCcopy 3 ≠ 0 ∧
      tornABCcopy.heap (getLink tornABCcopy 3) =
        some { prev := 0, next := 4, refs := 1, functor := some 8 } ∧
      (if true then Link.release tornABCcopy 3 else Link.dtor tornABCcopy 3) =
        .ok (setLink { tornABCcopy with heap := (Function.update tornABCcopy.heap
          (getLink tornABCcopy 3)
          (if ({ prev := 0, next := 4, refs := 1, functor := some 8 } : Socket).refs = 0 then none
            else some { ({ prev := 0, next := 4, refs := 1, functor := some 8 } : Socket) with
              refs := wdec 1 })) } 3 0)) :=
  ⟨⟨by decide, by decide, by decide, by decide,
    teardown_with_links_held.1 ringABCcopy 1 3 [2, 3, 4] (by decide) (by decide) (by decide)
      (by decide)⟩,
   ⟨by decide, by decide,
    teardown_with_links_held.2 tornABCcopy 3
      { prev := 0, next := 4, refs := 1, functor := some 8 } true (by decide) (by decide) rfl⟩⟩

/-! ## The sample states are what the operations build -/

/-- State `ringABC` is `Slot slot;` followed by three `bind` from `State.init`. -/
theorem ringABC_built :
    ∃ s0 s, Slot.ctor State.init = .ok (s0, 1) ∧ bindAll 1 s0 [7, 8, 9] = .ok s ∧
      s.heap = ringABC.heap ∧ s.brk = ringABC.brk ∧ s.links = ringABC.links ∧
      s.trace = ringABC.trace := by
  refine ⟨_, _, rfl, rfl, ?_, rfl, rfl, rfl⟩
  funext p
  simp only [ringABC, Function.update_apply, writeSock]
  by_cases h1 : p = 1
  · subst h1; rfl
  by_cases h2 : p = 2
  · subst h2; rfl
  by_cases h3 : p = 3
  · subst h3; rfl
  by_cases h4 : p = 4
  · subst h4; rfl
  simp [h1, h2, h3, h4, State.init]

/-- State `ringABCcopy` is `ringABC` after copying `Link` number 1. -/
theorem ringABCcopy_built :
    ∃ s, Link.copy ringABC 1 = .ok (s, 3) ∧
      s.heap = ringABCcopy.heap ∧ s.brk = ringABCcopy.brk ∧ s.links = ringABCcopy.links ∧
      s.trace = ringABCcopy.trace := by
  refine ⟨_, rfl, ?_, rfl, rfl, rfl⟩
  funext p
  by_cases h3 : p = 3
  · subst h3; rfl
  have hg : getLink ringABC 1 = 3 := rfl
  simp only [writeSock, Function.update_apply, hg, h3, if_false]
  simp [ringABC, ringABCcopy, h3]

/-- State `tornABCcopy` is `ringABCcopy` after `~Slot`. -/
theorem tornABCcopy_built :
    ∃ s, Slot.dtor 1 4 ringABCcopy = .ok s ∧
      s.heap = tornABCcopy.heap ∧ s.brk = tornABCcopy.brk ∧ s.links = tornABCcopy.links ∧
      s.trace = tornABCcopy.trace := by
  refine ⟨_, rfl, ?_, rfl, rfl, rfl⟩
  funext p
  simp only [tornABCcopy, ringABCcopy, Function.update_apply, writeSock]
  by_cases h1 : p = 1
  · subst h1; rfl
  by_cases h2 : p = 2
  · subst h2; rfl
  by_cases h3 : p = 3
  · subst h3; rfl
  by_cases h4 : p = 4
  · subst h4; rfl
  simp [h1, h2, h3, h4]

/-- C20: `fire` itself never modifies the signal. On a well-formed ring whose
payloads do not touch the slot or any `Link`, `fire` returns and leaves the
heap (every `prev`/`next`, every count, the set of live nodes), the `Link`
objects and the allocation frontier unchanged, so a second fire returns as well
and appends the same invocation trace. -/
theorem fire_leaves_signal_unchanged (prog : Nat → List Action) (s : State) (sl : Nat)
    (L : List Nat) (hr : Ring s sl L) (hp : ∀ t ∈ tagsOf s.heap L, prog t = []) :
    ∃ s1 s2, (∀ n, Slot.fire prog (n + L.length + 1) s sl = .ok s1) ∧
      s1.heap = s.heap ∧ s1.links = s.links ∧ s1.brk = s.brk ∧
      s1.trace = s.trace ++ tagsOf s.heap L ∧
      (∀ n, Slot.fire prog (n + L.length + 1) s1 sl = .ok s2) ∧
      s2.heap = s.heap ∧ s2.links = s.links ∧ s2.brk = s.brk ∧
      s2.trace = s1.trace ++ tagsOf s.heap L := by
  have hr1 : Ring { s with trace := s.trace ++ tagsOf s.heap L } sl L := hr
  refine ⟨{ s with trace := s.trace ++ tagsOf s.heap L },
    { s with trace := s.trace ++ tagsOf s.heap L ++ tagsOf s.heap L },
    fun n => fire_passive prog hr hp n, rfl, rfl, rfl, rfl, ?_, rfl, rfl, rfl, rfl⟩
  intro n
  exact fire_passive prog hr1 hp n

theorem fire_leaves_signal_unchanged_witness :
    Ring ringABC 1 [2, 3, 4] ∧
    ∃ s1 s2, (∀ n, Slot.fire (fun _ => []) (n + [2, 3, 4].length + 1) ringABC 1 = .ok s1) ∧
      s1.heap = ringABC.heap ∧ s1.links = ringABC.links ∧ s1.brk = ringABC.brk ∧
      s1.trace = ringABC.trace ++ tagsOf ringABC.heap [2, 3, 4] ∧
      (∀ n, Slot.fire (fun _ => []) (n + [2, 3, 4].length + 1) s1 1 = .ok s2) ∧
      s2.heap = ringABC.heap ∧ s2.links = ringABC.links ∧ s2.brk = ringABC.brk ∧
      s2.trace = s1.trace ++ tagsOf ringABC.heap [2, 3, 4] :=
  ⟨by decide, fire_leaves_signal_unchanged (fun _ => []) ringABC 1 [2, 3, 4] (by decide)
    (fun _ _ => rfl)⟩

/-! ## Releasing every handle -/

/-- The `Link` objects `ls` hold, in order, the nodes `L`. -/
theorem holds_range (L : List Nat) :
    ∀ (pre : List Nat), List.Forall₂ (fun l x => (pre ++ L).getD l 0 = x)
      (List.range' pre.length L.length) L := by
  induction L with
  | nil => intro pre; exact List.Forall₂.nil
  | cons a L ih =>
    intro pre
    rw [List.length_cons, List.range'_succ]
    refine List.Forall₂.cons ?_ ?_
    · show (pre ++ a :: L).getD pre.length 0 = a
      rw [List.getD_eq_getElem?_getD, List.getElem?_append_right (le_refl _)]
      simp
    · have h := ih (pre ++ [a])
      simp only [List.length_append, List.length_singleton, List.append_assoc,
        List.singleton_append] at h
      exact h

/-- Emptying one `Link` does not change what the other `Link` objects hold. -/
theorem holds_after_set {s s1 : State} {l0 : Nat} (hlinks : s1.links = s.links.set l0 0) :
    ∀ (ls L : List Nat), List.Forall₂ (fun l x => getLink s l = x) ls L →
      (∀ l ∈ ls, l ≠ l0) → List.Forall₂ (fun l x => getLink s1 l = x) ls L := by
  intro ls
  induction ls with
  | nil => intro L hf _; cases hf; exact List.Forall₂.nil
  | cons l ls ih =>
    intro L hf hne
    cases hf with
    | cons h1 hrest =>
      refine List.Forall₂.cons ?_ (ih _ hrest (fun l2 h2 => hne l2 (List.mem_cons_of_mem _ h2)))
      rw [← h1]
      simp only [getLink, hlinks, List.getD_eq_getElem?_getD]
      rw [List.getElem?_set_ne (Ne.symm (hne l (by simp)))]

/-- Releasing, one after the other, the handles of all the handlers of a
well-formed ring empties the ring. -/
theorem release_all_ring (sl : Nat) :
    ∀ (ls L : List Nat) (s : State), Ring s sl L →
      List.Forall₂ (fun l x => getLink s l = x) ls L → ls.Nodup →
      ∃ s1, dropLinks s (ls.map (fun l => (true, l))) = .ok s1 ∧ Ring s1 sl [] ∧
        s1.trace = s.trace ∧ s1.brk = s.brk := by
  intro ls
  induction ls with
  | nil =>
    intro L s hr hf _
    cases hf
    exact ⟨s, rfl, hr, rfl, rfl⟩
  | cons l ls ih =>
    intro L s hr hf hnd
    cases hf with
    | cons hl hrest =>
      rename_i x L'
      obtain ⟨k, hk⟩ := hr.live x (by simp)
      have hr0 : Ring s sl ([] ++ x :: L') := hr
      obtain ⟨s1, e1, hr1, b1, l1, t1, -⟩ := link_release_ring hr0 hl hk
      have hrest1 : List.Forall₂ (fun l x => getLink s1 l = x) ls L' :=
        holds_after_set l1 ls L' hrest
          (fun l2 h2 e => (List.nodup_cons.1 hnd).1 (e ▸ h2))
      obtain ⟨s2, e2, hr2, t2, b2⟩ := ih L' s1 hr1 hrest1 (List.nodup_cons.1 hnd).2
      refine ⟨s2, ?_, hr2, by rw [t2, t1], by rw [b2, b1]⟩
      simp only [List.map_cons, dropLinks, if_true, e1, ok_bind, e2]

/-- Method `Slot::fire` on an empty ring. -/
theorem fire_empty (prog : Nat → List Action) {s : State} {sl : Nat} (hr : Ring s sl [])
    (n : Nat) : Slot.fire prog (n + 1) s sl = .ok s := by
  have := fire_passive prog hr (by intro t ht; simp [tagsOf] at ht) n
  simpa [tagsOf] using this

/-- C12: on a slot whose ring is empty, `fire` invokes no payload, returns, and
leaves the state as it was, with `sockets.next = sockets.prev = &sockets`. The
ring is empty on a freshly constructed slot, and again after the handle of every
bound handler has been released. -/
theorem fire_on_empty_ring :
    (∀ (prog : Nat → List Action) (s : State) (sl : Nat), Ring s sl [] →
      (∀ n, Slot.fire prog (n + 1) s sl = .ok s) ∧
      nextOf s.heap sl = some sl ∧ prevOf s.heap sl = some sl) ∧
    (∀ (prog : Nat → List Action) (s0 : State), Fresh s0 →
      ∃ s sl, Slot.ctor s0 = .ok (s, sl) ∧ Ring s sl [] ∧
        ∀ n, Slot.fire prog (n + 1) s sl = .ok s) ∧
    (∀ (prog : Nat → List Action) (s0 : State) (ts : List Nat), Fresh s0 →
      ∃ s1 sl s2 s3, Slot.ctor s0 = .ok (s1, sl) ∧ bindAll sl s1 ts = .ok s2 ∧
        dropLinks s2 ((List.range' s1.links.length ts.length).map (fun l => (true, l))) =
          .ok s3 ∧
        Ring s3 sl [] ∧ s3.trace = s2.trace ∧ ∀ n, Slot.fire prog (n + 1) s3 sl = .ok s3) := by
  refine ⟨?_, ?_, ?_⟩
  · intro prog s sl hr
    exact ⟨fun n => fire_empty prog hr n, hr.1.1, hr.1.2⟩
  · intro prog s0 hf
    obtain ⟨s, e, hr, -⟩ := slot_ctor_spec hf
    exact ⟨s, s0.brk, e, hr, fun n => fire_empty prog hr n⟩
  · intro prog s0 ts hf
    obtain ⟨s1, e1, hr1, hf1, -⟩ := slot_ctor_spec hf
    obtain ⟨s2, L2, e2, hr2, hf2, l2, t2, g2⟩ := bindAll_ring s0.brk ts s1 [] hf1 hr1
    simp only [List.nil_append] at hr2 g2
    have hg : tagsOf s2.heap L2 = ts := by simpa [tagsOf] using g2
    have hlen : L2.length = ts.length := by
      rw [← tagsOf_length L2 hr2.tagged, hg]
    have hholds : List.Forall₂ (fun l x => getLink s2 l = x)
        (List.range' s1.links.length ts.length) L2 := by
      have := holds_range L2 s1.links
      rw [hlen] at this
      simpa only [getLink, l2] using this
    obtain ⟨s3, e3, hr3, t3, -⟩ := release_all_ring s0.brk _ L2 s2 hr2 hholds
      (List.nodup_range' _ _)
    exact ⟨s1, s0.brk, s2, s3, e1, e2, e3, hr3, t3, fun n => fire_empty prog hr3 n⟩

theorem fire_on_empty_ring_witness :
    (Ring ringNone 1 [] ∧ (∀ n, Slot.fire (fun _ => []) (n + 1) ringNone 1 = .ok ringNone) ∧
      nextOf ringNone.heap 1 = some 1 ∧ prevOf ringNone.heap 1 = some 1) ∧
    (Fresh State.init ∧
      ∃ s sl, Slot.ctor State.init = .ok (s, sl) ∧ Ring s sl [] ∧
        ∀ n, Slot.fire (fun _ => []) (n + 1) s sl = .ok s) ∧
    (∃ s1 sl s2 s3, Slot.ctor State.init = .ok (s1, sl) ∧ bindAll sl s1 [7, 8, 9] = .ok s2 ∧
        dropLinks s2 ((List.range' s1.links.length [7, 8, 9].length).map
          (fun l => (true, l))) = .ok s3 ∧
        Ring s3 sl [] ∧ s3.trace = s2.trace ∧
        ∀ n, Slot.fire (fun _ => []) (n + 1) s3 sl = .ok s3) :=
  ⟨⟨by decide, fire_on_empty_ring.1 (fun _ => []) ringNone 1 (by decide)⟩,
   ⟨fresh_init, fire_on_empty_ring.2.1 (fun _ => []) State.init fresh_init⟩,
   fire_on_empty_ring.2.2 (fun _ => []) State.init [7, 8, 9] fresh_init⟩

/-- C16, as the code behaves: `Link a` holds the node of handler 7 and `Link b`
the node of handler 8; after `a = std::move(b)` the source `b` is not empty, it
holds the node that `a` held before. -/
theorem move_assign_source_not_empty :
    getLink ringABC 0 = 2 ∧ getLink ringABC 1 = 3 ∧
    getLink (Link.moveAssign ringABC 0 1) 1 = 2 ∧
    getLink (Link.moveAssign ringABC 0 1) 0 = 3 := by
  decide

/-- C16 (amended): every move of a `Link` leaves the heap, hence every count,
unchanged. The move constructor leaves the source empty and the new `Link`
holding what the source held. Move assignment exchanges the two `Link`
objects: the target holds what the source held and the source holds what the
target held before, so the source is empty only if the target was. -/
theorem link_move_keeps_counts :
    (∀ (s : State) (that : Nat),
      (Link.move s that).1.heap = s.heap ∧
      getLink (Link.move s that).1 (Link.move s that).2 = getLink s that ∧
      getLink (Link.move s that).1 that = 0) ∧
    (∀ (s : State) (l that : Nat), l < s.links.length → that < s.links.length →
      (Link.moveAssign s l that).heap = s.heap ∧
      getLink (Link.moveAssign s l that) l = getLink s that ∧
      getLink (Link.moveAssign s l that) that = getLink s l) := by
  constructor
  · intro s that
    refine ⟨rfl, ?_, ?_⟩
    · simp only [Link.move, getLink, setLink, List.getD_eq_getElem?_getD]
      by_cases h : that = s.links.length
      · subst h
        simp
      · rw [List.getElem?_set_ne h, List.getElem?_append_right (le_refl _)]
        simp
    · exact getLink_setLink_self _ that 0 rfl
  · intro s l that hl ht
    refine ⟨rfl, ?_, ?_⟩
    · simp only [Link.moveAssign, getLink, setLink, List.getD_eq_getElem?_getD]
      by_cases h : that = l
      · subst h
        simp [hl]
      · rw [List.getElem?_set_ne h]
        simp [hl]
    · simp only [Link.moveAssign, getLink, setLink, List.getD_eq_getElem?_getD]
      simp [ht]

theorem link_move_keeps_counts_witness :
    0 < ringABC.links.length ∧ 1 < ringABC.links.length ∧
    (Link.moveAssign ringABC 0 1).heap = ringABC.heap ∧
    getLink (Link.moveAssign ringABC 0 1) 0 = getLink ringABC 1 ∧
    getLink (Link.moveAssign ringABC 0 1) 1 = getLink ringABC 0 :=
  ⟨by decide, by decide, link_move_keeps_counts.2 ringABC 0 1 (by decide) (by decide)⟩

/-- C17: on a well-formed state `bind` always returns and splices the new node
`n` immediately before the sentinel: `n->next` is the sentinel, `n->prev` is
the former `sockets.prev`, that former tail's `next` is `n`, `sockets.prev` is
`n`, the count of `n` is 1, no other count changes, the returned `Link` holds
`n`, and the handlers a fire visits are the old ones followed by the new one. -/
theorem bind_splices_before_sentinel (prog : Nat → List Action) (s : State) (sl t : Nat)
    (L : List Nat) (ksl : Socket) (hf : Fresh s) (hr : Ring s sl L)
    (hsl : s.heap sl = some ksl) :
    ∃ s1 l, Slot.bind s sl t = .ok (s1, l) ∧ getLink s1 l = s.brk ∧
      s.heap s.brk = none ∧
      nextOf s1.heap s.brk = some sl ∧ prevOf s1.heap s.brk = some ksl.prev ∧
      nextOf s1.heap ksl.prev = some s.brk ∧ prevOf s1.heap sl = some s.brk ∧
      refsOf s1.heap s.brk = some 1 ∧
      (∀ a, a ≠ s.brk → refsOf s1.heap a = refsOf s.heap a) ∧
      Ring s1 sl (L ++ [s.brk]) ∧ tagsOf s1.heap (L ++ [s.brk]) = tagsOf s.heap L ++ [t] ∧
      ((∀ u ∈ tagsOf s.heap L ++ [t], prog u = []) →
        ∀ n, Slot.fire prog (n + (L ++ [s.brk]).length + 1) s1 sl =
          .ok { s1 with trace := s1.trace ++ (tagsOf s.heap L ++ [t]) }) := by
  have hTp : prevOf s.heap sl = some ksl.prev := (proj_of_heap hsl).1
  have hTm : ksl.prev ∈ sl :: L := seg_last_mem L sl sl ksl.prev hr.1 hTp
  obtain ⟨kT, hT⟩ := hr.live ksl.prev hTm
  obtain ⟨sn, en, bn, ln, tn, n1, p1, f1, r1⟩ := socket_new_spec (t := t) hf hsl hT
  obtain ⟨s1, e1, hr1, hf1, b1, l1, t1, f1b, r1b, g1⟩ := slot_bind_ring t hf hr
  have hbind : Slot.bind s sl t =
      .ok ({ sn with links := sn.links ++ [s.brk] }, s.links.length) := by
    simp only [Slot.bind, readSock_ok hsl, ok_bind, en, pure_ok, Link.mk, ln]
  have hs1 : s1 = { sn with links := sn.links ++ [s.brk] } := by
    rw [e1] at hbind
    injection hbind with h
    exact (Prod.mk.inj h).1
  have hheap : s1.heap = sn.heap := by rw [hs1]
  have hsl_ne : sl ≠ s.brk := by
    intro e
    have := fresh_not_live hf hsl
    omega
  have hT_ne : ksl.prev ≠ s.brk := by
    intro e
    have := fresh_not_live hf hT
    omega
  refine ⟨s1, s.links.length, e1, ?_, hf.2 _ (le_refl _), ?_, ?_, ?_, ?_, ?_, ?_, hr1, g1, ?_⟩
  · simp only [getLink, l1, List.getD_eq_getElem?_getD]
    rw [List.getElem?_append_right (le_refl _)]
    simp
  · rw [hheap, n1, if_pos rfl]
  · rw [hheap, p1, if_pos rfl]
  · rw [hheap, n1, if_neg hT_ne, if_pos rfl]
  · rw [hheap, p1, if_neg hsl_ne, if_pos rfl]
  · rw [r1b, if_pos rfl]
  · intro a ha
    rw [r1b, if_neg ha]
  · intro hp n
    have := fire_passive prog hr1 (by rw [g1]; exact hp) n
    rw [g1] at this
    exact this

theorem bind_splices_before_sentinel_witness :
    Fresh ringABC ∧ Ring ringABC 1 [2, 3, 4] ∧
    ringABC.heap 1 = some { prev := 4, next := 2, refs := 1, functor := none } ∧
    ∃ s1 l, Slot.bind ringABC 1 5 = .ok (s1, l) ∧ getLink s1 l = ringABC.brk ∧
      ringABC.heap ringABC.brk = none ∧
      nextOf s1.heap ringABC.brk = some 1 ∧
      prevOf s1.heap ringABC.brk =
        some ({ prev := 4, next := 2, refs := 1, functor := none } : Socket).prev ∧
      nextOf s1.heap ({ prev := 4, next := 2, refs := 1, functor := none } : Socket).prev =
        some ringABC.brk ∧
      prevOf s1.heap 1 = some ringABC.brk ∧
      refsOf s1.heap ringABC.brk = some 1 ∧
      (∀ a, a ≠ ringABC.brk → refsOf s1.heap a = refsOf ringABC.heap a) ∧
      Ring s1 1 ([2, 3, 4] ++ [ringABC.brk]) ∧
      tagsOf s1.heap ([2, 3, 4] ++ [ringABC.brk]) = tagsOf ringABC.heap [2, 3, 4] ++ [5] ∧
      ((∀ u ∈ tagsOf ringABC.heap [2, 3, 4] ++ [5], (fun _ => ([] : List Action)) u = []) →
        ∀ n, Slot.fire (fun _ => []) (n + ([2, 3, 4] ++ [ringABC.brk]).length + 1) s1 1 =
          .ok { s1 with trace := s1.trace ++ (tagsOf ringABC.heap [2, 3, 4] ++ [5]) }) :=
  ⟨fresh_ringABC, by decide, rfl,
    bind_splices_before_sentinel (fun _ => []) ringABC 1 5 [2, 3, 4] _ fresh_ringABC
      (by decide) rfl⟩

/-- One iteration of the loop of `~Slot` on the `next` chain `sl → a :: L → sl`:
it handles the first node `a` (detach, `decref()`), makes the successor of `a`
the first node, and leaves the chain `sl → L → sl` with every other object
untouched. -/
theorem dtorLoop_first (sl : Nat) {s : State} {a : Nat} {L : List Nat} {ka : Socket}
    (hf : Fwd s.heap sl (a :: L) sl) (hnd : (sl :: a :: L).Nodup)
    (hlive : ∀ c ∈ sl :: a :: L, ∃ k, s.heap c = some k) (hka : s.heap a = some ka) :
    ∃ sC, (∀ fuel, Slot.dtorLoop sl (fuel + 1) s = Slot.dtorLoop sl fuel sC) ∧
      Fwd sC.heap sl L sl ∧ (∀ c ∈ sl :: L, ∃ k, sC.heap c = some k) ∧
      sC.heap a = (if ka.refs = 0 then none
        else some { ka with prev := 0, refs := wdec ka.refs }) ∧
      (∀ p, p ≠ sl → p ≠ a → sC.heap p = s.heap p) ∧
      sC.links = s.links ∧ sC.trace = s.trace ∧ sC.brk = s.brk := by
  obtain ⟨ksl, hsl⟩ := hlive sl (by simp)
  have hn : nextOf s.heap sl = some a := hf.1
  have hks : ksl.next = a := by
    rw [(proj_of_heap hsl).2.1] at hn
    simpa using hn
  have hne : a ≠ sl := by
    intro e
    apply (List.nodup_cons.1 hnd).1
    simp [e]
  have haL : a ∉ L := (List.nodup_cons.1 (List.nodup_cons.1 hnd).2).1
  have hslL : sl ∉ L := fun c => (List.nodup_cons.1 hnd).1 (List.mem_cons_of_mem _ c)
  obtain ⟨sC, hsC⟩ : ∃ sC, sC = ({ s with heap := (Function.update
        (Function.update s.heap a
          (if ka.refs = 0 then none else some { ka with prev := 0, refs := wdec ka.refs }))
        sl (some { ksl with next := ka.next })) } : State) := ⟨_, rfl⟩
  have hstep := fun fuel => dtorLoop_step sl fuel hsl hks hne hka
  simp only [← hsC] at hstep
  have hCsl : sC.heap sl = some { ksl with next := ka.next } := by
    simp [hsC]
  have hCa : sC.heap a =
      if ka.refs = 0 then none else some { ka with prev := 0, refs := wdec ka.refs } := by
    simp [hsC, Function.update_apply, hne]
  have hCo : ∀ p, p ≠ sl → p ≠ a → sC.heap p = s.heap p := by
    intro p h1 h2
    simp [hsC, Function.update_apply, h1, h2]
  have hfa : Fwd s.heap a L sl := hf.2
  have hfC : Fwd sC.heap sl L sl := by
    cases L with
    | nil =>
      have h1 : nextOf s.heap a = some sl := hfa
      have h2 : ka.next = sl := by
        rw [(proj_of_heap hka).2.1] at h1
        simpa using h1
      show nextOf sC.heap sl = some sl
      rw [(proj_of_heap hCsl).2.1, h2]
    | cons b L =>
      have h1 : nextOf s.heap a = some b := hfa.1
      have h2 : ka.next = b := by
        rw [(proj_of_heap hka).2.1] at h1
        simpa using h1
      refine ⟨by rw [(proj_of_heap hCsl).2.1, h2], ?_⟩
      apply fwd_frame L b sl hfa.2
      intro c hc
      have hc1 : c ≠ sl := fun e => hslL (e ▸ hc)
      have hc2 : c ≠ a := fun e => haL (e ▸ hc)
      rw [nextOf, nextOf, hCo c hc1 hc2]
  refine ⟨sC, hstep, hfC, ?_, hCa, hCo, by rw [hsC], by rw [hsC], by rw [hsC]⟩
  intro c hc
  rcases List.mem_cons.1 hc with e | hm
  · exact ⟨_, e ▸ hCsl⟩
  · have hc1 : c ≠ sl := fun e => hslL (e ▸ hm)
    have hc2 : c ≠ a := fun e => haL (e ▸ hm)
    rw [hCo c hc1 hc2]
    exact hlive c (by simp [hm])

/-- With fuel for only `|L|` loop tests the loop of `~Slot` does not finish:
it needs the `|L|` iterations and the final test. -/
theorem dtorLoop_short (sl : Nat) :
    ∀ (L : List Nat) (s : State), Fwd s.heap sl L sl → (sl :: L).Nodup →
      (∀ a ∈ sl :: L, ∃ k, s.heap a = some k) →
      Slot.dtorLoop sl L.length s = .error .fuel := by
  intro L
  induction L with
  | nil => intro s _ _ _; rfl
  | cons a L ih =>
    intro s hf hnd hlive
    obtain ⟨ka, hka⟩ := hlive a (by simp)
    obtain ⟨sC, hstep, hfC, hliveC, -⟩ := dtorLoop_first sl hf hnd hlive hka
    have hndC : (sl :: L).Nodup := by
      have h1 := (List.nodup_cons.1 hnd)
      exact List.nodup_cons.2
        ⟨fun c => h1.1 (List.mem_cons_of_mem _ c), (List.nodup_cons.1 h1.2).2⟩
    rw [show (a :: L).length = L.length + 1 from rfl, hstep]
    exact ih sC hfC hndC hliveC

/-- On a well-formed ring of `n` nodes the loop of `~Slot` finishes after
exactly `n` iterations (fuel for `n` iterations and the final test is enough,
fuel for less is not) and ends with `sockets.next = &sockets`. Each iteration
handles the node that is first in the ring and leaves the rest of the chain,
so the nodes are visited in ring order. Where the ownership equation holds, a
node whose only owner was the ring is destroyed, a node still held by a `Link` stays allocated with `prev = 0` and
its count one lower; afterwards the destructor ends the sentinel. -/
theorem teardown_walks_ring_once :
    (∀ (s : State) (sl : Nat) (L : List Nat), Ring s sl L →
      ∃ s1, (∀ n, Slot.dtorLoop sl (n + L.length + 1) s = .ok s1) ∧
        Slot.dtorLoop sl L.length s = .error .fuel ∧
        nextOf s1.heap sl = some sl ∧
        (∀ n, Slot.dtor sl (n + L.length + 1) s =
          .ok { s1 with heap := Function.update s1.heap sl none }) ∧
        (∀ a ∈ L, Owned s a →
          (linkCount s a = 0 → s1.heap a = none) ∧
          (linkCount s a ≠ 0 → ∃ ka, s.heap a = some ka ∧
            s1.heap a = some { ka with prev := 0, refs := ka.refs - 1 })) ∧
        (∀ a, a ∉ sl :: L → s1.heap a = s.heap a) ∧ s1.links = s.links) ∧
    (∀ (s : State) (sl a : Nat) (L : List Nat) (ka : Socket), Ring s sl (a :: L) →
      s.heap a = some ka →
      ∃ sC, (∀ fuel, Slot.dtorLoop sl (fuel + 1) s = Slot.dtorLoop sl fuel sC) ∧
        Fwd sC.heap sl L sl ∧
        sC.heap a = (if ka.refs = 0 then none
          else some { ka with prev := 0, refs := wdec ka.refs }) ∧
        (∀ p, p ≠ sl → p ≠ a → sC.heap p = s.heap p)) := by
  constructor
  · intro s sl L hr
    have hfwd := seg_fwd L sl sl hr.1
    obtain ⟨s1, hrun, b1, l1, t1, n1, hL1, ho1⟩ := dtorLoop_spec sl L s hfwd hr.2.1 hr.live
    refine ⟨s1, hrun, dtorLoop_short sl L s hfwd hr.2.1 hr.live, n1, ?_, ?_, ho1, l1⟩
    · intro n
      simp only [Slot.dtor, hrun, ok_bind, pure_ok]
    · intro a ha hown
      obtain ⟨ka, hka⟩ := hr.live a (List.mem_cons_of_mem _ ha)
      have hlinked : ka.prev ≠ 0 := by
        obtain ⟨L1, L2, rfl⟩ := List.append_of_mem ha
        have hseg := (seg_append L1 _ L2 sl sl).1 hr.1
        have hPm := seg_last_mem L1 sl _ ka.prev hseg.1 (proj_of_heap hka).1
        intro e
        apply hr.2.2.1
        rw [e] at hPm
        rcases List.mem_cons.1 hPm with c | c
        · rw [c]; exact List.mem_cons_self _ _
        · exact List.mem_cons_of_mem _ (List.mem_append_left _ c)
      have hown2 := hown
      simp only [Owned, hka, hlinked, ne_eq, not_false_eq_true, if_true] at hown2
      constructor
      · intro h0
        rw [hL1 a ha ka hka, if_pos (by omega)]
      · intro h0
        have hrefs : ka.refs ≠ 0 := by omega
        refine ⟨ka, hka, ?_⟩
        rw [hL1 a ha ka hka, if_neg hrefs, wdec_pos hrefs hown2.2]
  · intro s sl a L ka hr hka
    obtain ⟨sC, hstep, hfC, -, hCa, hCo, -⟩ :=
      dtorLoop_first sl (seg_fwd _ sl sl hr.1) hr.2.1 hr.live hka
    exact ⟨sC, hstep, hfC, hCa, hCo⟩

theorem teardown_walks_ring_once_witness :
    (Ring ringABCcopy 1 [2, 3, 4] ∧
      ∃ s1, (∀ n, Slot.dtorLoop 1 (n + [2, 3, 4].length + 1) ringABCcopy = .ok s1) ∧
        Slot.dtorLoop 1 [2, 3, 4].length ringABCcopy = .error .fuel ∧
        nextOf s1.heap 1 = some 1 ∧
        (∀ n, Slot.dtor 1 (n + [2, 3, 4].length + 1) ringABCcopy =
          .ok { s1 with heap := Function.update s1.heap 1 none }) ∧
        (∀ a ∈ [2, 3, 4], Owned ringABCcopy a →
          (linkCount ringABCcopy a = 0 → s1.heap a = none) ∧
          (linkCount ringABCcopy a ≠ 0 → ∃ ka, ringABCcopy.heap a = some ka ∧
            s1.heap a = some { ka with prev := 0, refs := ka.refs - 1 })) ∧
        (∀ a, a ∉ 1 :: [2, 3, 4] → s1.heap a = ringABCcopy.heap a) ∧
        s1.links = ringABCcopy.links) ∧
    (Ring ringABCcopy 1 (2 :: [3, 4]) ∧
      ringABCcopy.heap 2 = some { prev := 1, next := 3, refs := 1, functor := some 7 } ∧
      ∃ sC, (∀ fuel, Slot.dtorLoop 1 (fuel + 1) ringABCcopy = Slot.dtorLoop 1 fuel sC) ∧
        Fwd sC.heap 1 [3, 4] 1 ∧
        sC.heap 2 = (if ({ prev := 1, next := 3, refs := 1, functor := some 7 } : Socket).refs
            = 0 then none
          else some { ({ prev := 1, next := 3, refs := 1, functor := some 7 } : Socket) with
            prev := 0, refs := wdec 1 }) ∧
        (∀ p, p ≠ 1 → p ≠ 2 → sC.heap p = ringABCcopy.heap p)) :=
  ⟨⟨by decide, teardown_walks_ring_once.1 ringABCcopy 1 [2, 3, 4] (by decide)⟩,
   ⟨by decide, rfl,
    teardown_walks_ring_once.2 ringABCcopy 1 2 [3, 4]
      { prev := 1, next := 3, refs := 1, functor := some 7 } (by decide) rfl⟩⟩

/-! ## Re-entrant fire -/

/-- The call `slot.fire()` made from inside a functor is `Slot::fire` on the
state at the time of the call. -/
theorem nested_fire_eq (prog : Nat → List Action) (sl fuel : Nat) (s0 : State) :
    (readSock s0 sl >>= fun k0 => invoke prog sl fuel s0 k0.next) = Slot.fire prog fuel s0 sl :=
  rfl

/-- A fire in which exactly one handler `x` does something to the signal, what
it does being allowed to depend on the nested `fire` available at that point of
the traversal. -/
theorem fire_one_active_at (prog : Nat → List Action) {s sb : State} {sl x tx : Nat}
    {L1 R : List Nat} {ksl k kb : Socket} (n : Nat)
    (hsl : s.heap sl = some ksl) (hseg1 : Seg s.heap sl L1 x)
    (hp1 : ∀ a ∈ L1, ∃ t, functorOf s.heap a = some (some t) ∧ prog t = [])
    (hk : s.heap x = some k) (hkf : k.functor = some tx)
    (hexec : execActions (fun s0 => Slot.fire prog ((n + 1) + R.length) s0 sl) sl
      { s with trace := s.trace ++ tagsOf s.heap L1 ++ [tx] } (prog tx) = .ok sb)
    (hkb : sb.heap x = some kb) (hseg2 : Seg sb.heap x R sl)
    (hp2 : ∀ a ∈ R, ∃ t, functorOf sb.heap a = some (some t) ∧ prog t = [])
    (hnull : functorOf sb.heap sl = some none) :
    Slot.fire prog (n + L1.length + R.length + 2) s sl =
      .ok { sb with trace := sb.trace ++ tagsOf sb.heap R } := by
  have hfuel : n + L1.length + R.length + 2 = (((n + 1) + R.length) + 1) + L1.length := by
    omega
  have h1 := invoke_prefix prog sl hseg1 hsl hp1 (((n + 1) + R.length) + 1)
  have hk2 : ({ s with trace := s.trace ++ tagsOf s.heap L1 } : State).heap x = some k := hk
  have h2 := invoke_step prog sl ((n + 1) + R.length) hk2 hkf
  have h3 := invoke_prefix prog sl hseg2 hkb hp2 (n + 1)
  have h4 := invoke_null prog sl n
    (s := { sb with trace := sb.trace ++ tagsOf sb.heap R }) (p := sl) hnull
  have hexec2 : execActions
      (fun s0 => readSock s0 sl >>= fun k0 => invoke prog sl ((n + 1) + R.length) s0 k0.next) sl
      { s with trace := s.trace ++ tagsOf s.heap L1 ++ [tx] } (prog tx) = .ok sb := hexec
  simp only [Slot.fire, readSock_ok hsl, ok_bind]
  rw [hfuel, h1, h2, hexec2]
  simp only [ok_bind, readSock_ok hkb]
  rw [h3, h4]

/-- The functor that fires once, called when its flag is already set. -/
theorem execActions_fireOnce_set (K : State → Except Err State) (sl : Nat) (s : State)
    (t : Nat) (h : 2 ≤ s.trace.count t) :
    execActions K sl s [Action.fireOnce t] = .ok s := by
  have hn : ¬ s.trace.count t ≤ 1 := by omega
  simp only [execActions, execAction, hn, if_false, pure_ok, ok_bind]

/-- The functor that fires once, called for the first time. -/
theorem execActions_fireOnce_first (K : State → Except Err State) (sl : Nat) (s : State)
    (t : Nat) (h : s.trace.count t ≤ 1) :
    execActions K sl s [Action.fireOnce t] = K s := by
  simp only [execActions, execAction, h, if_true]
  cases K s <;> rfl

/-- One fire over a ring in which the handler `x` fires the slot on its first
invocation only and every other payload leaves the signal alone. -/
theorem fire_with_refire (prog : Nat → List Action) {s : State} {sl x tx : Nat}
    {L1 L2 : List Nat} (hr : Ring s sl (L1 ++ x :: L2))
    (hx : functorOf s.heap x = some (some tx)) (hprog : prog tx = [Action.fireOnce tx])
    (hfirst : tx ∉ s.trace) (hp : ∀ t ∈ tagsOf s.heap (L1 ++ L2), prog t = []) (n : Nat) :
    Slot.fire prog (n + 2 * L1.length + L2.length + 3) s sl =
      .ok { s with trace := s.trace ++ tagsOf s.heap L1 ++ [tx] ++
        (tagsOf s.heap L1 ++ [tx] ++ tagsOf s.heap L2) ++ tagsOf s.heap L2 } := by
  obtain ⟨ksl, hsl⟩ := hr.live sl (by simp)
  obtain ⟨k, hk, hkf⟩ := live_of_functorOf hx
  have hseg := (seg_append L1 x L2 sl sl).1 hr.1
  have htag : ∀ a ∈ L1 ++ L2, ∃ t, functorOf s.heap a = some (some t) := by
    intro a ha
    apply hr.tagged a
    rcases List.mem_append.1 ha with c | c
    · exact List.mem_append_left _ c
    · exact List.mem_append_right _ (List.mem_cons_of_mem _ c)
  have hpn := passive_nodes htag hp
  have hp1 : ∀ a ∈ L1, ∃ t, functorOf s.heap a = some (some t) ∧ prog t = [] :=
    fun a ha => hpn a (List.mem_append_left _ ha)
  have hp2 : ∀ a ∈ L2, ∃ t, functorOf s.heap a = some (some t) ∧ prog t = [] :=
    fun a ha => hpn a (List.mem_append_right _ ha)
  have htx1 : tx ∉ tagsOf s.heap L1 := by
    intro c
    have := hp tx (by rw [tagsOf_append]; exact List.mem_append_left _ c)
    rw [hprog] at this
    cases this
  have hc0 : s.trace.count tx = 0 := List.count_eq_zero_of_not_mem hfirst
  have hc1 : (tagsOf s.heap L1).count tx = 0 := List.count_eq_zero_of_not_mem htx1
  -- the nested fire, from the state in which the functor of `x` runs
  obtain ⟨sA, hsA⟩ : ∃ sA, sA = ({ s with trace := s.trace ++ tagsOf s.heap L1 ++ [tx] } : State) :=
    ⟨_, rfl⟩
  have hAheap : sA.heap = s.heap := by rw [hsA]
  have hAtrace : sA.trace = s.trace ++ tagsOf s.heap L1 ++ [tx] := by rw [hsA]
  have hslA : sA.heap sl = some ksl := by rw [hAheap]; exact hsl
  have hkA : sA.heap x = some k := by rw [hAheap]; exact hk
  have hinner := @fire_one_active prog sA
    { sA with trace := sA.trace ++ tagsOf sA.heap L1 ++ [tx] }
    sl x tx L1 L2 _ _ _ hslA
    (by rw [hAheap]; exact hseg.1) (by rw [hAheap]; exact hp1) hkA hkf
    (fun K => by
      rw [hprog]
      apply execActions_fireOnce_set
      show 2 ≤ (sA.trace ++ tagsOf sA.heap L1 ++ [tx]).count tx
      rw [hAtrace]
      simp only [List.count_append, List.count_singleton_self]
      omega)
    hkA (by rw [hAheap]; exact hseg.2) (by rw [hAheap]; exact hp2)
    (by rw [hAheap]; exact hr.2.2.2.1) n
  -- the outer fire
  have hcount : sA.trace.count tx ≤ 1 := by
    rw [hAtrace]
    simp only [List.count_append, List.count_singleton_self, hc0, hc1]
    omega
  obtain ⟨sI, hsI⟩ : ∃ sI, sI = ({ sA with
      trace := (sA.trace ++ tagsOf sA.heap L1 ++ [tx] ++ tagsOf sA.heap L2) } : State) :=
    ⟨_, rfl⟩
  have hinner2 : Slot.fire prog (n + L1.length + L2.length + 2) sA sl = .ok sI := by
    rw [hinner, hsI]
  have hIheap : sI.heap = s.heap := by rw [hsI, ← hAheap]
  have hexec : execActions
      (fun s0 => Slot.fire prog (((n + L1.length + 1) + 1) + L2.length) s0 sl) sl
      { s with trace := s.trace ++ tagsOf s.heap L1 ++ [tx] } (prog tx) = .ok sI := by
    rw [hprog, ← hsA, execActions_fireOnce_first _ _ _ _ hcount]
    show Slot.fire prog (((n + L1.length + 1) + 1) + L2.length) sA sl = .ok sI
    rw [← hinner2]
    congr 1
    omega
  have houter := @fire_one_active_at prog s sI sl x tx L1 L2 _ _ _
    (n + L1.length + 1) hsl hseg.1 hp1 hk hkf hexec
    (by rw [hIheap]; exact hk) (by rw [hIheap]; exact hseg.2) (by rw [hIheap]; exact hp2)
    (by rw [hIheap]; exact hr.2.2.2.1)
  have hfuel : n + 2 * L1.length + L2.length + 3 =
      (n + L1.length + 1) + L1.length + L2.length + 2 := by omega
  rw [hfuel, houter, hsI, hsA]
  simp only [List.append_assoc]

/-- C11: a fire issued from inside a handler's payload is an independent
traversal. The call of a handler whose payload is `slot.fire()` is: record the
call, run `Slot::fire` on the state as it is then (from `sockets.next`, in ring
order), and after it returns read `next` of the firing handler and go on there.
On a ring `L1, x, L2` where `x` fires the slot on its first invocation only and
the other payloads leave the signal alone, one outer fire invokes
`L1, x, L1, x, L2, L2`; for the ring `A, H, B` that is `A, H, A, H, B, B`. -/
theorem nested_fire_independent :
    (∀ (prog : Nat → List Action) (sl fuel : Nat) (s : State) (x tx : Nat) (k : Socket),
      s.heap x = some k → k.functor = some tx → prog tx = [Action.fire] →
      invoke prog sl (fuel + 1) s x =
        (Slot.fire prog fuel { s with trace := s.trace ++ [tx] } sl >>= fun s1 =>
          readSock s1 x >>= fun k1 => invoke prog sl fuel s1 k1.next)) ∧
    (∀ (prog : Nat → List Action) (s : State) (sl x tx : Nat) (L1 L2 : List Nat),
      Ring s sl (L1 ++ x :: L2) → functorOf s.heap x = some (some tx) →
      prog tx = [Action.fireOnce tx] → tx ∉ s.trace →
      (∀ t ∈ tagsOf s.heap (L1 ++ L2), prog t = []) →
      ∀ n, Slot.fire prog (n + 2 * L1.length + L2.length + 3) s sl =
        .ok { s with trace := s.trace ++ tagsOf s.heap L1 ++ [tx] ++
          (tagsOf s.heap L1 ++ [tx] ++ tagsOf s.heap L2) ++ tagsOf s.heap L2 }) := by
  constructor
  · intro prog sl fuel s x tx k hk hkf hprog
    rw [invoke_step prog sl fuel hk hkf, hprog]
    have : execActions (fun s0 => readSock s0 sl >>= fun k0 => invoke prog sl fuel s0 k0.next)
        sl { s with trace := s.trace ++ [tx] } [Action.fire] =
        Slot.fire prog fuel { s with trace := s.trace ++ [tx] } sl := by
      simp only [execActions, execAction]
      rw [nested_fire_eq]
      cases Slot.fire prog fuel { s with trace := s.trace ++ [tx] } sl <;> rfl
    rw [this]
  · intro prog s sl x tx L1 L2 hr hx hprog hfirst hp n
    exact fire_with_refire prog hr hx hprog hfirst hp n

theorem nested_fire_independent_witness :
    (Ring ringABC 1 ([2] ++ 3 :: [4]) ∧ 8 ∉ ringABC.trace ∧
      ∀ n, traceOf (Slot.fire (progFireOnce 8) (n + 2 * [2].length + [4].length + 3)
        ringABC 1) = some [7, 8, 7, 8, 9, 9]) ∧
    (ringABC.heap 3 = some { prev := 2, next := 4, refs := 1, functor := some 8 } ∧
      invoke (fun _ => [Action.fire]) 1 (0 + 1) ringABC 3 =
        (Slot.fire (fun _ => [Action.fire]) 0 { ringABC with trace := ringABC.trace ++ [8] } 1
          >>= fun s1 => readSock s1 3 >>= fun k1 =>
            invoke (fun _ => [Action.fire]) 1 0 s1 k1.next)) :=
  ⟨⟨by decide, by decide, fun n => by
      rw [nested_fire_independent.2 (progFireOnce 8) ringABC 1 3 8 [2] [4] (by decide)
        (by decide) (by decide) (by decide) (by decide) n]
      decide⟩,
   ⟨rfl, nested_fire_independent.1 (fun _ => [Action.fire]) 1 0 ringABC 3 8 _ rfl rfl rfl⟩⟩

/-! ## The invariant of reachable states -/

theorem count_set (x v : Nat) : ∀ (ls : List Nat) (l : Nat), l < ls.length →
    (ls.set l v).count x + (if ls.getD l 0 = x then 1 else 0) =
      ls.count x + (if v = x then 1 else 0) := by
  intro ls
  induction ls with
  | nil => intro l hl; simp at hl
  | cons a ls ih =>
    intro l hl
    cases l with
    | zero =>
      simp only [List.set_cons_zero, List.count_cons, List.getD_cons_zero, beq_iff_eq]
      omega
    | succ l =>
      have h := ih l (by simpa using hl)
      simp only [List.set_cons_succ, List.count_cons, List.getD_cons_succ, beq_iff_eq]
      omega

theorem count_snoc (x v : Nat) (ls : List Nat) :
    (ls ++ [v]).count x = ls.count x + (if v = x then 1 else 0) := by
  simp [List.count_append, List.count_cons]

theorem seg_first_adj {h : Nat → Option Socket} :
    ∀ (L : List Nat) (p q : Nat), Seg h p L q →
      ∃ N, N ∈ L ++ [q] ∧ nextOf h p = some N ∧ prevOf h N = some p := by
  intro L p q hs
  cases L with
  | nil => exact ⟨q, by simp, hs.1, hs.2⟩
  | cons a L => exact ⟨a, by simp, hs.1.1, hs.1.2⟩

theorem seg_last_adj {h : Nat → Option Socket} :
    ∀ (L : List Nat) (p q : Nat), Seg h p L q →
      ∃ P, P ∈ p :: L ∧ nextOf h P = some q ∧ prevOf h q = some P := by
  intro L
  induction L with
  | nil => intro p q hs; exact ⟨p, by simp, hs.1, hs.2⟩
  | cons a L ih =>
    intro p q hs
    obtain ⟨P, hP, h1, h2⟩ := ih a q hs.2
    exact ⟨P, List.mem_cons_of_mem _ hP, h1, h2⟩

theorem seg_split {h : Nat → Option Socket} :
    ∀ (L1 : List Nat) (p x q : Nat) (L2 : List Nat), Seg h p (L1 ++ x :: L2) q →
      Seg h p L1 x ∧ Seg h x L2 q := by
  intro L1
  induction L1 with
  | nil => intro p x q L2 hs; exact ⟨hs.1, hs.2⟩
  | cons a L1 ih =>
    intro p x q L2 hs
    obtain ⟨h1, h2⟩ := ih a x q L2 hs.2
    exact ⟨⟨hs.1, h1⟩, h2⟩

/-- In a well-formed ring every node of the cycle is live, its successor and
its predecessor are nodes of the cycle, and they point back to it. -/
theorem ring_neighbours {s : State} {sl : Nat} {L : List Nat} (hr : Ring s sl L) :
    ∀ n ∈ sl :: L, ∃ k, s.heap n = some k ∧ k.next ∈ sl :: L ∧ k.prev ∈ sl :: L ∧
      prevOf s.heap k.next = some n ∧ nextOf s.heap k.prev = some n := by
  intro n hn
  obtain ⟨k, hk⟩ := hr.live n hn
  have key : ∃ N P, N ∈ sl :: L ∧ P ∈ sl :: L ∧ nextOf s.heap n = some N ∧
      prevOf s.heap N = some n ∧ nextOf s.heap P = some n ∧ prevOf s.heap n = some P := by
    rcases List.mem_cons.1 hn with rfl | hL
    · obtain ⟨N, hN, h1, h2⟩ := seg_first_adj L n n hr.1
      obtain ⟨P, hP, h3, h4⟩ := seg_last_adj L n n hr.1
      refine ⟨N, P, ?_, hP, h1, h2, h3, h4⟩
      rcases List.mem_append.1 hN with h | h
      · exact List.mem_cons_of_mem _ h
      · simp at h; simp [h]
    · obtain ⟨L1, L2, rfl⟩ := List.append_of_mem hL
      obtain ⟨ha, hb⟩ := seg_split L1 sl n sl L2 hr.1
      obtain ⟨N, hN, h1, h2⟩ := seg_first_adj L2 n sl hb
      obtain ⟨P, hP, h3, h4⟩ := seg_last_adj L1 sl n ha
      refine ⟨N, P, ?_, ?_, h1, h2, h3, h4⟩
      · rcases List.mem_append.1 hN with h | h
        · simp [h]
        · simp at h; simp [h]
      · rcases List.mem_cons.1 hP with h | h
        · simp [h]
        · simp [h]
  obtain ⟨N, P, hN, hP, h1, h2, h3, h4⟩ := key
  have e := proj_of_heap hk
  have eN : k.next = N := by
    have := e.2.1; rw [h1] at this; exact (Option.some.inj this).symm
  have eP : k.prev = P := by
    have := e.1; rw [h4] at this; exact (Option.some.inj this).symm
  exact ⟨k, hk, eN ▸ hN, eP ▸ hP, eN ▸ h2, eP ▸ h3⟩

theorem ring_prev_ne_zero {s : State} {sl : Nat} {L : List Nat} (hr : Ring s sl L)
    {n : Nat} {k : Socket} (hn : n ∈ sl :: L) (hk : s.heap n = some k) : k.prev ≠ 0 := by
  obtain ⟨k2, hk2, _, hp, _, _⟩ := ring_neighbours hr n hn
  rw [hk] at hk2
  cases hk2
  intro h0
  exact hr.2.2.1 (h0 ▸ hp)

theorem ring_frame {s s1 : State} {sl : Nat} {L : List Nat} (hr : Ring s sl L)
    (hn : ∀ a ∈ sl :: L, nextOf s1.heap a = nextOf s.heap a)
    (hp : ∀ a ∈ sl :: L, prevOf s1.heap a = prevOf s.heap a)
    (hf : ∀ a ∈ sl :: L, functorOf s1.heap a = functorOf s.heap a) : Ring s1 sl L := by
  obtain ⟨h1, h2, h3, h4, h5⟩ := hr
  refine ⟨seg_frame L sl sl h1 hn ?_, h2, h3, ?_, ?_⟩
  · intro b hb
    apply hp
    rcases List.mem_append.1 hb with h | h
    · exact List.mem_cons_of_mem _ h
    · simp at h; simp [h]
  · rw [hf sl (by simp)]; exact h4
  · intro a ha
    rw [hf a (List.mem_cons_of_mem _ ha)]
    exact h5 a ha

theorem inv_update {sl : Nat} {alive : Bool} {s s1 : State} {L : List Nat}
    (hi : InvL sl alive s L) (hb : s1.brk = s.brk) (h0 : s1.heap 0 = none)
    (hsl : s1.heap sl = s.heap sl) (hnsl : linkCount s1 sl = 0)
    (hd : ∀ p, p ≠ sl → p ≠ 0 → s1.heap p = none → linkCount s1 p = 0 ∧ p ∉ L)
    (hl : ∀ p k1, p ≠ sl → p ≠ 0 → s1.heap p = some k1 →
      ∃ k, s.heap p = some k ∧ k1.prev = k.prev ∧ k1.next = k.next ∧
        k1.functor = k.functor ∧ k1.refs + 1 = owners s1 L p ∧ k1.refs < 4294967296) :
    InvL sl alive s1 L := by
  have hproj : alive = true → ∀ a ∈ sl :: L, nextOf s1.heap a = nextOf s.heap a ∧
      prevOf s1.heap a = prevOf s.heap a ∧ functorOf s1.heap a = functorOf s.heap a := by
    intro ha a hm
    have hr := hi.ring ha
    rcases List.mem_cons.1 hm with rfl | hL
    · simp only [nextOf, prevOf, functorOf, hsl, and_self]
    · have hne : a ≠ sl := by
        intro e; subst e; exact (List.nodup_cons.1 hr.2.1).1 hL
      have hz : a ≠ 0 := by
        intro e; subst e; exact hr.2.2.1 hm
      cases h1 : s1.heap a with
      | none => exact absurd hL (hd a hne hz h1).2
      | some k1 =>
        obtain ⟨k, hk, e1, e2, e3, _, _⟩ := hl a k1 hne hz h1
        simp only [nextOf, prevOf, functorOf, h1, hk, Option.map_some', e1, e2, e3, and_self]
  refine ⟨⟨hb ▸ hi.fresh.1, ?_⟩, h0, hi.slnz, ?_, ?_, ?_, ?_, ?_, hnsl⟩
  · intro p hp
    rw [hb] at hp
    have hpn := hi.fresh.2 p hp
    by_cases e : p = sl
    · rw [e, hsl, ← e]; exact hpn
    · by_cases z : p = 0
      · rw [z]; exact h0
      · cases h1 : s1.heap p with
        | none => rfl
        | some k1 =>
          obtain ⟨k, hk, _⟩ := hl p k1 e z h1
          rw [hpn] at hk; cases hk
  · intro ha
    have hr := hi.ring ha
    exact ring_frame hr (fun a hm => (hproj ha a hm).1) (fun a hm => (hproj ha a hm).2.1)
      (fun a hm => (hproj ha a hm).2.2)
  · intro ha
    obtain ⟨e1, e2⟩ := hi.gone ha
    exact ⟨e1, hsl ▸ e2⟩
  · intro p r hp hr
    have hz : p ≠ 0 := by
      intro e; subst e; simp [refsOf, h0] at hr
    cases h1 : s1.heap p with
    | none => simp [refsOf, h1] at hr
    | some k1 =>
      obtain ⟨k, hk, _, _, _, e4, e5⟩ := hl p k1 hp hz h1
      simp only [refsOf, h1, Option.map_some', Option.some.injEq] at hr
      subst hr
      exact ⟨e4, e5⟩
  · intro p q hp hL hq
    have hz : p ≠ 0 := by
      intro e; subst e; simp [prevOf, h0] at hq
    cases h1 : s1.heap p with
    | none => simp [prevOf, h1] at hq
    | some k1 =>
      obtain ⟨k, hk, e1, _⟩ := hl p k1 hp hz h1
      simp only [prevOf, h1, Option.map_some', Option.some.injEq] at hq
      apply hi.det p q hp hL
      simp only [prevOf, hk, Option.map_some', Option.some.injEq]
      rw [← e1, hq]
  · intro p hz hn
    by_cases e : p = sl
    · rw [e]; exact hnsl
    · exact (hd p e hz hn).1

theorem inv_mem_live {sl : Nat} {alive : Bool} {s : State} {L : List Nat}
    (hi : InvL sl alive s L) {p : Nat} (hp : p ∈ L) :
    p ≠ sl ∧ p ≠ 0 ∧ ∃ k, s.heap p = some k := by
  cases alive with
  | false =>
    have h := (hi.gone rfl).1
    subst h
    simp at hp
  | true =>
    have hr := hi.ring rfl
    refine ⟨?_, ?_, hr.live p (List.mem_cons_of_mem _ hp)⟩
    · intro e; subst e; exact (List.nodup_cons.1 hr.2.1).1 hp
    · intro e; subst e; exact hr.2.2.1 (List.mem_cons_of_mem _ hp)

theorem getLink_count {s : State} {l x : Nat} (h : getLink s l = x) (hx : x ≠ 0) :
    1 ≤ linkCount s x := by
  have hl : l < s.links.length := getLink_lt (h ▸ hx)
  have hm : x ∈ s.links := by
    unfold getLink at h
    rw [List.getD_eq_getElem?_getD, List.getElem?_eq_getElem hl] at h
    simp only [Option.getD_some] at h
    rw [← h]
    exact List.getElem_mem hl
  exact List.count_pos_iff.2 hm

/-- A non-empty `Link` of a reachable state holds a live node that is not the
sentinel. -/
theorem inv_link_live {sl : Nat} {alive : Bool} {s : State} {L : List Nat}
    (hi : InvL sl alive s L) {l x : Nat} (h : getLink s l = x) (hx : x ≠ 0) :
    x ≠ sl ∧ ∃ k, s.heap x = some k := by
  have hc := getLink_count h hx
  constructor
  · intro e
    rw [e, hi.nosl] at hc
    omega
  · cases hk : s.heap x with
    | some k => exact ⟨k, rfl⟩
    | none =>
      rw [hi.dead x hx hk] at hc
      omega

/-- The invariant survives a change of the `Link` objects that keeps every
count. -/
theorem inv_links {sl : Nat} {alive : Bool} {s s1 : State} {L : List Nat}
    (hi : InvL sl alive s L) (hb : s1.brk = s.brk) (hh : s1.heap = s.heap)
    (hc : ∀ p, p ≠ 0 → linkCount s1 p = linkCount s p) : InvL sl alive s1 L := by
  refine inv_update hi hb (hh ▸ hi.null) (by rw [hh]) (by rw [hc sl hi.slnz]; exact hi.nosl) ?_ ?_
  · intro p hp hz hn
    rw [hh] at hn
    refine ⟨by rw [hc p hz]; exact hi.dead p hz hn, ?_⟩
    intro hL
    obtain ⟨_, _, k, hk⟩ := inv_mem_live hi hL
    rw [hn] at hk; cases hk
  · intro p k1 hp hz hk
    rw [hh] at hk
    have hb := hi.bal p k1.refs hp (by simp [refsOf, hk])
    refine ⟨k1, hk, rfl, rfl, rfl, ?_, hb.2⟩
    unfold owners at hb ⊢
    rw [hc p hz]
    exact hb.1

/-- The invariant survives a change of the stored count of one node that
matches the change of the number of `Link` objects holding it. -/
theorem inv_node {sl : Nat} {alive : Bool} {s s1 : State} {L : List Nat} {x r : Nat}
    {k : Socket} (hi : InvL sl alive s L) (hxs : x ≠ sl) (hx0 : x ≠ 0)
    (hk : s.heap x = some k) (hb : s1.brk = s.brk)
    (hh : s1.heap = Function.update s.heap x (some { k with refs := r }))
    (hc : ∀ p, p ≠ 0 → p ≠ x → linkCount s1 p = linkCount s p)
    (hr : r + 1 = owners s1 L x) (hr2 : r < 4294967296) : InvL sl alive s1 L := by
  have hne : ∀ p, p ≠ x → s1.heap p = s.heap p := by
    intro p hp; rw [hh, Function.update_noteq hp]
  have hxx : s1.heap x = some { k with refs := r } := by rw [hh, Function.update_same]
  refine inv_update hi hb ?_ ?_ ?_ ?_ ?_
  · rw [hne 0 (Ne.symm hx0)]; exact hi.null
  · exact hne sl (Ne.symm hxs)
  · rw [hc sl hi.slnz (Ne.symm hxs)]; exact hi.nosl
  · intro p hp hz hn
    by_cases e : p = x
    · subst e; rw [hxx] at hn; cases hn
    · rw [hne p e] at hn
      refine ⟨by rw [hc p hz e]; exact hi.dead p hz hn, ?_⟩
      intro hL
      obtain ⟨_, _, k2, hk2⟩ := inv_mem_live hi hL
      rw [hn] at hk2; cases hk2
  · intro p k1 hp hz hk1
    by_cases e : p = x
    · subst e
      rw [hxx] at hk1
      cases hk1
      exact ⟨k, hk, rfl, rfl, rfl, hr, hr2⟩
    · rw [hne p e] at hk1
      have hb := hi.bal p k1.refs hp (by simp [refsOf, hk1])
      refine ⟨k1, hk1, rfl, rfl, rfl, ?_, hb.2⟩
      unfold owners at hb ⊢
      rw [hc p hz e]
      exact hb.1

/-- The invariant survives the destruction of a node that is detached and that
no `Link` holds afterwards. -/
theorem inv_kill {sl : Nat} {alive : Bool} {s s1 : State} {L : List Nat} {x : Nat}
    (hi : InvL sl alive s L) (hxs : x ≠ sl) (hx0 : x ≠ 0) (hxL : x ∉ L)
    (hb : s1.brk = s.brk) (hh : s1.heap = Function.update s.heap x none)
    (hc : ∀ p, p ≠ 0 → p ≠ x → linkCount s1 p = linkCount s p)
    (hr : linkCount s1 x = 0) : InvL sl alive s1 L := by
  have hne : ∀ p, p ≠ x → s1.heap p = s.heap p := by
    intro p hp; rw [hh, Function.update_noteq hp]
  have hxx : s1.heap x = none := by rw [hh, Function.update_same]
  refine inv_update hi hb ?_ ?_ ?_ ?_ ?_
  · rw [hne 0 (Ne.symm hx0)]; exact hi.null
  · exact hne sl (Ne.symm hxs)
  · rw [hc sl hi.slnz (Ne.symm hxs)]; exact hi.nosl
  · intro p hp hz hn
    by_cases e : p = x
    · subst e; exact ⟨hr, hxL⟩
    · rw [hne p e] at hn
      refine ⟨by rw [hc p hz e]; exact hi.dead p hz hn, ?_⟩
      intro hL
      obtain ⟨_, _, k2, hk2⟩ := inv_mem_live hi hL
      rw [hn] at hk2; cases hk2
  · intro p k1 hp hz hk1
    by_cases e : p = x
    · subst e; rw [hxx] at hk1; cases hk1
    · rw [hne p e] at hk1
      have hb := hi.bal p k1.refs hp (by simp [refsOf, hk1])
      refine ⟨k1, hk1, rfl, rfl, rfl, ?_, hb.2⟩
      unfold owners at hb ⊢
      rw [hc p hz e]
      exact hb.1

/-! ### Each client operation keeps the invariant -/

theorem step_linkDefault {sl : Nat} {alive : Bool} {s : State} {L : List Nat}
    (hi : InvL sl alive s L) : InvL sl alive (Link.default s).1 L := by
  refine inv_links hi ?_ ?_ ?_
  · rfl
  · rfl
  intro p hz
  show (s.links ++ [0]).count p = s.links.count p
  rw [count_snoc, if_neg (Ne.symm hz), Nat.add_zero]

theorem step_copy {sl : Nat} {alive : Bool} {s : State} {L : List Nat}
    (hi : InvL sl alive s L) (that : Nat)
    (hg : getLink s that ≠ 0 → linkCount s (getLink s that) + 1 < 4294967296) :
    ∃ s1, Link.copy s that = .ok (s1, s.links.length) ∧ InvL sl alive s1 L ∧
      ∀ p, s.heap p = none → s1.heap p = none := by
  by_cases h0 : getLink s that = 0
  · refine ⟨{ s with links := s.links ++ [0] }, ?_, step_linkDefault hi, fun p h => h⟩
    simp only [Link.copy, h0, ne_eq, not_true_eq_false, if_false, pure_ok]
  · obtain ⟨hxs, k, hk⟩ := inv_link_live hi rfl h0
    have hbal := hi.bal _ k.refs hxs (by simp [refsOf, hk])
    have hg1 := hg h0
    have hlt : k.refs + 1 < 4294967296 := by
      have h1 := hbal.1
      unfold owners at h1
      split_ifs at h1 <;> omega
    refine ⟨_, link_copy_live h0 hk, ?_, ?_⟩
    · refine inv_node hi hxs h0 hk rfl rfl ?_ ?_ ?_
      · intro p hz hp
        show (s.links ++ [getLink s that]).count p = s.links.count p
        rw [count_snoc, if_neg (Ne.symm hp), Nat.add_zero]
      · rw [winc_lt hlt]
        have h1 := hbal.1
        unfold owners at h1 ⊢
        show k.refs + 1 + 1 = (s.links ++ [getLink s that]).count (getLink s that) + _
        rw [count_snoc, if_pos rfl]
        unfold linkCount at h1
        omega
      · rw [winc_lt hlt]; exact hlt
    · intro p hp
      show Function.update s.heap (getLink s that) _ p = none
      rw [Function.update_noteq]
      · exact hp
      · intro e; subst e; rw [hk] at hp; cases hp

theorem step_move {sl : Nat} {alive : Bool} {s : State} {L : List Nat}
    (hi : InvL sl alive s L) (that : Nat) : InvL sl alive (Link.move s that).1 L := by
  refine inv_links hi ?_ ?_ ?_
  · rfl
  · rfl
  intro p hz
  show ((s.links ++ [getLink s that]).set that 0).count p = s.links.count p
  by_cases hl : that < s.links.length
  · have hget : (s.links ++ [getLink s that]).getD that 0 = getLink s that := by
      unfold getLink
      rw [List.getD_eq_getElem?_getD, List.getD_eq_getElem?_getD,
        List.getElem?_append_left hl]
    by_cases e : p = getLink s that
    · have h1 := count_set_zero (e ▸ hz) _ that hget
      rw [count_snoc, if_pos rfl] at h1
      rw [e]
      omega
    · rw [count_set_zero_ne hz _ that hget e, count_snoc, if_neg (Ne.symm e), Nat.add_zero]
  · have hx : getLink s that = 0 := by
      unfold getLink
      rw [List.getD_eq_getElem?_getD, List.getElem?_eq_none (not_lt.1 hl)]
      rfl
    rw [hx]
    have hget : ∃ y, (s.links ++ [0]).getD that 0 = y ∧ y = 0 := by
      refine ⟨_, rfl, ?_⟩
      rw [List.getD_eq_getElem?_getD]
      by_cases e : that = s.links.length
      · rw [e, List.getElem?_append_right (le_refl _)]; simp
      · rw [List.getElem?_eq_none (by simp; omega)]; rfl
    obtain ⟨y, hy, hy0⟩ := hget
    rw [count_set_zero_ne hz _ that hy (hy0 ▸ hz), count_snoc, if_neg (Ne.symm hz),
      Nat.add_zero]

theorem step_moveAssign {sl : Nat} {alive : Bool} {s : State} {L : List Nat}
    (hi : InvL sl alive s L) (l that : Nat) (hl : l < s.links.length)
    (ht : that < s.links.length) : InvL sl alive (Link.moveAssign s l that) L := by
  refine inv_links hi ?_ ?_ ?_
  · rfl
  · rfl
  intro p hz
  show ((s.links.set l (getLink s that)).set that (getLink s l)).count p = s.links.count p
  have h1 := count_set p (getLink s that) s.links l hl
  have h2 := count_set p (getLink s l) (s.links.set l (getLink s that)) that
    (by simpa using ht)
  have hget : (s.links.set l (getLink s that)).getD that 0 = getLink s that := by
    unfold getLink
    by_cases e : l = that
    · subst e
      rw [List.getD_eq_getElem?_getD, List.getElem?_set_self (by simpa using hl)]
      rfl
    · rw [List.getD_eq_getElem?_getD, List.getElem?_set_ne e, List.getD_eq_getElem?_getD]
  rw [hget] at h2
  unfold getLink at h1 h2 ⊢
  omega

theorem link_dtor_live {s : State} {l : Nat} {k : Socket} (h0 : getLink s l ≠ 0)
    (hk : s.heap (getLink s l) = some k) :
    Link.dtor s l = .ok (setLink (if k.refs = 0
      then { s with heap := Function.update s.heap (getLink s l) none }
      else writeSock s (getLink s l) { k with refs := wdec k.refs }) l 0) := by
  simp only [Link.dtor, ne_eq, h0, not_false_eq_true, if_true, socket_decref_live hk,
    ok_bind, pure_ok]

/-- The invariant survives `decref` on the node held by `Link` number `l`
followed by emptying that `Link`. -/
theorem inv_drop {sl : Nat} {alive : Bool} {s : State} {L : List Nat}
    (hi : InvL sl alive s L) {l : Nat} {k : Socket} (h0 : getLink s l ≠ 0)
    (hk : s.heap (getLink s l) = some k) :
    InvL sl alive (setLink (if k.refs = 0
      then { s with heap := Function.update s.heap (getLink s l) none }
      else writeSock s (getLink s l) { k with refs := wdec k.refs }) l 0) L := by
  obtain ⟨hxs, _⟩ := inv_link_live hi rfl h0
  have hbal := hi.bal _ k.refs hxs (by simp [refsOf, hk])
  have hc := getLink_count rfl h0
  have hcx := count_set_zero h0 s.links l rfl
  have hco : ∀ p, p ≠ 0 → p ≠ getLink s l → (s.links.set l 0).count p = s.links.count p :=
    fun p hz hp => count_set_zero_ne hz s.links l rfl hp
  have h1 := hbal.1
  unfold owners linkCount at h1
  unfold linkCount at hc
  by_cases hz : k.refs = 0
  · rw [if_pos hz]
    have hxL : getLink s l ∉ L := by
      intro hL
      rw [if_pos hL] at h1
      omega
    refine inv_kill hi hxs h0 hxL rfl rfl hco ?_
    show (s.links.set l 0).count (getLink s l) = 0
    rw [if_neg hxL] at h1
    omega
  · rw [if_neg hz]
    refine inv_node hi hxs h0 hk rfl rfl hco ?_ ?_
    · rw [wdec_pos hz hbal.2]
      unfold owners
      show k.refs - 1 + 1 = (s.links.set l 0).count (getLink s l) + _
      omega
    · rw [wdec_pos hz hbal.2]; omega

theorem step_dtor {sl : Nat} {alive : Bool} {s : State} {L : List Nat}
    (hi : InvL sl alive s L) (l : Nat) :
    ∃ s1, Link.dtor s l = .ok s1 ∧ InvL sl alive s1 L ∧
      ∀ p, s.heap p = none → s1.heap p = none := by
  by_cases h0 : getLink s l = 0
  · exact ⟨s, link_dtor_empty h0, hi, fun p h => h⟩
  · obtain ⟨hxs, k, hk⟩ := inv_link_live hi rfl h0
    refine ⟨_, link_dtor_live h0 hk, inv_drop hi h0 hk, ?_⟩
    intro p hp
    have hpx : p ≠ getLink s l := by
      intro e; subst e; rw [hk] at hp; cases hp
    split_ifs
    · show Function.update s.heap (getLink s l) none p = none
      rw [Function.update_noteq hpx]; exact hp
    · show Function.update s.heap (getLink s l) _ p = none
      rw [Function.update_noteq hpx]; exact hp

theorem socket_release_frame {s s1 : State} {sl x : Nat} {L1 L2 : List Nat} {k : Socket}
    (hr : Ring s sl (L1 ++ x :: L2)) (hk : s.heap x = some k)
    (e : Socket.release s x = .ok s1) :
    ∀ a, a ∉ sl :: (L1 ++ x :: L2) → s1.heap a = s.heap a := by
  have hseg := (seg_append L1 x L2 sl sl).1 hr.1
  have hPp : prevOf s.heap x = some k.prev := (proj_of_heap hk).1
  have hNn : nextOf s.heap x = some k.next := (proj_of_heap hk).2.1
  have hPm : k.prev ∈ sl :: L1 := seg_last_mem L1 sl x k.prev hseg.1 hPp
  have hNm : k.next ∈ L2 ++ [sl] := seg_first_mem L2 x sl k.next hseg.2 hNn
  have hnd := hr.2.1
  have hxL1 : x ∉ L1 := by
    intro c
    have := (List.nodup_cons.1 hnd).2
    rw [List.nodup_append] at this
    exact this.2.2 c (by simp)
  have hxL2 : x ∉ L2 := by
    intro c
    have := (List.nodup_cons.1 hnd).2
    rw [List.nodup_append] at this
    exact (List.nodup_cons.1 this.2.1).1 c
  have hxsl : x ≠ sl := by
    intro e
    exact (List.nodup_cons.1 hnd).1 (by simp [e])
  have hPx : k.prev ≠ x := by
    intro e
    rw [e] at hPm
    rcases List.mem_cons.1 hPm with c | c
    · exact hxsl c
    · exact hxL1 c
  have hNx : k.next ≠ x := by
    intro e
    rw [e] at hNm
    rcases List.mem_append.1 hNm with c | c
    · exact hxL2 c
    · simp at c; exact hxsl c
  have hPin : k.prev ∈ sl :: (L1 ++ x :: L2) := by
    rcases List.mem_cons.1 hPm with c | c
    · simp [c]
    · simp [c]
  have hNin : k.next ∈ sl :: (L1 ++ x :: L2) := by
    rcases List.mem_append.1 hNm with c | c
    · simp [c]
    · simp at c; simp [c]
  have hP0 : k.prev ≠ 0 := by
    intro e
    apply hr.2.2.1
    rw [e] at hPin
    exact hPin
  obtain ⟨kP, hP⟩ := hr.live k.prev hPin
  obtain ⟨kN, hN⟩ := hr.live k.next hNin
  obtain ⟨s2, e1, b1, l1, t1, n1, p1, f1, r1, hx1⟩ :=
    socket_release_linked hk hP0 hP hN hPx hNx
  rw [e] at e1
  cases e1
  intro a ha
  have hax : a ≠ x := by
    intro c; apply ha; simp [c]
  have haP : a ≠ k.prev := by
    intro c; apply ha; rw [c]; exact hPin
  have haN : a ≠ k.next := by
    intro c; apply ha; rw [c]; exact hNin
  apply heap_eq_of_proj
  · rw [p1 a hax, if_neg haN]
  · rw [n1 a hax, if_neg haP]
  · exact r1 a hax
  · exact f1 a hax

theorem step_release {sl : Nat} {alive : Bool} {s : State} {L : List Nat}
    (hi : InvL sl alive s L) (l : Nat) :
    ∃ s1 L1, Link.release s l = .ok s1 ∧ InvL sl alive s1 L1 ∧
      (∀ p, s.heap p = none → s1.heap p = none) ∧ getLink s1 l = 0 := by
  by_cases h0 : getLink s l = 0
  · exact ⟨s, L, link_release_empty h0, hi, fun p h => h, h0⟩
  obtain ⟨hxs, k, hk⟩ := inv_link_live hi rfl h0
  by_cases hxL : getLink s l ∈ L
  · cases alive with
    | false =>
      have h := (hi.gone rfl).1
      subst h
      simp at hxL
    | true =>
    have hr := hi.ring rfl
    obtain ⟨L1, L2, rfl⟩ := List.append_of_mem hxL
    obtain ⟨s0, e0, hring, b0, l0, _, f0, r0, hx0, _⟩ := socket_release_ring hr hk
    have hfr := socket_release_frame hr hk e0
    have hbal := hi.bal _ k.refs hxs (by simp [refsOf, hk])
    have hc := getLink_count rfl h0
    have hcx := count_set_zero h0 s.links l rfl
    have hco : ∀ p, p ≠ 0 → p ≠ getLink s l →
        (s.links.set l 0).count p = s.links.count p :=
      fun p hz hp => count_set_zero_ne hz s.links l rfl hp
    have h1 := hbal.1
    unfold owners linkCount at h1
    rw [if_pos hxL] at h1
    unfold linkCount at hc
    have hnd := hr.2.1
    have hxn : getLink s l ∉ L1 ++ L2 := by
      have h2 := (List.nodup_cons.1 hnd).2
      rw [List.nodup_append] at h2
      intro c
      rcases List.mem_append.1 c with c | c
      · exact h2.2.2 c (by simp)
      · exact (List.nodup_cons.1 h2.2.1).1 c
    have hmem : ∀ p, p ≠ getLink s l → (p ∈ L1 ++ getLink s l :: L2 ↔ p ∈ L1 ++ L2) := by
      intro p hp
      simp [List.mem_append, hp]
    have hlive : ∀ p, p ≠ getLink s l → s0.heap p = none → s.heap p = none := by
      intro p hp hn
      have h2 := f0 p hp
      simp only [functorOf, hn, Option.map_none'] at h2
      exact functorOf_eq_none.1 h2.symm
    have hlinks : (setLink s0 l 0).links = s.links.set l 0 := by
      show s0.links.set l 0 = _
      rw [l0]
    refine ⟨setLink s0 l 0, L1 ++ L2, ?_, ?_, ?_, ?_⟩
    · simp only [Link.release, ne_eq, h0, not_false_eq_true, if_true, e0, ok_bind, pure_ok]
    · refine ⟨⟨b0 ▸ hi.fresh.1, ?_⟩, ?_, hi.slnz, (fun _ => hring),
        (fun c => by cases c), ?_, ?_, ?_, ?_⟩
      · intro p hp
        show s0.heap p = none
        have hpn := hi.fresh.2 p (b0 ▸ hp)
        rw [hfr p]
        · exact hpn
        · intro c
          obtain ⟨k2, hk2⟩ := hr.live p c
          rw [hpn] at hk2; cases hk2
      · show s0.heap 0 = none
        rw [hfr 0 hr.2.2.1]
        exact hi.null
      · intro p r hp hrp
        change refsOf s0.heap p = some r at hrp
        unfold owners linkCount
        rw [hlinks]
        by_cases e : p = getLink s l
        · subst e
          rw [if_neg hxn]
          by_cases hw : wdec k.refs = 0
          · rw [refsOf, hx0, if_pos hw] at hrp
            simp at hrp
          · rw [refsOf, hx0, if_neg hw] at hrp
            simp only [Option.map_some', Option.some.injEq] at hrp
            subst hrp
            have hk0 : k.refs ≠ 0 := by omega
            rw [wdec_pos hk0 hbal.2] at hw ⊢
            rw [wdec_pos hw (by omega)]
            omega
        · rw [r0 p e] at hrp
          have hz : p ≠ 0 := by
            intro c; subst c; simp [refsOf, hi.null] at hrp
          have h2 := hi.bal p r hp hrp
          unfold owners linkCount at h2
          rw [hco p hz e]
          simp only [hmem p e] at h2
          exact h2
      · intro p q hp hL hq
        change prevOf s0.heap p = some q at hq
        by_cases e : p = getLink s l
        · subst e
          by_cases hw : wdec k.refs = 0
          · rw [prevOf, hx0, if_pos hw] at hq
            simp at hq
          · rw [prevOf, hx0, if_neg hw] at hq
            simp only [Option.map_some', Option.some.injEq] at hq
            exact hq.symm
        · have hL2 : p ∉ L1 ++ getLink s l :: L2 := fun c => hL ((hmem p e).1 c)
          rw [prevOf, hfr p (by
            intro c
            rcases List.mem_cons.1 c with c | c
            · exact hp c
            · exact hL2 c)] at hq
          exact hi.det p q hp hL2 hq
      · intro p hz hn
        change s0.heap p = none at hn
        unfold linkCount
        rw [hlinks]
        by_cases e : p = getLink s l
        · subst e
          by_cases hw : wdec k.refs = 0
          · have hk0 : k.refs ≠ 0 := by omega
            rw [wdec_pos hk0 hbal.2] at hw
            omega
          · rw [hx0, if_neg hw] at hn
            cases hn
        · rw [hco p hz e]
          exact hi.dead p hz (hlive p e hn)
      · unfold linkCount
        rw [hlinks, hco sl hi.slnz (Ne.symm hxs)]
        exact hi.nosl
    · intro p hp
      show s0.heap p = none
      have hpx : p ≠ getLink s l := by
        intro e; subst e; rw [hk] at hp; cases hp
      have h2 := f0 p hpx
      rw [functorOf_eq_none.2 hp] at h2
      exact functorOf_eq_none.1 h2
    · exact getLink_setLink_self s0 l 0 rfl
  · have hp0 : k.prev = 0 := by
      apply hi.det _ k.prev hxs hxL
      simp [prevOf, hk]
    refine ⟨_, L, ?_, inv_drop hi h0 hk, ?_, ?_⟩
    · simp only [Link.release, ne_eq, h0, not_false_eq_true, if_true,
        socket_release_detached hk hp0, socket_decref_live hk, ok_bind, pure_ok]
    · intro p hp
      have hpx : p ≠ getLink s l := by
        intro e; subst e; rw [hk] at hp; cases hp
      split_ifs
      · show Function.update s.heap (getLink s l) none p = none
        rw [Function.update_noteq hpx]; exact hp
      · show Function.update s.heap (getLink s l) _ p = none
        rw [Function.update_noteq hpx]; exact hp
    · exact getLink_setLink_self _ l 0 rfl

theorem step_autoDtor {sl : Nat} {alive : Bool} {s : State} {L : List Nat}
    (hi : InvL sl alive s L) (l : Nat) :
    ∃ s1 L1, AutoLink.dtor s l = .ok s1 ∧ InvL sl alive s1 L1 ∧
      (∀ p, s.heap p = none → s1.heap p = none) := by
  obtain ⟨s1, L1, e1, hi1, hm, hl⟩ := step_release hi l
  refine ⟨s1, L1, ?_, hi1, hm⟩
  simp only [AutoLink.dtor, e1, ok_bind, link_dtor_empty hl]

theorem link_assign_eq {s s1 s2 : State} {l that : Nat}
    (e1 : (if getLink s that ≠ 0 then Socket.incref s (getLink s that) else pure s) = .ok s1)
    (hl1 : s1.links = s.links)
    (e2 : (if getLink s l ≠ 0 then Socket.decref s1 (getLink s l) else pure s1) = .ok s2)
    (hl2 : s2.links = s.links) :
    Link.assign s l that = .ok (setLink s2 l (getLink s that)) := by
  have g1 : getLink s1 l = getLink s l := by unfold getLink; rw [hl1]
  have g2 : getLink s2 that = getLink s that := by unfold getLink; rw [hl2]
  unfold Link.assign
  by_cases c1 : getLink s that = 0
  · simp only [c1, ne_eq, not_true_eq_false, if_false, pure_ok] at e1
    cases e1
    by_cases c2 : getLink s l = 0
    · simp only [c2, ne_eq, not_true_eq_false, if_false, pure_ok] at e2
      cases e2
      simp only [c1, c2, ne_eq, not_true_eq_false, if_false, pure_ok, ok_bind]
    · simp only [c2, ne_eq, not_false_eq_true, if_true] at e2
      simp only [c1, c2, ne_eq, not_true_eq_false, not_false_eq_true, if_true, if_false,
        pure_ok, ok_bind, e2, g2]
  · simp only [c1, ne_eq, not_false_eq_true, if_true] at e1
    by_cases c2 : getLink s l = 0
    · simp only [c2, ne_eq, not_true_eq_false, if_false, pure_ok] at e2
      cases e2
      simp only [c1, ne_eq, not_true_eq_false, not_false_eq_true, if_true, if_false,
        pure_ok, ok_bind, e1, g1, c2, g2]
    · simp only [c2, ne_eq, not_false_eq_true, if_true] at e2
      simp only [c1, ne_eq, not_true_eq_false, not_false_eq_true, if_true, if_false,
        pure_ok, ok_bind, e1, g1, c2, e2, g2]

theorem wdec_winc {r : Nat} (h : r + 1 < 4294967296) : wdec (winc r) = r := by
  rw [winc_lt h, wdec_succ h]

theorem step_assign {sl : Nat} {alive : Bool} {s : State} {L : List Nat}
    (hi : InvL sl alive s L) (l that : Nat) (hl : l < s.links.length)
    (hg : getLink s that ≠ 0 → linkCount s (getLink s that) + 1 < 4294967296) :
    ∃ s1, Link.assign s l that = .ok s1 ∧ InvL sl alive s1 L ∧
      ∀ p, s.heap p = none → s1.heap p = none := by
  have hcs := fun p v => count_set p v s.links l hl
  by_cases hy : getLink s that = 0
  · by_cases hx : getLink s l = 0
    · have e := @link_assign_eq s s s l that
        (by simp only [hy, ne_eq, not_true_eq_false, if_false, pure_ok]) rfl
        (by simp only [hx, ne_eq, not_true_eq_false, if_false, pure_ok]) rfl
      rw [hy] at e
      refine ⟨_, e, ?_, fun p h => h⟩
      refine inv_links hi ?_ ?_ ?_
      · rfl
      · rfl
      · intro p hz
        exact count_set_zero_ne hz s.links l hx hz
    · obtain ⟨hxs, kx, hkx⟩ := inv_link_live hi rfl hx
      have e := @link_assign_eq s s (if kx.refs = 0
          then { s with heap := Function.update s.heap (getLink s l) none }
          else writeSock s (getLink s l) { kx with refs := wdec kx.refs }) l that
        (by simp only [hy, ne_eq, not_true_eq_false, if_false, pure_ok]) rfl
        (by simp only [hx, ne_eq, not_false_eq_true, if_true, socket_decref_live hkx])
        (by split_ifs <;> rfl)
      rw [hy] at e
      refine ⟨_, e, inv_drop hi hx hkx, ?_⟩
      intro p hp
      have hpx : p ≠ getLink s l := by
        intro c; subst c; rw [hkx] at hp; cases hp
      split_ifs
      · show Function.update s.heap (getLink s l) none p = none
        rw [Function.update_noteq hpx]; exact hp
      · show Function.update s.heap (getLink s l) _ p = none
        rw [Function.update_noteq hpx]; exact hp
  · obtain ⟨hys, ky, hky⟩ := inv_link_live hi rfl hy
    have hbaly := hi.bal _ ky.refs hys (by simp [refsOf, hky])
    have hg1 := hg hy
    have hby := hbaly.1
    unfold owners linkCount at hby
    unfold linkCount at hg1
    have hlt : ky.refs + 1 < 4294967296 := by
      split_ifs at hby <;> omega
    obtain ⟨s1, hs1⟩ : ∃ s1, s1 = writeSock s (getLink s that)
      { ky with refs := winc ky.refs } := ⟨_, rfl⟩
    have e1 : (if getLink s that ≠ 0 then Socket.incref s (getLink s that) else pure s) =
        .ok s1 := by
      simp only [ne_eq, hy, not_false_eq_true, if_true, Socket.incref, readSock_ok hky,
        ok_bind, pure_ok, hs1]
    have hl1 : s1.links = s.links := by rw [hs1]; rfl
    have hb1 : s1.brk = s.brk := by rw [hs1]; rfl
    have hh1 : s1.heap = Function.update s.heap (getLink s that)
        (some { ky with refs := winc ky.refs }) := by rw [hs1]; rfl
    by_cases hx : getLink s l = 0
    · have e := @link_assign_eq s s1 s1 l that e1 hl1
        (by simp only [hx, ne_eq, not_true_eq_false, if_false, pure_ok]) hl1
      refine ⟨_, e, ?_, ?_⟩
      · refine inv_node hi hys hy hky hb1 hh1 ?_ ?_ ?_
        · intro p hz hp
          have h2 := hcs p (getLink s that)
          unfold getLink at hx h2 hp
          rw [hx, if_neg (Ne.symm hz), if_neg (Ne.symm hp)] at h2
          show (s1.links.set l (getLink s that)).count p = s.links.count p
          rw [hl1]
          unfold getLink
          omega
        · have h2 := hcs (getLink s that) (getLink s that)
          unfold getLink at hx h2 hy
          rw [hx, if_neg (Ne.symm hy), if_pos rfl] at h2
          rw [winc_lt hlt]
          unfold owners linkCount
          show ky.refs + 1 + 1 = (s1.links.set l (getLink s that)).count (getLink s that) + _
          rw [hl1]
          unfold getLink at hby ⊢
          omega
        · rw [winc_lt hlt]; exact hlt
      · intro p hp
        show s1.heap p = none
        rw [hh1, Function.update_noteq]
        · exact hp
        · intro c; subst c; rw [hky] at hp; cases hp
    · obtain ⟨hxs, kx, hkx⟩ := inv_link_live hi rfl hx
      by_cases hxy : getLink s l = getLink s that
      · have hkx1 : s1.heap (getLink s l) = some { ky with refs := winc ky.refs } := by
          rw [hh1, hxy, Function.update_same]
        have hwz : winc ky.refs ≠ 0 := by rw [winc_lt hlt]; omega
        have e := @link_assign_eq s s1
          (writeSock s1 (getLink s l) { ky with refs := wdec (winc ky.refs) }) l that e1 hl1
          (by simp only [hx, ne_eq, not_false_eq_true, if_true,
            socket_decref_pos hkx1 hwz]) hl1
        refine ⟨_, e, ?_, ?_⟩
        · refine inv_node hi hys hy hky hb1 ?_ ?_ ?_ hbaly.2
          · show Function.update s1.heap (getLink s l) _ = _
            rw [hh1, hxy, Function.update_idem]
            show Function.update s.heap (getLink s that)
              (some { ky with refs := wdec (winc ky.refs) }) = _
            rw [wdec_winc hlt]
          · intro p hz hp
            have h2 := hcs p (getLink s that)
            rw [show s.links.getD l 0 = getLink s that from hxy] at h2
            unfold getLink at h2 hp
            show (s1.links.set l (getLink s that)).count p = s.links.count p
            rw [hl1]
            unfold getLink
            omega
          · have h2 := hcs (getLink s that) (getLink s that)
            rw [show s.links.getD l 0 = getLink s that from hxy] at h2
            unfold owners linkCount
            show ky.refs + 1 = (s1.links.set l (getLink s that)).count (getLink s that) + _
            rw [hl1]
            unfold getLink at h2 hby ⊢
            omega
        · intro p hp
          show Function.update s1.heap (getLink s l) _ p = none
          have hpy : p ≠ getLink s that := by
            intro c; subst c; rw [hky] at hp; cases hp
          rw [hxy, Function.update_noteq hpy, hh1, Function.update_noteq hpy]
          exact hp
      · have hkx1 : s1.heap (getLink s l) = some kx := by
          rw [hh1, Function.update_noteq hxy]; exact hkx
        have hyx : getLink s that ≠ getLink s l := fun c => hxy c.symm
        have ht := inv_drop hi hx hkx
        have e := @link_assign_eq s s1 (if kx.refs = 0
            then { s1 with heap := Function.update s1.heap (getLink s l) none }
            else writeSock s1 (getLink s l) { kx with refs := wdec kx.refs }) l that e1 hl1
          (by simp only [hx, ne_eq, not_false_eq_true, if_true, socket_decref_live hkx1])
          (by split_ifs <;> exact hl1)
        have hcA : ∀ p, p ≠ 0 → p ≠ getLink s that →
            (s.links.set l (getLink s that)).count p = (s.links.set l 0).count p := by
          intro p hz hp
          have h2 := hcs p (getLink s that)
          have h3 := hcs p 0
          rw [if_neg (Ne.symm hp)] at h2
          rw [if_neg (Ne.symm hz)] at h3
          omega
        have hcB : (s.links.set l (getLink s that)).count (getLink s that) =
            (s.links.set l 0).count (getLink s that) + 1 := by
          have h2 := hcs (getLink s that) (getLink s that)
          have h3 := hcs (getLink s that) 0
          rw [if_pos rfl] at h2
          rw [if_neg (Ne.symm hy)] at h3
          omega
        have hcC : (s.links.set l 0).count (getLink s that) = s.links.count (getLink s that) := by
          have h3 := hcs (getLink s that) 0
          have hxy2 : ¬ s.links.getD l 0 = getLink s that := hxy
          rw [if_neg (Ne.symm hy), if_neg hxy2] at h3
          omega
        refine ⟨_, e, ?_, ?_⟩
        · by_cases hz : kx.refs = 0
          · rw [if_pos hz] at ht ⊢
            have hkt : (setLink { s with heap := Function.update s.heap (getLink s l) none }
                l 0).heap (getLink s that) = some ky := by
              show Function.update s.heap (getLink s l) none (getLink s that) = some ky
              rw [Function.update_noteq hyx]; exact hky
            refine inv_node (r := winc ky.refs) ht hys hy hkt hb1 ?_ ?_ ?_ ?_
            · show Function.update s1.heap (getLink s l) none =
                Function.update (Function.update s.heap (getLink s l) none) _ _
              rw [hh1, Function.update_comm hyx]
            · intro p hz hp
              show (s1.links.set l (getLink s that)).count p = (s.links.set l 0).count p
              rw [hl1]
              exact hcA p hz hp
            · rw [winc_lt hlt]
              unfold owners linkCount
              show ky.refs + 1 + 1 = (s1.links.set l (getLink s that)).count (getLink s that) + _
              rw [hl1]
              omega
            · rw [winc_lt hlt]; exact hlt
          · rw [if_neg hz] at ht ⊢
            have hkt : (setLink (writeSock s (getLink s l) { kx with refs := wdec kx.refs })
                l 0).heap (getLink s that) = some ky := by
              show Function.update s.heap (getLink s l) _ (getLink s that) = some ky
              rw [Function.update_noteq hyx]; exact hky
            refine inv_node (r := winc ky.refs) ht hys hy hkt hb1 ?_ ?_ ?_ ?_
            · show Function.update s1.heap (getLink s l) _ =
                Function.update (Function.update s.heap (getLink s l) _) _ _
              rw [hh1, Function.update_comm hyx]
            · intro p hz hp
              show (s1.links.set l (getLink s that)).count p = (s.links.set l 0).count p
              rw [hl1]
              exact hcA p hz hp
            · rw [winc_lt hlt]
              unfold owners linkCount
              show ky.refs + 1 + 1 = (s1.links.set l (getLink s that)).count (getLink s that) + _
              rw [hl1]
              omega
            · rw [winc_lt hlt]; exact hlt
        · intro p hp
          have hpy : p ≠ getLink s that := by
            intro c; subst c; rw [hky] at hp; cases hp
          have hpx : p ≠ getLink s l := by
            intro c; subst c; rw [hkx] at hp; cases hp
          split_ifs
          · show Function.update s1.heap (getLink s l) none p = none
            rw [Function.update_noteq hpx, hh1, Function.update_noteq hpy]; exact hp
          · show Function.update s1.heap (getLink s l) _ p = none
            rw [Function.update_noteq hpx, hh1, Function.update_noteq hpy]; exact hp

theorem step_bind {sl : Nat} {s : State} {L : List Nat} (hi : InvL sl true s L) (t : Nat) :
    ∃ s1, Slot.bind s sl t = .ok (s1, s.links.length) ∧ InvL sl true s1 (L ++ [s.brk]) ∧
      ∀ p, p < s.brk → s.heap p = none → s1.heap p = none := by
  have hr := hi.ring rfl
  have hf := hi.fresh
  obtain ⟨ksl, hsl⟩ := hr.live sl (by simp)
  have hTp : prevOf s.heap sl = some ksl.prev := (proj_of_heap hsl).1
  have hTm : ksl.prev ∈ sl :: L := seg_last_mem L sl sl ksl.prev hr.1 hTp
  obtain ⟨kT, hT⟩ := hr.live ksl.prev hTm
  obtain ⟨sn, en, bn, ln, tn, n1, p1, f1, r1⟩ := socket_new_spec (t := t) hf hsl hT
  obtain ⟨s1, e1, hr1, hf1, b1, l1, t1, f1b, r1b, g1⟩ := slot_bind_ring t hf hr
  have hbind : Slot.bind s sl t =
      .ok ({ sn with links := sn.links ++ [s.brk] }, s.links.length) := by
    simp only [Slot.bind, readSock_ok hsl, ok_bind, en, pure_ok, Link.mk, ln]
  have hs1 : s1 = { sn with links := sn.links ++ [s.brk] } := by
    rw [e1] at hbind
    injection hbind with h
    exact (Prod.mk.inj h).1
  have hheap : s1.heap = sn.heap := by rw [hs1]
  have hsl_ne : sl ≠ s.brk := by
    intro e
    have := fresh_not_live hf hsl
    omega
  have hn0 : s.brk ≠ 0 := by
    have := hf.1
    omega
  have hnn : s.heap s.brk = none := hf.2 _ (le_refl _)
  have hcn : s.links.count s.brk = 0 := hi.dead _ hn0 hnn
  have hlive : ∀ p, p ≠ s.brk → (s1.heap p = none ↔ s.heap p = none) := by
    intro p hp
    rw [← functorOf_eq_none, ← functorOf_eq_none, f1b, if_neg hp]
  have hmem : ∀ p, p ≠ s.brk → (p ∈ L ++ [s.brk] ↔ p ∈ L) := by
    intro p hp
    simp [hp]
  have hcount : ∀ p, p ≠ s.brk → s1.links.count p = s.links.count p := by
    intro p hp
    rw [l1, count_snoc, if_neg (Ne.symm hp), Nat.add_zero]
  have hn1 : s1.heap s.brk ≠ none := by
    intro c
    have h2 := f1b s.brk
    rw [if_pos rfl, functorOf_eq_none.2 c] at h2
    cases h2
  refine ⟨s1, e1, ⟨hf1, ?_, hi.slnz, (fun _ => hr1), (fun c => by cases c), ?_, ?_, ?_, ?_⟩, ?_⟩
  · exact (hlive 0 (Ne.symm hn0)).2 hi.null
  · intro p r hp hrp
    unfold owners linkCount
    rw [r1b] at hrp
    by_cases e : p = s.brk
    · subst e
      rw [if_pos rfl] at hrp
      cases hrp
      rw [l1, count_snoc, if_pos rfl, if_pos (by simp), hcn]
      exact ⟨rfl, by norm_num⟩
    · rw [if_neg e] at hrp
      have h2 := hi.bal p r hp hrp
      unfold owners linkCount at h2
      rw [hcount p e]
      simp only [hmem p e]
      exact h2
  · intro p q hp hL hq
    have e : p ≠ s.brk := by
      intro c; apply hL; simp [c]
    rw [hheap, p1, if_neg e, if_neg hp] at hq
    exact hi.det p q hp (fun c => hL ((hmem p e).2 c)) hq
  · intro p hz hn
    have e : p ≠ s.brk := by
      intro c; subst c; exact hn1 hn
    unfold linkCount
    rw [hcount p e]
    exact hi.dead p hz ((hlive p e).1 hn)
  · unfold linkCount
    rw [hcount sl hsl_ne]
    exact hi.nosl
  · intro p hp hn
    exact (hlive p (by omega)).2 hn

theorem step_teardown {sl : Nat} {s : State} {L : List Nat} (hi : InvL sl true s L) :
    ∃ s1, (∀ n, Slot.dtor sl (n + L.length + 1) s = .ok s1) ∧ InvL sl false s1 [] ∧
      ∀ p, s.heap p = none → s1.heap p = none := by
  have hr := hi.ring rfl
  obtain ⟨s1, e1, b1, l1, t1, hsl1, hL1, hfr⟩ := slot_dtor_spec hr
  have hcase : ∀ p, p ≠ sl → (p ∈ L ∧ ∃ ka, s.heap p = some ka ∧ s1.heap p =
      (if ka.refs = 0 then none else some { ka with prev := 0, refs := wdec ka.refs })) ∨
      (p ∉ L ∧ s1.heap p = s.heap p) := by
    intro p hp
    by_cases hL : p ∈ L
    · obtain ⟨ka, hka⟩ := hr.live p (List.mem_cons_of_mem _ hL)
      exact Or.inl ⟨hL, ka, hka, hL1 p hL ka hka⟩
    · refine Or.inr ⟨hL, hfr p ?_⟩
      intro c
      rcases List.mem_cons.1 c with c | c
      · exact hp c
      · exact hL c
  have hmono : ∀ p, s.heap p = none → s1.heap p = none := by
    intro p hn
    by_cases e : p = sl
    · rw [e]; exact hsl1
    · rcases hcase p e with ⟨_, ka, hka, _⟩ | ⟨_, h2⟩
      · rw [hn] at hka; cases hka
      · rw [h2]; exact hn
  refine ⟨s1, e1, ⟨⟨b1 ▸ hi.fresh.1, ?_⟩, ?_, hi.slnz, (fun c => by cases c),
    (fun _ => ⟨rfl, hsl1⟩), ?_, ?_, ?_, ?_⟩, hmono⟩
  · intro p hp
    exact hmono p (hi.fresh.2 p (b1 ▸ hp))
  · exact hmono 0 hi.null
  · intro p r hp hrp
    unfold owners linkCount
    rw [l1, if_neg (by simp)]
    rcases hcase p hp with ⟨hL, ka, hka, h2⟩ | ⟨hL, h2⟩
    · have hb := hi.bal p ka.refs hp (by simp [refsOf, hka])
      unfold owners linkCount at hb
      rw [if_pos hL] at hb
      by_cases hz : ka.refs = 0
      · rw [refsOf, h2, if_pos hz] at hrp
        simp at hrp
      · rw [refsOf, h2, if_neg hz] at hrp
        simp only [Option.map_some', Option.some.injEq] at hrp
        subst hrp
        rw [wdec_pos hz hb.2]
        omega
    · rw [refsOf, h2] at hrp
      have hb := hi.bal p r hp hrp
      unfold owners linkCount at hb
      rw [if_neg hL] at hb
      exact hb
  · intro p q hp _ hq
    rcases hcase p hp with ⟨hL, ka, hka, h2⟩ | ⟨hL, h2⟩
    · by_cases hz : ka.refs = 0
      · rw [prevOf, h2, if_pos hz] at hq
        simp at hq
      · rw [prevOf, h2, if_neg hz] at hq
        simp only [Option.map_some', Option.some.injEq] at hq
        exact hq.symm
    · rw [prevOf, h2] at hq
      exact hi.det p q hp hL hq
  · intro p hz hn
    unfold linkCount
    rw [l1]
    by_cases e : p = sl
    · rw [e]; exact hi.nosl
    · rcases hcase p e with ⟨hL, ka, hka, h2⟩ | ⟨hL, h2⟩
      · have hb := hi.bal p ka.refs e (by simp [refsOf, hka])
        unfold owners linkCount at hb
        rw [if_pos hL] at hb
        by_cases hz2 : ka.refs = 0
        · omega
        · rw [h2, if_neg hz2] at hn
          cases hn
      · rw [h2] at hn
        exact hi.dead p hz hn
  · unfold linkCount
    rw [l1]
    exact hi.nosl

theorem ctor_inv {s : State} {sl : Nat} (h : Slot.ctor State.init = .ok (s, sl)) :
    InvL sl true s [] := by
  obtain ⟨s1, e1, hr, hf, b1, l1, t1, hsl, hfr⟩ := slot_ctor_spec fresh_init
  rw [e1] at h
  injection h with h
  obtain ⟨h1, h2⟩ := Prod.mk.inj h
  subst h1
  subst h2
  have hl : s1.links = [] := l1
  have hh : ∀ p, p ≠ State.init.brk → s1.heap p = none := fun p hp => hfr p hp
  have hb0 : State.init.brk ≠ 0 := by decide
  refine ⟨hf, hh 0 (Ne.symm hb0), hb0, (fun _ => hr), (fun c => by cases c), ?_, ?_, ?_, ?_⟩
  · intro p r hp hrp
    rw [refsOf, hh p hp] at hrp
    simp at hrp
  · intro p q hp _ hq
    rw [prevOf, hh p hp] at hq
    simp at hq
  · intro p _ _
    unfold linkCount
    rw [hl]
    rfl
  · unfold linkCount
    rw [hl]
    rfl

theorem dtorLoop_fuel_le (sl : Nat) :
    ∀ (L : List Nat) (s : State), Fwd s.heap sl L sl → (sl :: L).Nodup →
      (∀ a ∈ sl :: L, ∃ k, s.heap a = some k) →
      ∀ f, f ≤ L.length → Slot.dtorLoop sl f s = .error .fuel := by
  intro L
  induction L with
  | nil =>
    intro s _ _ _ f hf
    have : f = 0 := by simpa using hf
    subst this
    rfl
  | cons a L ih =>
    intro s hf hnd hlive f hfl
    cases f with
    | zero => rfl
    | succ f =>
      obtain ⟨ka, hka⟩ := hlive a (by simp)
      obtain ⟨sC, hstep, hfC, hliveC, -⟩ := dtorLoop_first sl hf hnd hlive hka
      have hndC : (sl :: L).Nodup := by
        have h1 := (List.nodup_cons.1 hnd)
        exact List.nodup_cons.2
          ⟨fun c => h1.1 (List.mem_cons_of_mem _ c), (List.nodup_cons.1 h1.2).2⟩
      rw [hstep]
      exact ih sC hfC hndC hliveC f (by simpa using hfl)

/-- From a state that satisfies the invariant every operation the client can
perform returns, its result satisfies the invariant, and no destroyed node is
live again afterwards. -/
theorem step_safe {sl : Nat} {alive : Bool} {s : State} {L : List Nat}
    (hi : InvL sl alive s L) (op : Op) (hok : op.ok alive s) :
    ∃ s1 L1, op.exec sl s = .ok s1 ∧ InvL sl alive s1 L1 ∧
      ∀ p, p < s.brk → s.heap p = none → s1.heap p = none := by
  cases op with
  | bind t =>
    have ha : alive = true := hok
    subst ha
    obtain ⟨s1, e1, hi1, hm⟩ := step_bind hi t
    refine ⟨s1, _, ?_, hi1, hm⟩
    simp only [Op.exec, e1, ok_bind, pure_ok]
  | linkDefault => exact ⟨_, L, rfl, step_linkDefault hi, fun p _ h => h⟩
  | copy that =>
    obtain ⟨s1, e1, hi1, hm⟩ := step_copy hi that hok
    refine ⟨s1, L, ?_, hi1, fun p _ h => hm p h⟩
    simp only [Op.exec, e1, ok_bind, pure_ok]
  | move that => exact ⟨_, L, rfl, step_move hi that, fun p _ h => h⟩
  | assign l that =>
    obtain ⟨s1, e1, hi1, hm⟩ := step_assign hi l that hok.1 hok.2
    exact ⟨s1, L, e1, hi1, fun p _ h => hm p h⟩
  | moveAssign l that =>
    exact ⟨_, L, rfl, step_moveAssign hi l that hok.1 hok.2, fun p _ h => h⟩
  | release l =>
    obtain ⟨s1, L1, e1, hi1, hm, _⟩ := step_release hi l
    exact ⟨s1, L1, e1, hi1, fun p _ h => hm p h⟩
  | dtor l =>
    obtain ⟨s1, e1, hi1, hm⟩ := step_dtor hi l
    exact ⟨s1, L, e1, hi1, fun p _ h => hm p h⟩
  | autoDtor l =>
    obtain ⟨s1, L1, e1, hi1, hm⟩ := step_autoDtor hi l
    exact ⟨s1, L1, e1, hi1, fun p _ h => hm p h⟩

theorem teardown_safe {sl : Nat} {s s1 : State} {L : List Nat} (hi : InvL sl true s L)
    {fuel : Nat} (h : Slot.dtor sl fuel s = .ok s1) :
    InvL sl false s1 [] ∧ ∀ p, s.heap p = none → s1.heap p = none := by
  have hr := hi.ring rfl
  obtain ⟨s2, e2, hi2, hm⟩ := step_teardown hi
  by_cases hf : fuel ≤ L.length
  · have hL := dtorLoop_fuel_le sl L s (seg_fwd L sl sl hr.1) hr.2.1 hr.live fuel hf
    simp only [Slot.dtor, hL, error_bind] at h
    cases h
  · have e3 := e2 (fuel - L.length - 1)
    rw [show fuel - L.length - 1 + L.length + 1 = fuel by omega, h] at e3
    cases e3
    exact ⟨hi2, hm⟩

/-- Every reachable state satisfies the invariant. -/
theorem reach_inv {sl : Nat} {alive : Bool} {s : State} (h : Reach sl alive s) :
    ∃ L, InvL sl alive s L := by
  induction h with
  | ctor h => exact ⟨[], ctor_inv h⟩
  | step op _ hok he ih =>
    obtain ⟨L, hi⟩ := ih
    obtain ⟨s2, L2, e2, hi2, _⟩ := step_safe hi op hok
    rw [he] at e2
    cases e2
    exact ⟨L2, hi2⟩
  | teardown fuel _ he ih =>
    obtain ⟨L, hi⟩ := ih
    exact ⟨[], (teardown_safe hi he).1⟩

theorem state_ext {s t : State} (h1 : s.heap = t.heap) (h2 : s.brk = t.brk)
    (h3 : s.links = t.links) (h4 : s.trace = t.trace) : s = t := by
  cases s
  cases t
  simp only [State.mk.injEq]
  exact ⟨h1, h2, h3, h4⟩

theorem reach_bindAll {sl : Nat} :
    ∀ (ts : List Nat) (s s1 : State), Reach sl true s → bindAll sl s ts = .ok s1 →
      Reach sl true s1 := by
  intro ts
  induction ts with
  | nil =>
    intro s s1 hr h
    simp only [bindAll, pure_ok] at h
    cases h
    exact hr
  | cons t ts ih =>
    intro s s1 hr h
    obtain ⟨L, hi⟩ := reach_inv hr
    obtain ⟨s2, e2, _, _⟩ := step_bind hi t
    simp only [bindAll, e2, ok_bind] at h
    refine ih s2 s1 (Reach.step (Op.bind t) hr rfl ?_) h
    simp only [Op.exec, e2, ok_bind, pure_ok]

theorem reach_ringABC : Reach 1 true ringABC := by
  obtain ⟨s0, s, e0, eb, h1, h2, h3, h4⟩ := ringABC_built
  have hs : s = ringABC := state_ext h1 h2 h3 h4
  rw [← hs]
  exact reach_bindAll [7, 8, 9] s0 s (Reach.ctor e0) eb

theorem reach_ringABCcopy : Reach 1 true ringABCcopy := by
  obtain ⟨s, e, h1, h2, h3, h4⟩ := ringABCcopy_built
  have hs : s = ringABCcopy := state_ext h1 h2 h3 h4
  rw [← hs]
  refine Reach.step (Op.copy 1) reach_ringABC ?_ ?_
  · intro _
    decide
  · simp only [Op.exec, e, ok_bind, pure_ok]

theorem reach_tornABCcopy : Reach 1 false tornABCcopy := by
  obtain ⟨s, e, h1, h2, h3, h4⟩ := tornABCcopy_built
  have hs : s = tornABCcopy := state_ext h1 h2 h3 h4
  rw [← hs]
  exact Reach.teardown 4 reach_ringABCcopy e

/-! ## Counts that wrap -/

/-- Taking `n` copies of a non-empty `Link` adds `n` to the stored count of its
node, modulo `2^32`, and creates `n` more `Link` objects that hold the node. -/
theorem copyN_spec (l : Nat) : ∀ (n : Nat) (s : State) (k : Socket),
    getLink s l ≠ 0 → s.heap (getLink s l) = some k → k.refs < 4294967296 →
    ∃ s1, copyN l n s = .ok s1 ∧
      s1.heap = Function.update s.heap (getLink s l)
        (some { k with refs := (k.refs + n) % 4294967296 }) ∧
      s1.links = s.links ++ List.replicate n (getLink s l) ∧ s1.brk = s.brk ∧
      s1.trace = s.trace := by
  intro n
  induction n with
  | zero =>
    intro s k h0 hk hlt
    refine ⟨s, rfl, ?_, by simp, rfl, rfl⟩
    rw [Nat.add_zero, Nat.mod_eq_of_lt hlt]
    have h2 : Function.update s.heap (getLink s l) (some k) = s.heap := by
      rw [← hk]
      exact Function.update_eq_self _ _
    exact h2.symm
  | succ n ih =>
    intro s k h0 hk hlt
    obtain ⟨s2, hs2⟩ : ∃ s2, s2 = writeSock { s with links := s.links ++ [getLink s l] }
      (getLink s l) { k with refs := winc k.refs } := ⟨_, rfl⟩
    have e := link_copy_live h0 hk
    rw [← hs2] at e
    have hg : getLink s2 l = getLink s l := by
      have hl := getLink_lt h0
      rw [hs2]
      show (s.links ++ [getLink s l]).getD l 0 = s.links.getD l 0
      rw [List.getD_eq_getElem?_getD, List.getD_eq_getElem?_getD,
        List.getElem?_append_left hl]
    have hh2 : s2.heap = Function.update s.heap (getLink s l)
        (some { k with refs := winc k.refs }) := by rw [hs2]; rfl
    have hk2 : s2.heap (getLink s2 l) = some { k with refs := winc k.refs } := by
      rw [hg, hh2, Function.update_same]
    have hlt2 : winc k.refs < 4294967296 := by unfold winc; omega
    obtain ⟨s1, e1, h1, l1, b1, t1⟩ := ih s2 { k with refs := winc k.refs }
      (by rw [hg]; exact h0) hk2 hlt2
    refine ⟨s1, ?_, ?_, ?_, ?_, ?_⟩
    · simp only [copyN, e, ok_bind, e1]
    · rw [h1, hg, hh2, Function.update_idem]
      have hm : (winc k.refs + n) % 4294967296 = (k.refs + (n + 1)) % 4294967296 := by
        unfold winc; omega
      show Function.update s.heap (getLink s l)
        (some { k with refs := (winc k.refs + n) % 4294967296 }) = _
      rw [hm]
    · rw [l1, hg, hs2]
      show (s.links ++ [getLink s l]) ++ List.replicate n (getLink s l) = _
      rw [List.append_assoc, List.replicate_succ]
      rfl
    · rw [b1, hs2]; rfl
    · rw [t1, hs2]; rfl

/-- The state after `2^32 - 1` copies of the `Link` returned by the first
`bind` of `ringABC`: the stored count of node 2 has wrapped to zero. -/
theorem wrap_state : ∃ s, copyN 0 4294967295 ringABC = .ok s ∧
    s.heap = Function.update ringABC.heap 2
      (some { prev := 1, next := 3, refs := 0, functor := some 7 }) ∧
    s.links = [2, 3, 4] ++ List.replicate 4294967295 2 ∧ s.brk = 5 ∧ s.trace = [] := by
  have hk : ringABC.heap (getLink ringABC 0) =
      some { prev := 1, next := 3, refs := 1, functor := some 7 } := rfl
  obtain ⟨s, e, h1, l1, b1, t1⟩ := copyN_spec 0 4294967295 ringABC _ (by decide) hk
    (by norm_num)
  exact ⟨s, e, h1, l1, b1, t1⟩

theorem wrap_state_facts {s : State}
    (hh : s.heap = Function.update ringABC.heap 2
      (some { prev := 1, next := 3, refs := 0, functor := some 7 }))
    (hl : s.links = [2, 3, 4] ++ List.replicate 4294967295 2) :
    s.heap 2 = some { prev := 1, next := 3, refs := 0, functor := some 7 } ∧
    s.heap 1 = some { prev := 4, next := 2, refs := 1, functor := none } ∧
    getLink s 0 = 2 ∧ getLink s 3 = 2 ∧ linkCount s 2 = 4294967296 ∧
    Ring s 1 [2, 3, 4] := by
  have h2 : s.heap 2 = some { prev := 1, next := 3, refs := 0, functor := some 7 } := by
    rw [hh, Function.update_same]
  have hne : ∀ a, a ≠ 2 → s.heap a = ringABC.heap a := by
    intro a ha
    rw [hh, Function.update_noteq ha]
  refine ⟨h2, by rw [hne 1 (by decide)]; rfl, ?_, ?_, ?_, ?_⟩
  · unfold getLink
    rw [hl]
    rfl
  · unfold getLink
    rw [hl, show (4294967295 : Nat) = 4294967294 + 1 from rfl, List.replicate_succ]
    rfl
  · unfold linkCount
    rw [hl, List.count_append, List.count_replicate_self]
    rfl
  · have hr : Ring ringABC 1 [2, 3, 4] := by decide
    apply ring_frame hr
    · intro a _
      by_cases e : a = 2
      · subst e; rw [nextOf, h2]; rfl
      · rw [nextOf, hne a e]; rfl
    · intro a _
      by_cases e : a = 2
      · subst e; rw [prevOf, h2]; rfl
      · rw [prevOf, hne a e]; rfl
    · intro a _
      by_cases e : a = 2
      · subst e; rw [functorOf, h2]; rfl
      · rw [functorOf, hne a e]; rfl

theorem inv_live_iff {sl : Nat} {alive : Bool} {s : State} {L : List Nat}
    (hi : InvL sl alive s L) {p : Nat} (hp : p ≠ sl) (hz : p ≠ 0) :
    (∃ k, s.heap p = some k) ↔ 1 ≤ owners s L p := by
  constructor
  · rintro ⟨k, hk⟩
    have hb := hi.bal p k.refs hp (by simp [refsOf, hk])
    omega
  · intro h
    cases hk : s.heap p with
    | some k => exact ⟨k, rfl⟩
    | none =>
      exfalso
      have hc := hi.dead p hz hk
      have hL : p ∉ L := by
        intro c
        obtain ⟨_, _, k, hk2⟩ := inv_mem_live hi c
        rw [hk] at hk2; cases hk2
      unfold owners at h
      rw [hc, if_neg hL] at h
      omega

theorem inv_linked_iff {sl : Nat} {alive : Bool} {s : State} {L : List Nat}
    (hi : InvL sl alive s L) {p : Nat} {k : Socket} (hp : p ≠ sl) (hk : s.heap p = some k) :
    p ∈ L ↔ k.prev ≠ 0 := by
  constructor
  · intro hL
    cases alive with
    | false =>
      have h := (hi.gone rfl).1
      subst h
      simp at hL
    | true => exact ring_prev_ne_zero (hi.ring rfl) (List.mem_cons_of_mem _ hL) hk
  · intro h
    by_contra hL
    exact h (hi.det p k.prev hp hL (by simp [prevOf, hk]))

theorem inv_owned {sl : Nat} {alive : Bool} {s : State} {L : List Nat}
    (hi : InvL sl alive s L) {p : Nat} {k : Socket} (hp : p ≠ sl) (hk : s.heap p = some k) :
    k.refs + 1 = linkCount s p + (if k.prev ≠ 0 then 1 else 0) ∧ k.refs < 4294967296 := by
  have hb := hi.bal p k.refs hp (by simp [refsOf, hk])
  have hl := inv_linked_iff hi hp hk
  unfold owners at hb
  simp only [hl] at hb
  exact hb

theorem owned_of {s : State} {p : Nat} {k : Socket} (hk : s.heap p = some k)
    (h : k.refs + 1 = linkCount s p + (if k.prev ≠ 0 then 1 else 0) ∧ k.refs < 4294967296) :
    Owned s p := by
  unfold Owned
  rw [hk]
  exact h

/-! ## Claims on reachable states -/

/-- C13, as the code behaves: after `2^32 - 1` copies of one `Link` the count of
its node has wrapped to zero; the destructor of any one of these `Link` objects then destroys the node
while it is linked in the ring: the sentinel's `next` dangles, no list of nodes
makes the ring well formed, and `fire` dereferences the destroyed node. -/
theorem copies_break_ring :
    Reach 1 true ringABC ∧ ∃ s s1, copyN 0 4294967295 ringABC = .ok s ∧
      Link.dtor s 0 = .ok s1 ∧ s1.heap 2 = none ∧ nextOf s1.heap 1 = some 2 ∧
      (∀ L, ¬ Ring s1 1 L) ∧
      ∀ (prog : Nat → List Action) (fuel : Nat),
        Slot.fire prog (fuel + 1) s1 1 = .error .dangling := by
  obtain ⟨s, e, hh, hl, _, _⟩ := wrap_state
  obtain ⟨h2, h1, g0, _, _, _⟩ := wrap_state_facts hh hl
  have hd := link_dtor_live (by rw [g0]; decide) (g0.symm ▸ h2)
  rw [if_pos rfl, g0] at hd
  have hn2 : (setLink { s with heap := Function.update s.heap 2 none } 0 0).heap 2 = none := by
    show Function.update s.heap 2 none 2 = none
    rw [Function.update_same]
  have hn1 : (setLink { s with heap := Function.update s.heap 2 none } 0 0).heap 1 =
      some { prev := 4, next := 2, refs := 1, functor := none } := by
    show Function.update s.heap 2 none 1 = _
    rw [Function.update_noteq (by decide)]
    exact h1
  refine ⟨reach_ringABC, s, _, e, hd, hn2, by rw [nextOf, hn1]; rfl, ?_, ?_⟩
  · intro L hr
    have hnx : nextOf (setLink { s with heap := Function.update s.heap 2 none } 0 0).heap 1 =
        some 2 := by rw [nextOf, hn1]; rfl
    cases L with
    | nil =>
      have h3 : nextOf _ 1 = some 1 := hr.1.1
      rw [hnx] at h3
      cases h3
    | cons a L =>
      have h3 : nextOf _ 1 = some a := hr.1.1.1
      rw [hnx] at h3
      cases h3
      obtain ⟨N, _, h4, _⟩ := seg_first_adj L 2 1 hr.1.2
      rw [nextOf, hn2] at h4
      cases h4
  · intro prog fuel
    simp only [Slot.fire, readSock_ok hn1, ok_bind, invoke, readSock_dangling hn2, error_bind]

/-- C13: ring well-formedness is an invariant of every state reached from a
fresh `Slot` by `bind`, `Link` construction, copy, move, assignment, `~Link`,
`Link::release` and `~AutoLink`, as long as a `Link` is copied only while fewer
than `2^32 - 1` `Link` objects hold its node: the nodes with `prev != 0` are
exactly the nodes `L` met by following `next` from the sentinel until it comes
back to the sentinel, each met once; the sentinel is the only node of the cycle
without payload; and every node `n` of the cycle has `n.next.prev = n` and
`n.prev.next = n`. -/
theorem ring_well_formed_invariant (sl : Nat) (s : State) (h : Reach sl true s) :
    ∃ L, Ring s sl L ∧ Seg s.heap sl L sl ∧ (sl :: L).Nodup ∧
      (∀ p k, p ≠ sl → s.heap p = some k → (p ∈ L ↔ k.prev ≠ 0)) ∧
      (∀ n ∈ sl :: L, (functorOf s.heap n = some none ↔ n = sl)) ∧
      (∀ n ∈ sl :: L, ∃ k, s.heap n = some k ∧ k.next ∈ sl :: L ∧ k.prev ∈ sl :: L ∧
        prevOf s.heap k.next = some n ∧ nextOf s.heap k.prev = some n) := by
  obtain ⟨L, hi⟩ := reach_inv h
  have hr := hi.ring rfl
  refine ⟨L, hr, hr.1, hr.2.1, fun p k hp hk => inv_linked_iff hi hp hk, ?_,
    ring_neighbours hr⟩
  intro n hn
  constructor
  · intro hf
    rcases List.mem_cons.1 hn with e | hL
    · exact e
    · exfalso
      apply hr.2.2.2.2 n hL
      rw [hf]
      rfl
  · intro e
    rw [e]
    exact hr.2.2.2.1

theorem ring_well_formed_invariant_witness :
    Reach 1 true ringABCcopy ∧
    ∃ L, Ring ringABCcopy 1 L ∧ Seg ringABCcopy.heap 1 L 1 ∧ (1 :: L).Nodup ∧
      (∀ p k, p ≠ 1 → ringABCcopy.heap p = some k → (p ∈ L ↔ k.prev ≠ 0)) ∧
      (∀ n ∈ 1 :: L, (functorOf ringABCcopy.heap n = some none ↔ n = 1)) ∧
      (∀ n ∈ 1 :: L, ∃ k, ringABCcopy.heap n = some k ∧ k.next ∈ 1 :: L ∧
        k.prev ∈ 1 :: L ∧ prevOf ringABCcopy.heap k.next = some n ∧
        nextOf ringABCcopy.heap k.prev = some n) :=
  ⟨reach_ringABCcopy, ring_well_formed_invariant 1 ringABCcopy reach_ringABCcopy⟩

/-- C14, as the code behaves: the destructor of the only `Link` of a bound
handler lowers the count of its node from one to zero and does not destroy it: the node stays linked in
the ring, allocated, with `refs = 0`. -/
theorem refs_zero_while_linked :
    Reach 1 true ringABC ∧
    ringABC.heap 2 = some { prev := 1, next := 3, refs := 1, functor := some 7 } ∧
    linkCount ringABC 2 = 1 ∧
    ∃ s1, Link.dtor ringABC 0 = .ok s1 ∧ Reach 1 true s1 ∧
      s1.heap 2 = some { prev := 1, next := 3, refs := 0, functor := some 7 } ∧
      linkCount s1 2 = 0 ∧ Ring s1 1 [2, 3, 4] :=
  ⟨reach_ringABC, rfl, rfl, _, rfl, Reach.step (Op.dtor 0) reach_ringABC trivial rfl, rfl, rfl,
    by decide⟩

/-- C14: in every reachable state (a `Link` being copied only while fewer than
`2^32 - 1` `Link` objects hold its node) the stored count `refs` of a live
node is the number of its owners minus one, so it is zero exactly when one
owner is left: the ring with no `Link`, or one `Link` after detachment. A
discard (`~Link`, which calls `decref`) that finds the count at zero destroys
the node, and then the node was detached and that `Link` was the last one; a
discard that finds it positive lowers it by one and leaves the node
allocated. -/
theorem refs_zero_iff_one_owner (sl : Nat) (alive : Bool) (s : State)
    (h : Reach sl alive s) :
    (∀ p k, p ≠ sl → s.heap p = some k →
      (k.refs = 0 ↔ linkCount s p + (if k.prev ≠ 0 then 1 else 0) = 1)) ∧
    (∀ l k, getLink s l ≠ 0 → s.heap (getLink s l) = some k →
      Link.dtor s l = .ok (setLink (if k.refs = 0
        then { s with heap := Function.update s.heap (getLink s l) none }
        else writeSock s (getLink s l) { k with refs := k.refs - 1 }) l 0) ∧
      (k.refs = 0 → k.prev = 0 ∧ linkCount s (getLink s l) = 1)) := by
  obtain ⟨L, hi⟩ := reach_inv h
  constructor
  · intro p k hp hk
    have ho := inv_owned hi hp hk
    omega
  · intro l k h0 hk
    obtain ⟨hxs, _⟩ := inv_link_live hi rfl h0
    have ho := inv_owned hi hxs hk
    have hc := getLink_count rfl h0
    constructor
    · rw [link_dtor_live h0 hk]
      by_cases hz : k.refs = 0
      · rw [if_pos hz, if_pos hz]
      · rw [if_neg hz, if_neg hz, wdec_pos hz ho.2]
    · intro hz
      have h1 := ho.1
      by_cases hp : k.prev = 0
      · rw [if_neg (by simpa using hp)] at h1
        exact ⟨hp, by omega⟩
      · rw [if_pos hp] at h1
        omega

theorem refs_zero_iff_one_owner_witness :
    Reach 1 false tornABCcopy ∧
    (∀ p k, p ≠ 1 → tornABCcopy.heap p = some k →
      (k.refs = 0 ↔ linkCount tornABCcopy p + (if k.prev ≠ 0 then 1 else 0) = 1)) ∧
    (∀ l k, getLink tornABCcopy l ≠ 0 → tornABCcopy.heap (getLink tornABCcopy l) = some k →
      Link.dtor tornABCcopy l = .ok (setLink (if k.refs = 0
        then { tornABCcopy with
          heap := Function.update tornABCcopy.heap (getLink tornABCcopy l) none }
        else writeSock tornABCcopy (getLink tornABCcopy l) { k with refs := k.refs - 1 })
        l 0) ∧
      (k.refs = 0 → k.prev = 0 ∧ linkCount tornABCcopy (getLink tornABCcopy l) = 1)) :=
  ⟨reach_tornABCcopy, refs_zero_iff_one_owner 1 false tornABCcopy reach_tornABCcopy⟩

theorem inv_dead_iff {sl : Nat} {alive : Bool} {s : State} {L : List Nat}
    (hi : InvL sl alive s L) {p : Nat} (hp : p ≠ sl) (hz : p ≠ 0) :
    s.heap p = none ↔ owners s L p = 0 := by
  have h := inv_live_iff hi hp hz
  constructor
  · intro hn
    by_contra c
    obtain ⟨k, hk⟩ := h.2 (by omega)
    rw [hn] at hk
    cases hk
  · intro ho
    cases hk : s.heap p with
    | none => rfl
    | some k =>
      have := h.1 ⟨k, hk⟩
      omega

theorem set_getD_self : ∀ (ls : List Nat) (l : Nat), ls.set l (ls.getD l 0) = ls := by
  intro ls
  induction ls with
  | nil => intro l; rfl
  | cons a ls ih =>
    intro l
    cases l with
    | zero => rfl
    | succ l =>
      show a :: ls.set l (ls.getD l 0) = a :: ls
      rw [ih l]

/-- C15, as the code behaves: after `2^32 - 1` copies of one `Link` the count of
its node has wrapped to zero; the destructor of one of the copies then destroys the node although it
is linked in the ring and `2^32 - 1` other `Link` objects still hold it, and
the destructor of one of those dereferences the destroyed node. -/
theorem copies_destroy_held_node :
    Reach 1 true ringABC ∧ ∃ s s1, copyN 0 4294967295 ringABC = .ok s ∧
      Link.dtor s 3 = .ok s1 ∧ Ring s 1 [2, 3, 4] ∧ prevOf s.heap 2 = some 1 ∧
      s1.heap 2 = none ∧ linkCount s1 2 = 4294967295 ∧ getLink s1 0 = 2 ∧
      Link.dtor s1 0 = .error .dangling := by
  obtain ⟨s, e, hh, hl, _, _⟩ := wrap_state
  obtain ⟨h2, h1, g0, g3, hc, hr⟩ := wrap_state_facts hh hl
  have hd := link_dtor_live (by rw [g3]; decide) (g3.symm ▸ h2)
  rw [if_pos rfl, g3] at hd
  obtain ⟨s1, hs1⟩ : ∃ s1, s1 = setLink { s with heap := Function.update s.heap 2 none } 3 0 :=
    ⟨_, rfl⟩
  rw [← hs1] at hd
  have hn2 : s1.heap 2 = none := by
    rw [hs1]
    show Function.update s.heap 2 none 2 = none
    rw [Function.update_same]
  have hg : getLink s1 0 = 2 := by
    rw [hs1, getLink_setLink_ne _ 0 (by decide)]
    exact g0
  refine ⟨reach_ringABC, s, s1, e, hd, hr, by rw [prevOf, h2]; rfl, hn2, ?_, hg, ?_⟩
  · have h3 := count_set_zero (x := 2) (by decide) s.links 3 g3
    unfold linkCount at hc ⊢
    rw [hs1]
    show (s.links.set 3 0).count 2 = 4294967295
    omega
  · have hn : s1.heap (getLink s1 0) = none := by rw [hg]; exact hn2
    simp only [Link.dtor, hg, ne_eq, OfNat.ofNat_ne_zero, not_false_eq_true, if_true,
      Socket.decref, readSock_dangling hn2, error_bind]

/-- C15: in every reachable state (a `Link` being copied only while fewer than
`2^32 - 1` `Link` objects hold its node) a node other than the sentinel is
allocated exactly when it has an owner, the owners being the ring (for the
nodes linked in it, those with `prev != 0`) and the non-empty `Link` objects
that hold it. So a node is not destroyed while it is linked or held, and a node
that is detached with no `Link` left is not allocated. Every client operation
returns, never touching a destroyed node, leads to a state of which the same
holds, and leaves destroyed nodes destroyed: the nodes it destroys are those
whose last owner it removes. The same holds of `~Slot`. -/
theorem node_destroyed_with_last_owner (sl : Nat) (alive : Bool) (s : State)
    (h : Reach sl alive s) :
    ∃ L, (alive = true → Ring s sl L) ∧ (alive = false → L = [] ∧ s.heap sl = none) ∧
      (∀ p k, p ≠ sl → s.heap p = some k → (p ∈ L ↔ k.prev ≠ 0)) ∧
      (∀ p, p ≠ sl → p ≠ 0 → ((∃ k, s.heap p = some k) ↔ 1 ≤ owners s L p)) ∧
      (∀ op : Op, op.ok alive s → ∃ s1 L1, op.exec sl s = .ok s1 ∧ Reach sl alive s1 ∧
        (alive = true → Ring s1 sl L1) ∧ (alive = false → L1 = []) ∧
        (∀ p, p ≠ sl → p ≠ 0 → (s1.heap p = none ↔ owners s1 L1 p = 0)) ∧
        (∀ p, p < s.brk → s.heap p = none → s1.heap p = none)) ∧
      (alive = true → ∃ s1, (∀ n, Slot.dtor sl (n + L.length + 1) s = .ok s1) ∧
        Reach sl false s1 ∧ s1.heap sl = none ∧
        (∀ p, p ≠ sl → p ≠ 0 → (s1.heap p = none ↔ linkCount s1 p = 0)) ∧
        (∀ p, s.heap p = none → s1.heap p = none)) := by
  obtain ⟨L, hi⟩ := reach_inv h
  refine ⟨L, hi.ring, hi.gone, fun p k hp hk => inv_linked_iff hi hp hk,
    fun p hp hz => inv_live_iff hi hp hz, ?_, ?_⟩
  · intro op hok
    obtain ⟨s1, L1, e1, hi1, hm⟩ := step_safe hi op hok
    refine ⟨s1, L1, e1, Reach.step op h hok e1, hi1.ring, fun c => (hi1.gone c).1,
      fun p hp hz => inv_dead_iff hi1 hp hz, hm⟩
  · intro ha
    subst ha
    obtain ⟨s1, e1, hi1, hm⟩ := step_teardown hi
    refine ⟨s1, e1, Reach.teardown _ h (e1 0), (hi1.gone rfl).2, ?_, hm⟩
    intro p hp hz
    have h2 := inv_dead_iff hi1 hp hz
    unfold owners at h2
    rw [if_neg (by simp), Nat.add_zero] at h2
    exact h2

theorem node_destroyed_with_last_owner_witness :
    Reach 1 true ringABCcopy ∧
    ∃ L, (true = true → Ring ringABCcopy 1 L) ∧
      (true = false → L = [] ∧ ringABCcopy.heap 1 = none) ∧
      (∀ p k, p ≠ 1 → ringABCcopy.heap p = some k → (p ∈ L ↔ k.prev ≠ 0)) ∧
      (∀ p, p ≠ 1 → p ≠ 0 →
        ((∃ k, ringABCcopy.heap p = some k) ↔ 1 ≤ owners ringABCcopy L p)) ∧
      (∀ op : Op, op.ok true ringABCcopy → ∃ s1 L1, op.exec 1 ringABCcopy = .ok s1 ∧
        Reach 1 true s1 ∧
        (true = true → Ring s1 1 L1) ∧ (true = false → L1 = []) ∧
        (∀ p, p ≠ 1 → p ≠ 0 → (s1.heap p = none ↔ owners s1 L1 p = 0)) ∧
        (∀ p, p < ringABCcopy.brk → ringABCcopy.heap p = none → s1.heap p = none)) ∧
      (true = true → ∃ s1, (∀ n, Slot.dtor 1 (n + L.length + 1) ringABCcopy = .ok s1) ∧
        Reach 1 false s1 ∧ s1.heap 1 = none ∧
        (∀ p, p ≠ 1 → p ≠ 0 → (s1.heap p = none ↔ linkCount s1 p = 0)) ∧
        (∀ p, ringABCcopy.heap p = none → s1.heap p = none)) :=
  ⟨reach_ringABCcopy, node_destroyed_with_last_owner 1 true ringABCcopy reach_ringABCcopy⟩

/-- C19, as the code behaves: after `2^32 - 1` copies of the `Link` of a bound
handler the count of its node has wrapped to zero while `2^32` `Link` objects hold it and it is linked:
the ownership equation fails, and `release()` on one of the `Link` objects
executes `refs--` with `refs = 0`, which wraps to `2^32 - 1`. -/
theorem copies_wrap_count :
    Reach 1 true ringABC ∧ ∃ s, copyN 0 4294967295 ringABC = .ok s ∧
      s.heap 2 = some { prev := 1, next := 3, refs := 0, functor := some 7 } ∧
      linkCount s 2 = 4294967296 ∧ ¬ Owned s 2 ∧
      ∃ s2, Link.release s 0 = .ok s2 ∧ refsOf s2.heap 2 = some 4294967294 := by
  obtain ⟨s, e, hh, hl, _, _⟩ := wrap_state
  obtain ⟨h2, h1, g0, g3, hc, hr⟩ := wrap_state_facts hh hl
  refine ⟨reach_ringABC, s, e, h2, hc, ?_, ?_⟩
  · unfold Owned
    rw [h2]
    intro c
    have c1 := c.1
    rw [hc] at c1
    simp at c1
  · have hr2 : Ring s 1 ([] ++ 2 :: [3, 4]) := hr
    obtain ⟨s2, e2, _, _, _, _, _, _, hx, _⟩ := link_release_ring hr2 g0 h2
    refine ⟨s2, e2, ?_⟩
    have hw : wdec 0 = 4294967295 := by norm_num [wdec]
    have hw2 : wdec 4294967295 = 4294967294 := by norm_num [wdec]
    rw [refsOf, hx]
    simp only [hw, hw2]
    rfl

/-- C19: in every state reached from a fresh `Slot` by `bind`, `Link`
construction, copy, move, assignment (also of a `Link` to itself), `~Link`,
`Link::release`, `~AutoLink` and `~Slot`, a `Link` being copied only while
fewer than `2^32 - 1` `Link` objects hold its node, every live node other than
the sentinel satisfies `refs + 1 = (number of Links holding it) + (1 if
prev != 0 else 0)` with `refs < 2^32`. So `Link::release` on a linked node
executes `refs--` with `refs >= 1`, a permitted copy executes `refs++` below
`2^32 - 1`, and neither wraps; the operations return and keep the equation. -/
theorem ownership_count_invariant (sl : Nat) (alive : Bool) (s : State)
    (h : Reach sl alive s) :
    (∀ p k, p ≠ sl → s.heap p = some k → Owned s p) ∧
    (∀ l k, getLink s l ≠ 0 → s.heap (getLink s l) = some k → k.prev ≠ 0 →
      1 ≤ k.refs ∧ wdec k.refs = k.refs - 1) ∧
    (∀ l k, getLink s l ≠ 0 → s.heap (getLink s l) = some k →
      linkCount s (getLink s l) + 1 < 4294967296 → winc k.refs = k.refs + 1) ∧
    (∀ op : Op, op.ok alive s → ∃ s1, op.exec sl s = .ok s1 ∧
      ∀ p k, p ≠ sl → s1.heap p = some k → Owned s1 p) ∧
    (∀ l, l < s.links.length →
      (getLink s l ≠ 0 → linkCount s (getLink s l) + 1 < 4294967296) →
      ∃ s1, Link.assign s l l = .ok s1 ∧ s1.heap = s.heap ∧
        ∀ p, linkCount s1 p = linkCount s p) := by
  obtain ⟨L, hi⟩ := reach_inv h
  refine ⟨fun p k hp hk => owned_of hk (inv_owned hi hp hk), ?_, ?_, ?_, ?_⟩
  · intro l k h0 hk hp
    obtain ⟨hxs, _⟩ := inv_link_live hi rfl h0
    have ho := inv_owned hi hxs hk
    have hc := getLink_count rfl h0
    have h1 := ho.1
    rw [if_pos hp] at h1
    have hz : k.refs ≠ 0 := by omega
    exact ⟨by omega, wdec_pos hz ho.2⟩
  · intro l k h0 hk hg
    obtain ⟨hxs, _⟩ := inv_link_live hi rfl h0
    have ho := inv_owned hi hxs hk
    have h1 := ho.1
    apply winc_lt
    split_ifs at h1 <;> omega
  · intro op hok
    obtain ⟨s1, L1, e1, hi1, _⟩ := step_safe hi op hok
    exact ⟨s1, e1, fun p k hp hk => owned_of hk (inv_owned hi1 hp hk)⟩
  · intro l hl hg
    have hset : s.links.set l (getLink s l) = s.links := by
      unfold getLink
      exact set_getD_self s.links l
    by_cases h0 : getLink s l = 0
    · have e := @link_assign_eq s s s l l
        (by simp only [h0, ne_eq, not_true_eq_false, if_false, pure_ok]) rfl
        (by simp only [h0, ne_eq, not_true_eq_false, if_false, pure_ok]) rfl
      refine ⟨_, e, rfl, ?_⟩
      intro p
      show (s.links.set l (getLink s l)).count p = s.links.count p
      rw [hset]
    · obtain ⟨hxs, k, hk⟩ := inv_link_live hi rfl h0
      have ho := inv_owned hi hxs hk
      have hlt : k.refs + 1 < 4294967296 := by
        have h1 := ho.1
        have h2 := hg h0
        split_ifs at h1 <;> omega
      obtain ⟨s1, hs1⟩ : ∃ s1, s1 = writeSock s (getLink s l)
        { k with refs := winc k.refs } := ⟨_, rfl⟩
      have e1 : (if getLink s l ≠ 0 then Socket.incref s (getLink s l) else pure s) =
          .ok s1 := by
        simp only [ne_eq, h0, not_false_eq_true, if_true, Socket.incref, readSock_ok hk,
          ok_bind, pure_ok, hs1]
      have hl1 : s1.links = s.links := by rw [hs1]; rfl
      have hh1 : s1.heap = Function.update s.heap (getLink s l)
          (some { k with refs := winc k.refs }) := by rw [hs1]; rfl
      have hk1 : s1.heap (getLink s l) = some { k with refs := winc k.refs } := by
        rw [hh1, Function.update_same]
      have hwz : winc k.refs ≠ 0 := by rw [winc_lt hlt]; omega
      have e := @link_assign_eq s s1
        (writeSock s1 (getLink s l) { k with refs := wdec (winc k.refs) }) l l e1 hl1
        (by simp only [h0, ne_eq, not_false_eq_true, if_true, socket_decref_pos hk1 hwz]) hl1
      refine ⟨_, e, ?_, ?_⟩
      · show Function.update s1.heap (getLink s l) _ = _
        rw [hh1, Function.update_idem]
        show Function.update s.heap (getLink s l)
          (some { k with refs := wdec (winc k.refs) }) = _
        rw [wdec_winc hlt, ← hk]
        exact Function.update_eq_self _ _
      · intro p
        show (s1.links.set l (getLink s l)).count p = s.links.count p
        rw [hl1, hset]

theorem ownership_count_invariant_witness :
    Reach 1 false tornABCcopy ∧
    ((∀ p k, p ≠ 1 → tornABCcopy.heap p = some k → Owned tornABCcopy p) ∧
    (∀ l k, getLink tornABCcopy l ≠ 0 → tornABCcopy.heap (getLink tornABCcopy l) = some k →
      k.prev ≠ 0 → 1 ≤ k.refs ∧ wdec k.refs = k.refs - 1) ∧
    (∀ l k, getLink tornABCcopy l ≠ 0 → tornABCcopy.heap (getLink tornABCcopy l) = some k →
      linkCount tornABCcopy (getLink tornABCcopy l) + 1 < 4294967296 →
      winc k.refs = k.refs + 1) ∧
    (∀ op : Op, op.ok false tornABCcopy → ∃ s1, op.exec 1 tornABCcopy = .ok s1 ∧
      ∀ p k, p ≠ 1 → s1.heap p = some k → Owned s1 p) ∧
    (∀ l, l < tornABCcopy.links.length →
      (getLink tornABCcopy l ≠ 0 →
        linkCount tornABCcopy (getLink tornABCcopy l) + 1 < 4294967296) →
      ∃ s1, Link.assign tornABCcopy l l = .ok s1 ∧ s1.heap = tornABCcopy.heap ∧
        ∀ p, linkCount s1 p = linkCount tornABCcopy p)) :=
  ⟨reach_tornABCcopy, ownership_count_invariant 1 false tornABCcopy reach_tornABCcopy⟩

/-! ## Operations on a count that has wrapped, or is about to -/

/-- The state after `n` copies of the `Link` returned by the first `bind` of
`ringABC`: the stored count of node 2 is `(1 + n) mod 2^32`. -/
theorem copies_state (n r : Nat) (hr : (1 + n) % 4294967296 = r) :
    ∃ s, copyN 0 n ringABC = .ok s ∧
      s.heap = Function.update ringABC.heap 2
        (some { prev := 1, next := 3, refs := r, functor := some 7 }) ∧
      s.links = [2, 3, 4] ++ List.replicate n 2 ∧ s.brk = 5 ∧ s.trace = [] := by
  have hk : ringABC.heap (getLink ringABC 0) =
      some { prev := 1, next := 3, refs := 1, functor := some 7 } := rfl
  obtain ⟨s, e, h1, l1, b1, t1⟩ := copyN_spec 0 n ringABC _ (by decide) hk (by norm_num)
  refine ⟨s, e, ?_, l1, b1, t1⟩
  rw [h1, ← hr]
  rfl

theorem copies_facts {s : State} {n r : Nat}
    (hh : s.heap = Function.update ringABC.heap 2
      (some { prev := 1, next := 3, refs := r, functor := some 7 }))
    (hl : s.links = [2, 3, 4] ++ List.replicate n 2) :
    s.heap 2 = some { prev := 1, next := 3, refs := r, functor := some 7 } ∧
    (∀ a, a ≠ 2 → s.heap a = ringABC.heap a) ∧
    getLink s 0 = 2 ∧ getLink s 1 = 3 ∧ linkCount s 2 = n + 1 ∧
    Ring s 1 [2, 3, 4] := by
  have h2 : s.heap 2 = some { prev := 1, next := 3, refs := r, functor := some 7 } := by
    rw [hh, Function.update_same]
  have hne : ∀ a, a ≠ 2 → s.heap a = ringABC.heap a := by
    intro a ha
    rw [hh, Function.update_noteq ha]
  refine ⟨h2, hne, ?_, ?_, ?_, ?_⟩
  · unfold getLink
    rw [hl]
    rfl
  · unfold getLink
    rw [hl]
    rfl
  · unfold linkCount
    rw [hl, List.count_append, List.count_replicate_self]
    have h1 : List.count 2 [2, 3, 4] = 1 := rfl
    omega
  · have hr : Ring ringABC 1 [2, 3, 4] := by decide
    apply ring_frame hr
    · intro a _
      by_cases e : a = 2
      · subst e; rw [nextOf, h2]; rfl
      · rw [nextOf, hne a e]; rfl
    · intro a _
      by_cases e : a = 2
      · subst e; rw [prevOf, h2]; rfl
      · rw [prevOf, hne a e]; rfl
    · intro a _
      by_cases e : a = 2
      · subst e; rw [functorOf, h2]; rfl
      · rw [functorOf, hne a e]; rfl

/-- A ring in which the first node has been destroyed is not well formed, and
`fire` on it dereferences the destroyed node. -/
theorem dangling_first {s : State} {sl a : Nat} {ksl : Socket} (hsl : s.heap sl = some ksl)
    (hn : ksl.next = a) (ha : s.heap a = none) (hne : a ≠ sl) :
    (∀ L, ¬ Ring s sl L) ∧
    ∀ (prog : Nat → List Action) (fuel : Nat),
      Slot.fire prog (fuel + 1) s sl = .error .dangling := by
  have hnx : nextOf s.heap sl = some a := by rw [nextOf, hsl, ← hn]; rfl
  constructor
  · intro L hr
    cases L with
    | nil =>
      have h3 : nextOf s.heap sl = some sl := hr.1.1
      rw [hnx] at h3
      exact hne (Option.some.inj h3)
    | cons b L =>
      have h3 : nextOf s.heap sl = some b := hr.1.1.1
      rw [hnx] at h3
      have hb : a = b := Option.some.inj h3
      subst hb
      obtain ⟨N, _, h4, _⟩ := seg_first_adj L a sl hr.1.2
      rw [nextOf, ha] at h4
      cases h4
  · intro prog fuel
    simp only [Slot.fire, readSock_ok hsl, ok_bind, hn, invoke, readSock_dangling ha,
      error_bind]

/-- C6, as the code behaves: after `2^32` copies of the `Link` held by an
`AutoLink` the count of its node has wrapped back to one; destroying the
`AutoLink` then destroys the node although `2^32` other `Link` objects still
refer to it. -/
theorem copies_autolink_destroys_held_node :
    Reach 1 true ringABC ∧ ∃ s s1, copyN 0 4294967296 ringABC = .ok s ∧
      Ring s 1 ([] ++ 2 :: [3, 4]) ∧ getLink s 0 = 2 ∧ linkCount s 2 = 4294967296 + 1 ∧
      AutoLink.dtor s 0 = .ok s1 ∧ s1.heap 2 = none ∧ linkCount s1 2 = 4294967296 := by
  obtain ⟨s, e, hh, hl, _, _⟩ := copies_state 4294967296 1 (by norm_num)
  obtain ⟨h2, _, g0, _, hc, hr⟩ := copies_facts hh hl
  have hr2 : Ring s 1 ([] ++ 2 :: [3, 4]) := hr
  obtain ⟨s1, e1, _, _, l1, _, _, _, hx, _⟩ := link_release_ring hr2 g0 h2
  have hl1 : getLink s1 0 = 0 := by
    unfold getLink
    rw [l1]
    exact getLink_setLink_self s 0 0 rfl
  have hw : wdec 1 = 0 := by norm_num [wdec]
  refine ⟨reach_ringABC, s, s1, e, hr2, g0, hc, ?_, ?_, ?_⟩
  · simp only [AutoLink.dtor, e1, ok_bind, link_dtor_empty hl1]
  · rw [hx]
    exact if_pos hw
  · have h3 := count_set_zero (x := 2) (by decide) s.links 0 g0
    unfold linkCount at hc ⊢
    rw [l1]
    omega

/-- C7, as the code behaves: after `2^32 - 1` copies of one `Link` and the
destructor of one of the copies, the node is destroyed while the other `Link`
objects still refer to it and while it is the predecessor of a linked node;
`release()` on a `Link` to it, and on the `Link` to its successor, then
dereferences the destroyed node. -/
theorem release_after_wrap_faults :
    Reach 1 true ringABC ∧ ∃ s s1, copyN 0 4294967295 ringABC = .ok s ∧
      Link.dtor s 3 = .ok s1 ∧ getLink s1 0 = 2 ∧ getLink s1 1 = 3 ∧
      Link.release s1 0 = .error .dangling ∧ Link.release s1 1 = .error .dangling := by
  obtain ⟨s, e, hh, hl, _, _⟩ := wrap_state
  obtain ⟨h2, _, g0, g3, _, _⟩ := wrap_state_facts hh hl
  obtain ⟨_, hne, _, g1, _, _⟩ := copies_facts hh hl
  have hd := link_dtor_live (by rw [g3]; decide) (g3.symm ▸ h2)
  rw [if_pos rfl, g3] at hd
  obtain ⟨s1, hs1⟩ : ∃ s1, s1 = setLink { s with heap := Function.update s.heap 2 none } 3 0 :=
    ⟨_, rfl⟩
  rw [← hs1] at hd
  have hn2 : s1.heap 2 = none := by
    rw [hs1]
    show Function.update s.heap 2 none 2 = none
    rw [Function.update_same]
  have hn3 : s1.heap 3 = some { prev := 2, next := 4, refs := 1, functor := some 8 } := by
    rw [hs1]
    show Function.update s.heap 2 none 3 = _
    rw [Function.update_noteq (by decide), hne 3 (by decide)]
    rfl
  have hg0 : getLink s1 0 = 2 := by
    rw [hs1, getLink_setLink_ne _ 0 (by decide)]
    exact g0
  have hg1 : getLink s1 1 = 3 := by
    rw [hs1, getLink_setLink_ne _ 0 (by decide)]
    exact g1
  refine ⟨reach_ringABC, s, s1, e, hd, hg0, hg1, ?_, ?_⟩
  · simp only [Link.release, hg0, ne_eq, OfNat.ofNat_ne_zero, not_false_eq_true, if_true,
      Socket.release, readSock_dangling hn2, error_bind]
  · simp only [Link.release, hg1, ne_eq, OfNat.ofNat_ne_zero, not_false_eq_true, if_true,
      Socket.release, readSock_ok hn3, ok_bind, setNext, readSock_dangling hn2, error_bind]

/-- C8, as the code behaves: after `2^32 - 2` copies of a `Link` the count of
its node is `2^32 - 1` and the ownership equation holds. One more copy wraps
the count to zero, and discarding the original then destroys the node while it
is linked and while the copy holds it: the ring is no longer well formed and
the next fire dereferences the destroyed node. -/
theorem copy_then_discard_destroys_node :
    Reach 1 true ringABC ∧ ∃ s s1 c s2, copyN 0 4294967294 ringABC = .ok s ∧
      Ring s 1 [2, 3, 4] ∧ getLink s 0 = 2 ∧ Owned s 2 ∧
      Link.copy s 0 = .ok (s1, c) ∧ Link.dtor s1 0 = .ok s2 ∧ getLink s2 c = 2 ∧
      s2.heap 2 = none ∧ (∀ L, ¬ Ring s2 1 L) ∧
      ∀ (prog : Nat → List Action) (fuel : Nat),
        Slot.fire prog (fuel + 1) s2 1 = .error .dangling := by
  obtain ⟨s, e, hh, hl, _, _⟩ := copies_state 4294967294 4294967295 (by norm_num)
  obtain ⟨h2, hne, g0, _, hc, hr⟩ := copies_facts hh hl
  have hg0 : getLink s 0 ≠ 0 := by rw [g0]; decide
  have hcp := link_copy_live hg0 (g0.symm ▸ h2)
  rw [g0] at hcp
  obtain ⟨s1, hs1⟩ : ∃ s1, s1 = writeSock { s with links := s.links ++ [2] } 2
    { prev := 1, next := 3, refs := winc 4294967295, functor := some 7 } := ⟨_, rfl⟩
  have hcp1 : Link.copy s 0 = .ok (s1, s.links.length) := by rw [hs1]; exact hcp
  have hw : winc 4294967295 = 0 := by norm_num [winc]
  have hh1 : s1.heap = Function.update s.heap 2
      (some { prev := 1, next := 3, refs := 0, functor := some 7 }) := by
    rw [hs1, hw]
    rfl
  have h12 : s1.heap 2 = some { prev := 1, next := 3, refs := 0, functor := some 7 } := by
    rw [hh1, Function.update_same]
  have h11 : s1.heap 1 = some { prev := 4, next := 2, refs := 1, functor := none } := by
    rw [hh1, Function.update_noteq (by decide), hne 1 (by decide)]
    rfl
  have hlen : 0 < s.links.length := by
    rw [hl, List.length_append]
    exact Nat.add_pos_left (by decide) _
  have hg10 : getLink s1 0 = 2 := by
    rw [hs1]
    show (s.links ++ [2]).getD 0 0 = 2
    rw [List.getD_eq_getElem?_getD, List.getElem?_append_left hlen,
      ← List.getD_eq_getElem?_getD]
    exact g0
  have hg1c : getLink s1 s.links.length = 2 := by
    rw [hs1]
    show (s.links ++ [2]).getD s.links.length 0 = 2
    rw [List.getD_eq_getElem?_getD, List.getElem?_append_right (le_refl _)]
    simp
  have hd := link_dtor_live (by rw [hg10]; decide) (hg10.symm ▸ h12)
  rw [if_pos rfl, hg10] at hd
  obtain ⟨s2, hs2⟩ : ∃ s2, s2 = setLink { s1 with heap := Function.update s1.heap 2 none }
    0 0 := ⟨_, rfl⟩
  rw [← hs2] at hd
  have hn2 : s2.heap 2 = none := by
    rw [hs2]
    show Function.update s1.heap 2 none 2 = none
    rw [Function.update_same]
  have hn1 : s2.heap 1 = some { prev := 4, next := 2, refs := 1, functor := none } := by
    rw [hs2]
    show Function.update s1.heap 2 none 1 = _
    rw [Function.update_noteq (by decide)]
    exact h11
  have hgc : getLink s2 s.links.length = 2 := by
    rw [hs2, getLink_setLink_ne _ 0 (by omega)]
    exact hg1c
  have hown : Owned s 2 := by
    apply owned_of h2
    rw [hc]
    exact ⟨by norm_num, by norm_num⟩
  obtain ⟨hno, hfire⟩ := dangling_first hn1 rfl hn2 (by decide)
  exact ⟨reach_ringABC, s, s1, s.links.length, s2, e, hr, g0, hown, hcp1, hd, hgc, hn2, hno,
    hfire⟩

/-- C9, as the code behaves: after `2^32 - 1` copies of one `Link` the count of
its node has wrapped to zero; `~Slot` then destroys the node although `2^32`
`Link` objects still refer to it, and `release()` on one of them dereferences
the destroyed node. -/
theorem teardown_destroys_held_node :
    Reach 1 true ringABC ∧ ∃ s s1, copyN 0 4294967295 ringABC = .ok s ∧
      Ring s 1 [2, 3, 4] ∧ linkCount s 2 = 4294967296 ∧
      (∀ n, Slot.dtor 1 (n + [2, 3, 4].length + 1) s = .ok s1) ∧
      s1.heap 2 = none ∧ linkCount s1 2 = 4294967296 ∧ getLink s1 0 = 2 ∧
      Link.release s1 0 = .error .dangling ∧ Link.dtor s1 0 = .error .dangling := by
  obtain ⟨s, e, hh, hl, _, _⟩ := wrap_state
  obtain ⟨h2, _, g0, _, hc, hr⟩ := wrap_state_facts hh hl
  obtain ⟨s1, e1, _, l1, _, _, hL, _⟩ := slot_dtor_spec hr
  have hn2 : s1.heap 2 = none := by
    rw [hL 2 (by simp) _ h2]
    exact if_pos rfl
  have hg : getLink s1 0 = 2 := by
    unfold getLink
    rw [l1]
    exact g0
  refine ⟨reach_ringABC, s, s1, e, hr, hc, e1, hn2, ?_, hg, ?_, ?_⟩
  · unfold linkCount
    rw [l1]
    exact hc
  · simp only [Link.release, hg, ne_eq, OfNat.ofNat_ne_zero, not_false_eq_true, if_true,
      Socket.release, readSock_dangling hn2, error_bind]
  · simp only [Link.dtor, hg, ne_eq, OfNat.ofNat_ne_zero, not_false_eq_true, if_true,
      Socket.decref, readSock_dangling hn2, error_bind]

/-- C18, as the code behaves: after `2^32 - 1` copies of one `Link` the count
of its node has wrapped to zero; the loop of `~Slot` destroys that node, which
`2^32` `Link` objects refer to, while the nodes held by one `Link` each are
left allocated with `prev = 0` and their count one lower. -/
theorem teardown_wrapped_node_destroyed :
    Reach 1 true ringABC ∧ ∃ s s1, copyN 0 4294967295 ringABC = .ok s ∧
      Ring s 1 [2, 3, 4] ∧ linkCount s 2 = 4294967296 ∧ linkCount s 3 = 1 ∧
      (∀ n, Slot.dtorLoop 1 (n + [2, 3, 4].length + 1) s = .ok s1) ∧
      s1.heap 2 = none ∧
      s1.heap 3 = some { prev := 0, next := 4, refs := 0, functor := some 8 } := by
  obtain ⟨s, e, hh, hl, _, _⟩ := wrap_state
  obtain ⟨h2, _, g0, _, hc, hr⟩ := wrap_state_facts hh hl
  obtain ⟨_, hne, _, _, _, _⟩ := copies_facts hh hl
  obtain ⟨s1, e1, _, _, _, _, hL, _⟩ :=
    dtorLoop_spec 1 [2, 3, 4] s (seg_fwd [2, 3, 4] 1 1 hr.1) hr.2.1 hr.live
  have h3 : s.heap 3 = some { prev := 2, next := 4, refs := 1, functor := some 8 } := by
    rw [hne 3 (by decide)]
    rfl
  refine ⟨reach_ringABC, s, s1, e, hr, hc, ?_, e1, ?_, ?_⟩
  · unfold linkCount
    rw [hl, List.count_append, List.count_replicate]
    rfl
  · rw [hL 2 (by simp) _ h2]
    exact if_pos rfl
  · rw [hL 3 (by simp) _ h3]
    rfl

/-! ## Claims on single operations, from reachable states -/

theorem reach_owned {sl : Nat} {alive : Bool} {s : State} (h : Reach sl alive s)
    {L : List Nat} (hr : Ring s sl L) {x : Nat} (hx : x ∈ L) : Owned s x := by
  obtain ⟨L2, hi⟩ := reach_inv h
  obtain ⟨kx, hkx⟩ := hr.live x (List.mem_cons_of_mem _ hx)
  have hxs : x ≠ sl := by
    intro e
    subst e
    exact (List.nodup_cons.1 hr.2.1).1 hx
  exact owned_of hkx (inv_owned hi hxs hkx)

/-- C6: destroying an `AutoLink` that wraps a handle to an attached handler
detaches the node, whatever its count: the destructor returns, the ring is the
old one without the node, and the very next fire does not invoke that handler
and invokes every other attached handler once, in order. In a reachable state
(a `Link` being copied only while fewer than `2^32 - 1` `Link` objects hold
its node), with `k` other `Link` objects referring to the node, the node is
destroyed at that point iff `k = 0`; otherwise it stays allocated, detached,
with count `k - 1`. -/
theorem autolink_dtor_detaches_reach :
    (∀ (prog : Nat → List Action) (s : State) (sl a x : Nat) (L1 L2 : List Nat),
      Ring s sl (L1 ++ x :: L2) → getLink s a = x →
      (∀ t ∈ tagsOf s.heap (L1 ++ L2), prog t = []) →
      ∃ s1, AutoLink.dtor s a = .ok s1 ∧ Ring s1 sl (L1 ++ L2) ∧ getLink s1 a = 0 ∧
        linkCount s1 x + 1 = linkCount s x ∧
        ∀ n, Slot.fire prog (n + (L1 ++ L2).length + 1) s1 sl =
          .ok { s1 with trace := s1.trace ++ tagsOf s.heap (L1 ++ L2) }) ∧
    (∀ (s : State) (sl a x k : Nat) (L1 L2 : List Nat), Reach sl true s →
      Ring s sl (L1 ++ x :: L2) → getLink s a = x → linkCount s x = k + 1 →
      ∃ s1, AutoLink.dtor s a = .ok s1 ∧ Reach sl true s1 ∧ Ring s1 sl (L1 ++ L2) ∧
        (s1.heap x = none ↔ k = 0) ∧ linkCount s1 x = k ∧
        (k ≠ 0 → prevOf s1.heap x = some 0 ∧ refsOf s1.heap x = some (k - 1))) := by
  constructor
  · intro prog s sl a x L1 L2 hr ha hp
    obtain ⟨kx, hkx⟩ := hr.live x (by simp)
    have hx0 : x ≠ 0 := by
      intro e
      apply hr.2.2.1
      simp [e]
    obtain ⟨s1, e1, hr1, b1, l1, t1, f1, r1, hx1, g1⟩ := link_release_ring hr ha hkx
    have hl1 : getLink s1 a = 0 := by
      unfold getLink
      rw [l1]
      exact getLink_setLink_self s a 0 rfl
    refine ⟨s1, ?_, hr1, hl1, ?_, ?_⟩
    · simp only [AutoLink.dtor, e1, ok_bind, link_dtor_empty hl1]
    · have h3 := count_set_zero hx0 s.links a ha
      unfold linkCount
      rw [l1]
      exact h3
    · intro n
      have h3 := fire_passive prog hr1 (by rw [g1]; exact hp) n
      rw [g1] at h3
      exact h3
  · intro s sl a x k L1 L2 h hr ha hcnt
    have hown : Owned s x := reach_owned h hr (by simp)
    obtain ⟨s1, e1, hr1, _, hiff, hc1, hk1⟩ :=
      autolink_dtor_detaches (fun _ => []) s sl a x k L1 L2 hr ha hown hcnt (fun _ _ => rfl)
    exact ⟨s1, e1, Reach.step (Op.autoDtor a) h trivial e1, hr1, hiff, hc1, hk1⟩

theorem autolink_dtor_detaches_reach_witness :
    (Ring ringABCcopy 1 ([2] ++ 3 :: [4]) ∧ getLink ringABCcopy 3 = 3 ∧
      ∃ s1, AutoLink.dtor ringABCcopy 3 = .ok s1 ∧ Ring s1 1 ([2] ++ [4]) ∧
        getLink s1 3 = 0 ∧ linkCount s1 3 + 1 = linkCount ringABCcopy 3 ∧
        ∀ n, Slot.fire (fun _ => []) (n + ([2] ++ [4]).length + 1) s1 1 =
          .ok { s1 with trace := s1.trace ++ tagsOf ringABCcopy.heap ([2] ++ [4]) }) ∧
    (Reach 1 true ringABCcopy ∧ Ring ringABCcopy 1 ([2] ++ 3 :: [4]) ∧
      getLink ringABCcopy 3 = 3 ∧ linkCount ringABCcopy 3 = 1 + 1 ∧
      ∃ s1, AutoLink.dtor ringABCcopy 3 = .ok s1 ∧ Reach 1 true s1 ∧
        Ring s1 1 ([2] ++ [4]) ∧ (s1.heap 3 = none ↔ 1 = 0) ∧ linkCount s1 3 = 1 ∧
        (1 ≠ 0 → prevOf s1.heap 3 = some 0 ∧ refsOf s1.heap 3 = some (1 - 1))) :=
  ⟨⟨by decide, by decide,
    autolink_dtor_detaches_reach.1 (fun _ => []) ringABCcopy 1 3 3 [2] [4] (by decide)
      (by decide) (fun _ _ => rfl)⟩,
   ⟨reach_ringABCcopy, by decide, by decide, by decide,
    autolink_dtor_detaches_reach.2 ringABCcopy 1 3 3 1 [2] [4] reach_ringABCcopy (by decide)
      (by decide) (by decide)⟩⟩

/-- C7: `Link::release` is idempotent. In every reachable state (a `Link` being
copied only while fewer than `2^32 - 1` `Link` objects hold its node) and for
every `Link`, `release()` returns, the `Link` is empty afterwards, the state
reached is again reachable, and a second `release()` on the same `Link` returns
that very state: every pointer, every count, the set of live nodes and the
`Link` objects are what they were. In any state at all, a release that returns
leaves the `Link` empty and a second one changes nothing; and a release on a
default-constructed `Link` changes nothing. -/
theorem link_release_idempotent_reach :
    (∀ (sl : Nat) (alive : Bool) (s : State) (l : Nat), Reach sl alive s →
      ∃ s1, Link.release s l = .ok s1 ∧ Reach sl alive s1 ∧ getLink s1 l = 0 ∧
        Link.release s1 l = .ok s1) ∧
    (∀ (s : State) (l : Nat) (s1 : State), Link.release s l = .ok s1 →
      getLink s1 l = 0 ∧ Link.release s1 l = .ok s1) ∧
    (∀ s : State,
      Link.release (Link.default s).1 (Link.default s).2 = .ok (Link.default s).1) := by
  refine ⟨?_, link_release_idempotent.1, link_release_idempotent.2.1⟩
  intro sl alive s l h
  obtain ⟨L, hi⟩ := reach_inv h
  obtain ⟨s1, _, e1, _, _, hl⟩ := step_release hi l
  exact ⟨s1, e1, Reach.step (Op.release l) h trivial e1, hl, link_release_empty hl⟩

theorem link_release_idempotent_reach_witness :
    (Reach 1 true ringABCcopy ∧
      ∃ s1, Link.release ringABCcopy 1 = .ok s1 ∧ Reach 1 true s1 ∧ getLink s1 1 = 0 ∧
        Link.release s1 1 = .ok s1) ∧
    (Reach 1 false tornABCcopy ∧
      ∃ s1, Link.release tornABCcopy 3 = .ok s1 ∧ Reach 1 false s1 ∧ getLink s1 3 = 0 ∧
        Link.release s1 3 = .ok s1) ∧
    (∃ s1, Link.release ringABC 1 = .ok s1 ∧ getLink s1 1 = 0 ∧ Link.release s1 1 = .ok s1) :=
  ⟨⟨reach_ringABCcopy, link_release_idempotent_reach.1 1 true ringABCcopy 1 reach_ringABCcopy⟩,
   ⟨reach_tornABCcopy, link_release_idempotent_reach.1 1 false tornABCcopy 3 reach_tornABCcopy⟩,
   ⟨_, rfl, link_release_idempotent_reach.2.1 ringABC 1 _ rfl⟩⟩

/-- C8: `~Link` never changes the `prev` or `next` of a node that it leaves
allocated. In a reachable state (a `Link` being copied only while fewer than
`2^32 - 1` `Link` objects hold its node) `~Link` on any `Link` returns and
leaves every node of the ring allocated, linked at the same position, so a fire
invokes the same handlers before and after. And there, copying a `Link` to a
linked node that fewer than `2^32 - 1` `Link` objects hold and then discarding
the original leaves the handler registered: the heap is what it was, the copy
holds the node and the next fire invokes the same handlers. -/
theorem link_dtor_keeps_ring_reach :
    (∀ (s : State) (l : Nat) (s1 : State), Link.dtor s l = .ok s1 →
      ∀ p, s1.heap p = none ∨
        (prevOf s1.heap p = prevOf s.heap p ∧ nextOf s1.heap p = nextOf s.heap p)) ∧
    (∀ (prog : Nat → List Action) (s : State) (sl l : Nat) (L : List Nat),
      Reach sl true s → Ring s sl L → (∀ t ∈ tagsOf s.heap L, prog t = []) →
      ∃ s1, Link.dtor s l = .ok s1 ∧ Reach sl true s1 ∧ Ring s1 sl L ∧
        (∀ a ∈ sl :: L, s1.heap a ≠ none ∧ prevOf s1.heap a = prevOf s.heap a ∧
          nextOf s1.heap a = nextOf s.heap a) ∧
        ∀ n, Slot.fire prog (n + L.length + 1) s sl =
            .ok { s with trace := s.trace ++ tagsOf s.heap L } ∧
          Slot.fire prog (n + L.length + 1) s1 sl =
            .ok { s1 with trace := s1.trace ++ tagsOf s.heap L }) ∧
    (∀ (prog : Nat → List Action) (s : State) (sl l : Nat) (L : List Nat),
      Reach sl true s → Ring s sl L → getLink s l ∈ L →
      linkCount s (getLink s l) + 1 < 4294967296 →
      (∀ t ∈ tagsOf s.heap L, prog t = []) →
      ∃ s1 c s2, Link.copy s l = .ok (s1, c) ∧ Link.dtor s1 l = .ok s2 ∧
        Reach sl true s2 ∧ s2.heap = s.heap ∧ Ring s2 sl L ∧
        getLink s2 c = getLink s l ∧ getLink s2 l = 0 ∧
        ∀ n, Slot.fire prog (n + L.length + 1) s2 sl =
          .ok { s2 with trace := s2.trace ++ tagsOf s.heap L }) := by
  refine ⟨link_dtor_keeps_ring.1, ?_, ?_⟩
  · intro prog s sl l L h hr hp
    have key : ∃ s1, Link.dtor s l = .ok s1 ∧ Ring s1 sl L ∧
        ∀ n, Slot.fire prog (n + L.length + 1) s1 sl =
          .ok { s1 with trace := s1.trace ++ tagsOf s.heap L } := by
      by_cases h0 : getLink s l = 0
      · exact ⟨s, link_dtor_empty h0, hr, fire_passive prog hr hp⟩
      by_cases hL : getLink s l ∈ L
      · obtain ⟨s1, e1, hr1, _, hf1⟩ :=
          link_dtor_keeps_ring.2.1 prog s sl l L hr hL (reach_owned h hr hL) hp
        exact ⟨s1, e1, hr1, hf1⟩
      · obtain ⟨L2, hi⟩ := reach_inv h
        obtain ⟨hxs, k, hk⟩ := inv_link_live hi rfl h0
        have e1 := link_dtor_live h0 hk
        obtain ⟨s1, hs1⟩ : ∃ s1, s1 = setLink (if k.refs = 0
            then { s with heap := Function.update s.heap (getLink s l) none }
            else writeSock s (getLink s l) { k with refs := wdec k.refs }) l 0 := ⟨_, rfl⟩
        rw [← hs1] at e1
        have hsame : ∀ a ∈ sl :: L, s1.heap a = s.heap a := by
          intro a ha
          have hax : a ≠ getLink s l := by
            intro c
            subst c
            rcases List.mem_cons.1 ha with c | c
            · exact hxs c
            · exact hL c
          rw [hs1]
          split_ifs
          · show Function.update s.heap (getLink s l) none a = _
            rw [Function.update_noteq hax]
          · show Function.update s.heap (getLink s l) _ a = _
            rw [Function.update_noteq hax]
        have hr1 : Ring s1 sl L := by
          apply ring_frame hr
          · intro a ha; rw [nextOf, nextOf, hsame a ha]
          · intro a ha; rw [prevOf, prevOf, hsame a ha]
          · intro a ha; rw [functorOf, functorOf, hsame a ha]
        have ht : tagsOf s1.heap L = tagsOf s.heap L := by
          apply tagsOf_congr
          intro a ha
          rw [functorOf, functorOf, hsame a (List.mem_cons_of_mem _ ha)]
        refine ⟨s1, e1, hr1, ?_⟩
        intro n
        have h3 := fire_passive prog hr1 (by rw [ht]; exact hp) n
        rw [ht] at h3
        exact h3
    obtain ⟨s1, e1, hr1, hf1⟩ := key
    refine ⟨s1, e1, Reach.step (Op.dtor l) h trivial e1, hr1, ?_, ?_⟩
    · intro a ha
      obtain ⟨ka, hka⟩ := hr1.live a ha
      have hne : s1.heap a ≠ none := by rw [hka]; exact Option.some_ne_none _
      rcases link_dtor_keeps_ring.1 s l s1 e1 a with c | c
      · exact absurd c hne
      · exact ⟨hne, c.1, c.2⟩
    · intro n
      exact ⟨fire_passive prog hr hp n, hf1 n⟩
  · intro prog s sl l L h hr hL hg hp
    obtain ⟨L2, hi⟩ := reach_inv h
    have h0 : getLink s l ≠ 0 := getLink_mem_ne_zero hr hL
    obtain ⟨hxs, k, hk⟩ := inv_link_live hi rfl h0
    have ho := inv_owned hi hxs hk
    have hroom : k.refs + 1 < 4294967296 := by
      have h1 := ho.1
      split_ifs at h1 <;> omega
    obtain ⟨s1, c, s2, ec, ed, hh, hr2, hc2, hl2, hf2⟩ :=
      link_dtor_keeps_ring.2.2 prog s sl l L k hr hL hk hroom hp
    have r1 : Reach sl true s1 := by
      refine Reach.step (Op.copy l) h (fun _ => hg) ?_
      simp only [Op.exec, ec, ok_bind, pure_ok]
    exact ⟨s1, c, s2, ec, ed, Reach.step (Op.dtor l) r1 trivial ed, hh, hr2, hc2, hl2, hf2⟩

theorem link_dtor_keeps_ring_reach_witness :
    (∃ s1, Link.dtor ringABCcopy 1 = .ok s1 ∧ ∀ p, s1.heap p = none ∨
        (prevOf s1.heap p = prevOf ringABCcopy.heap p ∧
          nextOf s1.heap p = nextOf ringABCcopy.heap p)) ∧
    (Reach 1 true ringABCcopy ∧ Ring ringABCcopy 1 [2, 3, 4] ∧
      ∃ s1, Link.dtor ringABCcopy 1 = .ok s1 ∧ Reach 1 true s1 ∧ Ring s1 1 [2, 3, 4] ∧
        (∀ a ∈ 1 :: [2, 3, 4], s1.heap a ≠ none ∧
          prevOf s1.heap a = prevOf ringABCcopy.heap a ∧
          nextOf s1.heap a = nextOf ringABCcopy.heap a) ∧
        ∀ n, Slot.fire (fun _ => []) (n + [2, 3, 4].length + 1) ringABCcopy 1 =
            .ok { ringABCcopy with
              trace := ringABCcopy.trace ++ tagsOf ringABCcopy.heap [2, 3, 4] } ∧
          Slot.fire (fun _ => []) (n + [2, 3, 4].length + 1) s1 1 =
            .ok { s1 with trace := s1.trace ++ tagsOf ringABCcopy.heap [2, 3, 4] }) ∧
    (Reach 1 true ringABC ∧ Ring ringABC 1 [2, 3, 4] ∧ getLink ringABC 1 ∈ [2, 3, 4] ∧
      linkCount ringABC (getLink ringABC 1) + 1 < 4294967296 ∧
      ∃ s1 c s2, Link.copy ringABC 1 = .ok (s1, c) ∧ Link.dtor s1 1 = .ok s2 ∧
        Reach 1 true s2 ∧ s2.heap = ringABC.heap ∧ Ring s2 1 [2, 3, 4] ∧
        getLink s2 c = getLink ringABC 1 ∧ getLink s2 1 = 0 ∧
        ∀ n, Slot.fire (fun _ => []) (n + [2, 3, 4].length + 1) s2 1 =
          .ok { s2 with trace := s2.trace ++ tagsOf ringABC.heap [2, 3, 4] }) :=
  ⟨⟨_, rfl, link_dtor_keeps_ring_reach.1 ringABCcopy 1 _ rfl⟩,
   ⟨reach_ringABCcopy, by decide,
    link_dtor_keeps_ring_reach.2.1 (fun _ => []) ringABCcopy 1 1 [2, 3, 4] reach_ringABCcopy
      (by decide) (fun _ _ => rfl)⟩,
   ⟨reach_ringABC, by decide, by decide, by decide,
    link_dtor_keeps_ring_reach.2.2 (fun _ => []) ringABC 1 1 [2, 3, 4] reach_ringABC
      (by decide) (by decide) (by decide) (fun _ _ => rfl)⟩⟩

/-- C9: in a reachable state (a `Link` being copied only while fewer than
`2^32 - 1` `Link` objects hold its node) a slot is destroyed while `Link`
objects to the handler node `x` are still held. The teardown does not destroy
`x` but detaches it (`prev = 0`) and lowers its count by one. Afterwards the
surviving `Link` objects are ended in any order, each by `release()` or by
`~Link`: every operation returns although the sentinel (and possibly former
neighbours) no longer exist, no other object is changed, the count is the
number of remaining `Link` objects minus one, and the node is destroyed exactly
by the operation on the last of them. Such an operation on a detached node
depends on, and changes, nothing but the object of that node. -/
theorem teardown_with_links_held_reach :
    (∀ (s : State) (sl x : Nat) (L : List Nat), Reach sl true s → Ring s sl L → x ∈ L →
      1 ≤ linkCount s x →
      ∃ s1 kx, (∀ n, Slot.dtor sl (n + L.length + 1) s = .ok s1) ∧ Reach sl false s1 ∧
        s.heap x = some kx ∧
        s1.heap x = some { kx with prev := 0, refs := kx.refs - 1 } ∧
        s1.heap sl = none ∧ s1.links = s.links ∧
        ∀ (ops : List (Bool × Nat)), (∀ o ∈ ops, getLink s o.2 = x) →
          (ops.map Prod.snd).Nodup → ops.length ≤ linkCount s x →
          ∃ s2, dropLinks s1 ops = .ok s2 ∧ (∀ p, p ≠ x → s2.heap p = s1.heap p) ∧
            (s2.heap x = none ↔ ops.length = linkCount s x) ∧
            (ops.length < linkCount s x →
              refsOf s2.heap x = some (linkCount s x - ops.length - 1))) ∧
    (∀ (s : State) (l : Nat) (kx : Socket) (rel : Bool), getLink s l ≠ 0 →
      s.heap (getLink s l) = some kx → kx.prev = 0 →
      (if rel then Link.release s l else Link.dtor s l) =
        .ok (setLink { s with heap := (Function.update s.heap (getLink s l)
          (if kx.refs = 0 then none else some { kx with refs := wdec kx.refs })) } l 0)) := by
  refine ⟨?_, teardown_with_links_held.2⟩
  intro s sl x L h hr hx hc
  obtain ⟨s1, kx, e1, hkx, h1x, h1sl, hl1, hops⟩ :=
    teardown_with_links_held.1 s sl x L hr hx (reach_owned h hr hx) hc
  exact ⟨s1, kx, e1, Reach.teardown _ h (e1 0), hkx, h1x, h1sl, hl1, hops⟩

theorem teardown_with_links_held_reach_witness :
    (Reach 1 true ringABCcopy ∧ Ring ringABCcopy 1 [2, 3, 4] ∧ 3 ∈ [2, 3, 4] ∧
      1 ≤ linkCount ringABCcopy 3 ∧
      ∃ s1 kx, (∀ n, Slot.dtor 1 (n + [2, 3, 4].length + 1) ringABCcopy = .ok s1) ∧
        Reach 1 false s1 ∧ ringABCcopy.heap 3 = some kx ∧
        s1.heap 3 = some { kx with prev := 0, refs := kx.refs - 1 } ∧
        s1.heap 1 = none ∧ s1.links = ringABCcopy.links ∧
        ∀ (ops : List (Bool × Nat)), (∀ o ∈ ops, getLink ringABCcopy o.2 = 3) →
          (ops.map Prod.snd).Nodup → ops.length ≤ linkCount ringABCcopy 3 →
          ∃ s2, dropLinks s1 ops = .ok s2 ∧ (∀ p, p ≠ 3 → s2.heap p = s1.heap p) ∧
            (s2.heap 3 = none ↔ ops.length = linkCount ringABCcopy 3) ∧
            (ops.length < linkCount ringABCcopy 3 →
              refsOf s2.heap 3 = some (linkCount ringABCcopy 3 - ops.length - 1))) ∧
    (getLink tornABCcopy 3 ≠ 0 ∧
      tornABCcopy.heap (getLink tornABCcopy 3) =
        some { prev := 0, next := 4, refs := 1, functor := some 8 } ∧
      (if true then Link.release tornABCcopy 3 else Link.dtor tornABCcopy 3) =
        .ok (setLink { tornABCcopy with heap := (Function.update tornABCcopy.heap
          (getLink tornABCcopy 3)
          (if ({ prev := 0, next := 4, refs := 1, functor := some 8 } : Socket).refs = 0 then none
            else some { ({ prev := 0, next := 4, refs := 1, functor := some 8 } : Socket) with
              refs := wdec 1 })) } 3 0)) :=
  ⟨⟨reach_ringABCcopy, by decide, by decide, by decide,
    teardown_with_links_held_reach.1 ringABCcopy 1 3 [2, 3, 4] reach_ringABCcopy (by decide)
      (by decide) (by decide)⟩,
   ⟨by decide, by decide,
    teardown_with_links_held_reach.2 tornABCcopy 3
      { prev := 0, next := 4, refs := 1, functor := some 8 } true (by decide) (by decide) rfl⟩⟩

/-- C18: on a well-formed ring of `n` nodes the loop of `~Slot` finishes after
exactly `n` iterations (fuel for `n` iterations and the final test is enough,
fuel for less is not) and ends with `sockets.next = &sockets`. Each iteration
handles the node that is first in the ring and leaves the rest of the chain,
so the nodes are visited in ring order; each node has `prev` set to null and
`decref()` called once, and nothing else changes. In a reachable state (a
`Link` being copied only while fewer than `2^32 - 1` `Link` objects hold its
node) a node whose only owner was the ring is destroyed, and a node still held
by a `Link` stays allocated with `prev = 0` and its count one lower;
afterwards the destructor ends the sentinel. -/
theorem teardown_walks_ring_once_reach :
    (∀ (s : State) (sl : Nat) (L : List Nat), Ring s sl L →
      ∃ s1, (∀ n, Slot.dtorLoop sl (n + L.length + 1) s = .ok s1) ∧
        Slot.dtorLoop sl L.length s = .error .fuel ∧
        nextOf s1.heap sl = some sl ∧
        (∀ n, Slot.dtor sl (n + L.length + 1) s =
          .ok { s1 with heap := Function.update s1.heap sl none }) ∧
        (∀ a ∈ L, ∀ ka, s.heap a = some ka → s1.heap a =
          if ka.refs = 0 then none else some { ka with prev := 0, refs := wdec ka.refs }) ∧
        (Reach sl true s → ∀ a ∈ L,
          (linkCount s a = 0 → s1.heap a = none) ∧
          (linkCount s a ≠ 0 → ∃ ka, s.heap a = some ka ∧
            s1.heap a = some { ka with prev := 0, refs := ka.refs - 1 })) ∧
        (∀ a, a ∉ sl :: L → s1.heap a = s.heap a) ∧ s1.links = s.links) ∧
    (∀ (s : State) (sl a : Nat) (L : List Nat) (ka : Socket), Ring s sl (a :: L) →
      s.heap a = some ka →
      ∃ sC, (∀ fuel, Slot.dtorLoop sl (fuel + 1) s = Slot.dtorLoop sl fuel sC) ∧
        Fwd sC.heap sl L sl ∧
        sC.heap a = (if ka.refs = 0 then none
          else some { ka with prev := 0, refs := wdec ka.refs }) ∧
        (∀ p, p ≠ sl → p ≠ a → sC.heap p = s.heap p)) := by
  refine ⟨?_, teardown_walks_ring_once.2⟩
  intro s sl L hr
  obtain ⟨s1, e1, eshort, hnext, hdtor, hfate, hframe, hlinks⟩ :=
    teardown_walks_ring_once.1 s sl L hr
  obtain ⟨s2, e2, _, _, _, _, hL2, _⟩ :=
    dtorLoop_spec sl L s (seg_fwd L sl sl hr.1) hr.2.1 hr.live
  have hs : s2 = s1 := by
    have h3 := e1 0
    rw [e2 0] at h3
    injection h3
  subst hs
  exact ⟨s2, e1, eshort, hnext, hdtor, hL2,
    fun h a ha => hfate a ha (reach_owned h hr ha), hframe, hlinks⟩

theorem teardown_walks_ring_once_reach_witness :
    (Ring ringABCcopy 1 [2, 3, 4] ∧ Reach 1 true ringABCcopy ∧
      ∃ s1, (∀ n, Slot.dtorLoop 1 (n + [2, 3, 4].length + 1) ringABCcopy = .ok s1) ∧
        Slot.dtorLoop 1 [2, 3, 4].length ringABCcopy = .error .fuel ∧
        nextOf s1.heap 1 = some 1 ∧
        (∀ n, Slot.dtor 1 (n + [2, 3, 4].length + 1) ringABCcopy =
          .ok { s1 with heap := Function.update s1.heap 1 none }) ∧
        (∀ a ∈ [2, 3, 4], ∀ ka, ringABCcopy.heap a = some ka → s1.heap a =
          if ka.refs = 0 then none else some { ka with prev := 0, refs := wdec ka.refs }) ∧
        (Reach 1 true ringABCcopy → ∀ a ∈ [2, 3, 4],
          (linkCount ringABCcopy a = 0 → s1.heap a = none) ∧
          (linkCount ringABCcopy a ≠ 0 → ∃ ka, ringABCcopy.heap a = some ka ∧
            s1.heap a = some { ka with prev := 0, refs := ka.refs - 1 })) ∧
        (∀ a, a ∉ 1 :: [2, 3, 4] → s1.heap a = ringABCcopy.heap a) ∧
        s1.links = ringABCcopy.links) ∧
    (Ring ringABCcopy 1 (2 :: [3, 4]) ∧
      ringABCcopy.heap 2 = some { prev := 1, next := 3, refs := 1, functor := some 7 } ∧
      ∃ sC, (∀ fuel, Slot.dtorLoop 1 (fuel + 1) ringABCcopy = Slot.dtorLoop 1 fuel sC) ∧
        Fwd sC.heap 1 [3, 4] 1 ∧
        sC.heap 2 = (if ({ prev := 1, next := 3, refs := 1, functor := some 7 } : Socket).refs
            = 0 then none
          else some { ({ prev := 1, next := 3, refs := 1, functor := some 7 } : Socket) with
            prev := 0, refs := wdec 1 }) ∧
        (∀ p, p ≠ 1 → p ≠ 2 → sC.heap p = ringABCcopy.heap p)) :=
  ⟨⟨by decide, reach_ringABCcopy,
    teardown_walks_ring_once_reach.1 ringABCcopy 1 [2, 3, 4] (by decide)⟩,
   ⟨by decide, rfl,
    teardown_walks_ring_once_reach.2 ringABCcopy 1 2 [3, 4]
      { prev := 1, next := 3, refs := 1, functor := some 7 } (by decide) rfl⟩⟩

end Sig0x
